import Mathlib

/-!
# resgate: per-connection subscription GC and the resource cache

A shallow embedding of `service/wsConnGC.go` (`tryDelete`, `traverse`) and of the
request and subscription entry points of `resourceCache/resourceCache.go`, with the
properties proved about them.

Conventions of the embedding:

* Pointers to `Subscription` objects are represented by the RID of the object; the objects
  of one connection are the entries of `c.subs`, so following `ref.sub` is a lookup by RID
  in that list.  Go maps are association lists with unique keys.  A RID that names no
  node of `c.subs` is skipped by a traversal; in the program every `refs` entry points to
  a node, and no theorem relies on the convention for such graphs.
* The recursion of `traverse` is bounded by a fuel argument (the recursion depth); a run
  that needs more depth ends in `gcError.outOfFuel`, so "the call returns" is "some fuel
  gives `.ok`", and "the call never returns" is "every fuel gives `outOfFuel`".
* Callbacks that close over mutable state take and return that state.
* Go `int` counters are `Int`: a traversal subtracts at most one per `refs` entry, so with
  the non-negative counters the program maintains no wrap-around can occur.
* Calls into code outside these two files (`Dispose`, the bus client, the codec) are
  recorded as events or taken as parameters.

Main results on the collector: the first traversal always returns and visits each node
once; a region without outside references is collected entirely; whatever a completed call
leaves in `subs` is anchored in a directly subscribed node.  The second traversal answers
`gcStateKeep` without storing it in the record, so it can dispose a node that an anchored
node still refers to, and it does not return when keep mode reaches a cycle.
-/

namespace Resgate

/-! ## service/wsConnGC.go -/

/-- The `gcState` enumeration, in declaration order. -/
inductive gcState where
  | gcStateStop
  | gcStateRoot
  | gcStateNone
  | gcStateDelete
  | gcStateKeep
  deriving DecidableEq

open gcState

/-- The fields of a per-connection `Subscription` node that the collector reads.
`refs` lists the RIDs of the referenced nodes in iteration order; a ref's pointer
`ref.sub` is represented by the RID of the node it points to.  The counters `direct` and
`indirect` are of the source's type `int` and are kept as integers without a bound. -/
structure Subscription where
  rid : String
  direct : Int
  indirect : Int
  refs : List String
  deriving DecidableEq

/-- The `subRef` bookkeeping record of the collector. -/
structure subRef where
  sub : Subscription
  indirect : Int
  state : gcState
  deriving DecidableEq

/-- The local `refs` map of `tryDelete`: RID to `subRef`, with unique keys. -/
abbrev RefMap := List (String × subRef)

/-- Map lookup `refs[k]`. -/
def mapGet : RefMap → String → Option subRef
  | [], _ => none
  | (k, v) :: m, x => if k = x then some v else mapGet m x

/-- In-place update of the record stored under `x` (mutation through the pointer). -/
def mapModify (f : subRef → subRef) : RefMap → String → RefMap
  | [], _ => []
  | (k, v) :: m, x => if k = x then (k, f v) :: m else (k, v) :: mapModify f m x

/-- Map store `refs[k] = v` for a key that is absent. -/
def mapAdd (m : RefMap) (k : String) (v : subRef) : RefMap := m ++ [(k, v)]

/-- The part of a `wsConn` the collector touches: the `subs` map (RID to node, stored as
the list of nodes keyed by their `rid`) and the record of `Dispose` calls. -/
structure wsConn where
  subs : List Subscription
  disposed : List String
  deriving DecidableEq

/-- Following a `*Subscription` pointer: the object with the given RID, looked up in the
connection's `subs`.  The lookup stands for the pointer on graphs in which every ref names
a node of `subs`; an object that a ref points to but that is not in `subs` has no
counterpart here. -/
def findSub (g : List Subscription) (r : String) : Option Subscription :=
  g.find? (fun n => n.rid = r)

/-- Ways in which a run does not return normally: the recursion goes deeper than the fuel
allows (`outOfFuel`), a field is read through a nil `*subRef` (`nilDeref`), or the debug
block panics with "No direct subscriptions found!" (`noDirect`). -/
inductive gcError where
  | outOfFuel
  | nilDeref
  | noDirect
  deriving DecidableEq

/-- The loop `for _, ref := range s.refs { visit(ref.sub) }` threaded through a state.
A RID that names no node of `subs` is passed over, whereas the source would visit the
object behind the pointer: the two agree on graphs in which every ref names a node of
`subs`, and the theorems that say exactly which nodes are recorded or disposed assume such
a graph. -/
def forRefs {σ : Type} (g : List Subscription) (visit : Subscription → σ → Except gcError σ) :
    List String → σ → Except gcError σ
  | [], st => .ok st
  | r :: rs, st =>
    match findSub g r with
    | none => forRefs g visit rs st
    | some t =>
      match visit t st with
      | .error e => .error e
      | .ok st1 => forRefs g visit rs st1

/-- The recursive `wsConn.traverse`.  The callback is a closure over mutable state in the
source; here it takes and returns that state.  `fuel` bounds the recursion depth. -/
def traverse {σ : Type} (g : List Subscription)
    (cb : Subscription → gcState → σ → Except gcError (σ × gcState)) :
    Nat → Subscription → gcState → σ → Except gcError σ
  | 0, _, _, _ => .error .outOfFuel
  | fuel + 1, s, state, st =>
    if s.direct > 0 then .ok st
    else
      match cb s state st with
      | .error e => .error e
      | .ok (st1, state1) =>
        if state1 = gcStateStop then .ok st1
        else forRefs g (fun t acc => traverse g cb fuel t state1 acc) s.refs st1

/-- The callback of the first traversal ("Count down indirect references").  The two
subtractions are on integers without a bound, where the source's `int` would wrap below its
least value; the pass only decrements, and the values it records are bounded where the
residuals are characterised. -/
def countDown (s : Subscription) (state : gcState) (refs : RefMap) :
    Except gcError (RefMap × gcState) :=
  if state = gcStateRoot then .ok (refs, gcStateNone)
  else
    match mapGet refs s.rid with
    | some _ =>
      .ok (mapModify (fun r => { r with indirect := r.indirect - 1 }) refs s.rid, gcStateStop)
    | none =>
      .ok (mapAdd refs s.rid { sub := s, indirect := s.indirect - 1, state := gcStateNone },
        gcStateNone)

/-- The callback of the second traversal ("Mark for deletion"). -/
def markDelete (s : Subscription) (state : gcState) (refs : RefMap) :
    Except gcError (RefMap × gcState) :=
  match mapGet refs s.rid with
  | none => .error .nilDeref
  | some r =>
    if r.state = gcStateKeep then .ok (refs, gcStateStop)
    else if r.indirect > 0 ∨ state = gcStateKeep then .ok (refs, gcStateKeep)
    else if r.state ≠ gcStateNone then .ok (refs, gcStateStop)
    else .ok (mapModify (fun r => { r with state := gcStateDelete }) refs s.rid, gcStateDelete)

/-- Modelled from the spec: `Subscription.Dispose` is not part of the available sources;
the spec says a disposed node releases its Event Subscription reference.  The call is
recorded by appending the node's RID to `disposed`. -/
def Dispose (c : wsConn) (s : Subscription) : wsConn :=
  { c with disposed := c.disposed ++ [s.rid] }

/-- The statement `delete(c.subs, rid)`. -/
def deleteSub (c : wsConn) (rid : String) : wsConn :=
  { c with subs := c.subs.filter (fun n => n.rid ≠ rid) }

/-- The sweep loop `for rid, ref := range refs`, in the order of the list (the source's map
iteration order is unspecified; it only affects the order of the `Dispose` calls). -/
def sweep : RefMap → wsConn → wsConn
  | [], c => c
  | (rid, ref) :: m, c =>
    if ref.state = gcStateDelete then sweep m (deleteSub (Dispose c ref.sub) rid)
    else sweep m c

/-- The condition computed by the debug block: some remaining node has `direct > 0`, or no
node remains. -/
def hasDirect (c : wsConn) : Bool :=
  c.subs.isEmpty || c.subs.any (fun n => decide (n.direct > 0))

/-- The initial `refs` map with the root record `rr`. -/
def rootRefs (s : Subscription) : RefMap :=
  [(s.rid, { sub := s, indirect := s.indirect, state := gcStateNone })]

/-- The function `wsConn.tryDelete`.  `debug` is the package-level flag, declared outside the
available sources; log output is not modelled.  `rr` is the pointer to the root's record,
read back from the map it was stored in. -/
def tryDelete (debug : Bool) (fuel : Nat) (c : wsConn) (s : Subscription) :
    Except gcError wsConn :=
  if s.direct > 0 then .ok c
  else
    match traverse c.subs countDown fuel s gcStateRoot (rootRefs s) with
    | .error e => .error e
    | .ok refs1 =>
      match mapGet refs1 s.rid with
      | none => .error .nilDeref
      | some rr =>
        if rr.indirect > 0 then .ok c
        else
          match traverse c.subs markDelete fuel s gcStateDelete refs1 with
          | .error e => .error e
          | .ok refs2 =>
            let c1 := sweep refs2 c
            if debug && !hasDirect c1 then .error .noDirect else .ok c1

/-! ## resourceCache/resourceCache.go -/

/-- A Go `error` value. -/
abbrev GoError := String

/-- A byte payload (`[]byte`, `json.RawMessage`). -/
abbrev Bytes := String

/-- A dynamically typed argument (`interface{}`); `none` is `nil`. -/
abbrev Any := Option String

/-- The handle `mq.Unsubscriber` returned by a successful bus subscribe. -/
structure Unsubscriber where
  subject : String
  deriving DecidableEq

/-- The fields of `EventSubscription` that `getSubscription` reads and writes. -/
structure EventSubscription where
  ResourceName : String
  count : Int
  mqSub : Option Unsubscriber
  deriving DecidableEq

/-- One call made on the bus client `c.mq`. -/
inductive BusCall where
  | Subscribe (subject : String)
  | SendRequest (subject : String) (payload : Bytes)
  deriving DecidableEq

/-- The cache: the registry `eventSubs` (name to record, unique keys) together with the
record of the calls made on `c.mq`, oldest first. -/
structure Cache where
  eventSubs : List (String × EventSubscription)
  bus : List BusCall
  deriving DecidableEq

/-- The bus client `mq.Client`, seen through the result of its `Subscribe` call. -/
structure MQ where
  Subscribe : String → Except GoError Unsubscriber

/-- Registry lookup `c.eventSubs[name]`. -/
def lookupSub : List (String × EventSubscription) → String → Option EventSubscription
  | [], _ => none
  | (k, e) :: m, x => if k = x then some e else lookupSub m x

/-- Registry store `c.eventSubs[name] = e`, replacing the record under an existing key. -/
def storeSub : List (String × EventSubscription) → String → EventSubscription →
    List (String × EventSubscription)
  | [], x, e => [(x, e)]
  | (k, v) :: m, x, e => if k = x then (k, e) :: m else (k, v) :: storeSub m x e

/-- Modelled from the spec: `EventSubscription.addCount` is not part of the available
sources; the lookup protocol says "find-or-create the Event Subscription, increment count"
and the source comment of `getSubscription` says it returns the existing record "after
adding its count".  The count goes up by one. -/
def addCount (e : EventSubscription) : EventSubscription :=
  { e with count := e.count + 1 }

/-- The function `Cache.getSubscription`.  The returned pointer is represented by the
record it points to; the cache is returned on the error path as well, since the registry
has already been written when the bus call is made. -/
def getSubscription (mq : MQ) (c : Cache) (name : String) (subscribe : Bool) :
    Cache × Except GoError EventSubscription :=
  let eventSub : EventSubscription :=
    match lookupSub c.eventSubs name with
    | none => { ResourceName := name, count := 1, mqSub := none }
    | some e => addCount e
  let c1 : Cache := { c with eventSubs := storeSub c.eventSubs name eventSub }
  if subscribe ∧ eventSub.mqSub = none then
    let c2 : Cache := { c1 with bus := c1.bus ++ [BusCall.Subscribe ("event." ++ name)] }
    match mq.Subscribe ("event." ++ name) with
    | .error err => (c2, .error err)
    | .ok mqSub =>
      let e2 : EventSubscription := { eventSub with mqSub := some mqSub }
      ({ c2 with eventSubs := storeSub c2.eventSubs name e2 }, .ok e2)
  else (c1, .ok eventSub)

/-- A `Subscriber`, seen through its accessor methods. -/
structure Subscriber where
  CID : String
  ResourceName : String
  ResourceQuery : String
  deriving DecidableEq

/-- What `Cache.Subscribe` does with the subscriber after the lookup. -/
inductive SubscribeOutcome where
  | Loaded (err : GoError)
  | addSubscriber (name : String) (sub : Subscriber)
  deriving DecidableEq

/-- The function `Cache.Subscribe`: `sub.Loaded(nil, err)` on a failed lookup, otherwise
`eventSub.addSubscriber(sub)`; both callees are outside the available sources and are
recorded as the outcome. -/
def Cache.Subscribe (mq : MQ) (c : Cache) (sub : Subscriber) : Cache × SubscribeOutcome :=
  match getSubscription mq c sub.ResourceName true with
  | (c1, .error err) => (c1, SubscribeOutcome.Loaded err)
  | (c1, .ok eventSub) => (c1, SubscribeOutcome.addSubscriber eventSub.ResourceName sub)

/-- A sequence of `Cache.Subscribe` calls, in order. -/
def subscribeAll (mq : MQ) : Cache → List Subscriber → Cache
  | c, [] => c
  | c, sub :: rest => subscribeAll mq (Cache.Subscribe mq c sub).1 rest

/-- Number of bus `Subscribe` calls on a subject in a call record. -/
def subscribeCalls (bus : List BusCall) (subject : String) : Nat :=
  bus.count (BusCall.Subscribe subject)

/-- The backend subscription currently attached to the record under `name`, if any. -/
def attachedSub (c : Cache) (name : String) : Option Unsubscriber :=
  (lookupSub c.eventSubs name).bind (fun e => e.mqSub)

/-- The result struct `AccessResult` of the codec. -/
structure AccessResult where
  Get : Bool
  Call : String
  deriving DecidableEq

/-- The struct `Access` handed to the callback of `Cache.Access`. -/
structure Access where
  AccessResult : Option AccessResult
  Error : Option GoError
  deriving DecidableEq

/-- The interface `codec.Requester`, seen through its connection id. -/
structure Requester where
  CID : String
  deriving DecidableEq

/-- The interface `codec.AuthRequester`, seen through its connection id. -/
structure AuthRequester where
  CID : String
  deriving DecidableEq

/-- A `Subscriber` is passed where a `codec.Requester` is expected. -/
def Subscriber.toRequester (sub : Subscriber) : Requester := { CID := sub.CID }

/-- The `codec` package is outside the available sources; its request builders and
response decoders are taken as given functions. -/
structure Codec where
  CreateRequest : Any → Requester → String → Any → Bytes
  CreateAuthRequest : Any → AuthRequester → String → Any → Bytes
  DecodeAccessResponse : Bytes → Option AccessResult × Option GoError
  DecodeCallResponse : Bytes → Option Bytes × Option GoError
  DecodeNewResponse : Bytes → String × Option GoError

/-- The decoders of the codec, by name. -/
inductive Decoder where
  | DecodeAccessResponse
  | DecodeCallResponse
  | DecodeNewResponse
  deriving DecidableEq

/-- One step of the task that `sendRequest` enqueues when the bus delivers a reply: a call
into a decoder, an invocation of the caller's callback with its arguments, or the final
`eventSub.removeCount(n)`. -/
inductive TaskStep (ρ : Type) where
  | decode (d : Decoder) (data : Bytes)
  | callback (arg : ρ)
  | removeCount (name : String) (n : Int)

/-- The handler a request operation passes to `sendRequest`, as the steps it performs on
a reply `(data, err)`. -/
abbrev ReplyHandler (ρ : Type) := Bytes → Option GoError → List (TaskStep ρ)

/-- The function `Cache.sendRequest`: take a reference on the record without subscribing,
issue the bus request, and on reply run `cb(data, err)` followed by
`eventSub.removeCount(1)` as one task on the record's queue. -/
def sendRequest {ρ : Type} (mq : MQ) (c : Cache) (rname subj : String) (payload : Bytes)
    (cb : ReplyHandler ρ) : Cache × ReplyHandler ρ :=
  let c1 := (getSubscription mq c rname false).1
  ({ c1 with bus := c1.bus ++ [BusCall.SendRequest subj payload] },
    fun data err => cb data err ++ [TaskStep.removeCount rname 1])

/-- The function `Cache.Access`. -/
def Cache.Access (mq : MQ) (codec : Codec) (c : Cache) (sub : Subscriber) (token : Any) :
    Cache × ReplyHandler Access :=
  let rname := sub.ResourceName
  let payload := codec.CreateRequest none sub.toRequester sub.ResourceQuery token
  let subj := "access." ++ rname
  sendRequest mq c rname subj payload (fun data err =>
    match err with
    | some e => [TaskStep.callback { AccessResult := none, Error := some e }]
    | none =>
      let r := codec.DecodeAccessResponse data
      [TaskStep.decode Decoder.DecodeAccessResponse data,
        TaskStep.callback { AccessResult := r.1, Error := r.2 }])

/-- The function `Cache.Call`. -/
def Cache.Call (mq : MQ) (codec : Codec) (c : Cache) (req : Requester)
    (rname query action : String) (token params : Any) :
    Cache × ReplyHandler (Option Bytes × Option GoError) :=
  let payload := codec.CreateRequest params req query token
  let subj := "call." ++ rname ++ "." ++ action
  sendRequest mq c rname subj payload (fun data err =>
    match err with
    | some e => [TaskStep.callback (none, some e)]
    | none =>
      [TaskStep.decode Decoder.DecodeCallResponse data,
        TaskStep.callback (codec.DecodeCallResponse data)])

/-- The function `Cache.CallNew`. -/
def Cache.CallNew (mq : MQ) (codec : Codec) (c : Cache) (req : Requester)
    (rname query : String) (token params : Any) :
    Cache × ReplyHandler (String × Option GoError) :=
  let payload := codec.CreateRequest params req query token
  let subj := "call." ++ rname ++ ".new"
  sendRequest mq c rname subj payload (fun data err =>
    match err with
    | some e => [TaskStep.callback ("", some e)]
    | none =>
      [TaskStep.decode Decoder.DecodeNewResponse data,
        TaskStep.callback (codec.DecodeNewResponse data)])

/-- The function `Cache.Auth`. -/
def Cache.Auth (mq : MQ) (codec : Codec) (c : Cache) (req : AuthRequester)
    (rname query action : String) (token params : Any) :
    Cache × ReplyHandler (Option Bytes × Option GoError) :=
  let payload := codec.CreateAuthRequest params req query token
  let subj := "auth." ++ rname ++ "." ++ action
  sendRequest mq c rname subj payload (fun data err =>
    match err with
    | some e => [TaskStep.callback (none, some e)]
    | none =>
      [TaskStep.decode Decoder.DecodeCallResponse data,
        TaskStep.callback (codec.DecodeCallResponse data)])

/-- The type `ResourcePattern` with `ParseResourcePattern`, `IsValid` and `Match` is outside
the available sources; the three functions are taken as given. -/
structure ResourcePatterns (P : Type) where
  ParseResourcePattern : String → P
  IsValid : P → Bool
  Match : P → String → Bool

/-- The first loop of `forEachMatch`: parse every string of `p` and keep the patterns that
are valid, in order. -/
def validPatterns {P : Type} (lib : ResourcePatterns P) : List String → List P
  | [] => []
  | r :: p =>
    let pattern := lib.ParseResourcePattern r
    if lib.IsValid pattern then pattern :: validPatterns lib p else validPatterns lib p

/-- The inner loop of `forEachMatch` for one registry entry: one invocation of `cb` on the
record for every pattern that matches the entry's name.  An invocation is represented by
the key and the record of the entry the pointer refers to. -/
def matchCalls {P : Type} (lib : ResourcePatterns P) (resourceName : String)
    (eventSub : EventSubscription) : List P → List (String × EventSubscription)
  | [] => []
  | pat :: ps =>
    if lib.Match pat resourceName then
      (resourceName, eventSub) :: matchCalls lib resourceName eventSub ps
    else matchCalls lib resourceName eventSub ps

/-- The outer loop of `forEachMatch` over the registry, in the iteration order of the
list. -/
def eachSub {P : Type} (lib : ResourcePatterns P) (patterns : List P) :
    List (String × EventSubscription) → List (String × EventSubscription)
  | [] => []
  | (resourceName, eventSub) :: m =>
    matchCalls lib resourceName eventSub patterns ++ eachSub lib patterns m

/-- The function `Cache.forEachMatch`, as the list of invocations of `cb` it makes. -/
def forEachMatch {P : Type} (lib : ResourcePatterns P) (c : Cache) (p : List String) :
    List (String × EventSubscription) :=
  if p.length = 0 then []
  else eachSub lib (validPatterns lib p) c.eventSubs

/-- The decoded payload of a system reset. -/
structure SystemReset where
  Resources : List String
  Access : List String
  deriving DecidableEq

/-- A call of one of the two reset handlers of an `EventSubscription`; both handlers are
outside the available sources and are recorded by name. -/
inductive ResetCall where
  | handleResetResource (name : String) (e : EventSubscription)
  | handleResetAccess (name : String) (e : EventSubscription)
  deriving DecidableEq

/-- The function `Cache.handleSystemReset`, as the list of handler calls it makes;
`DecodeSystemReset` is the codec's decoder, on whose error the function logs and
returns. -/
def handleSystemReset {P : Type} (lib : ResourcePatterns P)
    (DecodeSystemReset : Bytes → Except GoError SystemReset) (c : Cache) (payload : Bytes) :
    List ResetCall :=
  match DecodeSystemReset payload with
  | .error _ => []
  | .ok r =>
    (forEachMatch lib c r.Resources).map (fun x => ResetCall.handleResetResource x.1 x.2) ++
      (forEachMatch lib c r.Access).map (fun x => ResetCall.handleResetAccess x.1 x.2)

/-- Number of strings of `p` that parse as a valid pattern matching `name`. -/
def validMatches {P : Type} (lib : ResourcePatterns P) (p : List String) (name : String) : Nat :=
  (p.filter (fun r => lib.IsValid (lib.ParseResourcePattern r) &&
    lib.Match (lib.ParseResourcePattern r) name)).length

/-! ## Specification vocabulary -/

/-- The keys of a `refs` map, in insertion order. -/
def keys (m : RefMap) : List String := m.map Prod.fst

/-- `Reach g a b`: node `b` is reachable from node `a` through `refs`, every RID on the way
(both ends included) naming a node of `g`. -/
inductive Reach (g : List Subscription) : String → String → Prop where
  | refl {a : String} {t : Subscription} : findSub g a = some t → Reach g a a
  | step {a b z : String} {t u : Subscription} :
      Reach g a b → findSub g b = some t → z ∈ t.refs → findSub g z = some u → Reach g a z

/-- Number of `refs` entries of the nodes in `l` that point to `x`. -/
def inEdges (l : List Subscription) (x : String) : Nat :=
  (l.map (fun n => n.refs.count x)).sum

/-- A callback instrumented with a record of the descents of the traversal: `traverse`
enters the loop over `s.refs` exactly when the callback returns a state other than
`gcStateStop`, and then the RID of `s` is appended together with that state (the mode in
which the `refs` of `s` are visited). -/
def logged {σ : Type} (cb : Subscription → gcState → σ → Except gcError (σ × gcState)) :
    Subscription → gcState → σ × List (String × gcState) →
      Except gcError ((σ × List (String × gcState)) × gcState) :=
  fun s state acc =>
    match cb s state acc.1 with
    | .error e => .error e
    | .ok (st1, state1) =>
      .ok ((st1, if state1 = gcStateStop then acc.2 else acc.2 ++ [(s.rid, state1)]), state1)

/-- The RIDs descended into in delete mode, in order. -/
def deleteDescents (log : List (String × gcState)) : List String :=
  (log.filter (fun e => decide (e.2 = gcStateDelete))).map Prod.fst

/-! ## Example graphs -/

/-- Scenario 6 of the spec with the external anchor: A → B → C → B and D (direct = 1) → C,
after A has been unsubscribed. -/
def anchoredCycle : List Subscription :=
  [{ rid := "A", direct := 0, indirect := 0, refs := ["B"] },
   { rid := "B", direct := 0, indirect := 2, refs := ["C"] },
   { rid := "C", direct := 0, indirect := 2, refs := ["B"] },
   { rid := "D", direct := 1, indirect := 0, refs := ["C"] }]

/-- The root A of `anchoredCycle`. -/
def anchoredCycleRoot : Subscription :=
  { rid := "A", direct := 0, indirect := 0, refs := ["B"] }

/-- Scenario 6 of the spec without the anchor: A → B → C → B, after A has been
unsubscribed. -/
def closedCycle : List Subscription :=
  [{ rid := "A", direct := 0, indirect := 0, refs := ["B"] },
   { rid := "B", direct := 0, indirect := 2, refs := ["C"] },
   { rid := "C", direct := 0, indirect := 1, refs := ["B"] }]

/-- The root A of `closedCycle`. -/
def closedCycleRoot : Subscription :=
  { rid := "A", direct := 0, indirect := 0, refs := ["B"] }

/-- An acyclic graph: A → B, A → C, C → B and D (direct = 1) → C, after A has been
unsubscribed.  B is referenced by the anchored node C. -/
def sharedChild : List Subscription :=
  [{ rid := "A", direct := 0, indirect := 0, refs := ["B", "C"] },
   { rid := "B", direct := 0, indirect := 2, refs := [] },
   { rid := "C", direct := 0, indirect := 2, refs := ["B"] },
   { rid := "D", direct := 1, indirect := 0, refs := ["C"] }]

/-- The root A of `sharedChild`. -/
def sharedChildRoot : Subscription :=
  { rid := "A", direct := 0, indirect := 0, refs := ["B", "C"] }

/-- A root whose only reference comes from a directly subscribed node: D (direct = 1) → A,
after A has been unsubscribed. -/
def anchoredRoot : List Subscription :=
  [{ rid := "A", direct := 0, indirect := 1, refs := [] },
   { rid := "D", direct := 1, indirect := 0, refs := ["A"] }]

/-- A bus client whose `Subscribe` call fails with a connection error. -/
def failingBus : MQ := { Subscribe := fun _ => .error "system.connectionError" }

/-- A pattern library for examples: a pattern is its string, valid when non-empty, and it
matches the name equal to it. -/
def literalPatterns : ResourcePatterns String :=
  { ParseResourcePattern := fun r => r
    IsValid := fun pat => decide (pat ≠ "")
    Match := fun pat name => decide (pat = name) }

/-- A registry with two resident records. -/
def twoRecords : Cache :=
  { eventSubs := [("test.model", { ResourceName := "test.model", count := 1, mqSub := none }),
                  ("test.collection",
                    { ResourceName := "test.collection", count := 2, mqSub := none })],
    bus := [] }

/-! ## Proof vocabulary -/

/-- Whether `x` names a node the traversals enter: a node of `g` with `direct ≤ 0`. -/
def elig (g : List Subscription) (x : String) : Bool :=
  match findSub g x with
  | some t => decide (t.direct ≤ 0)
  | none => false

/-- The `refs` of the node named `x` (empty when there is none). -/
def refsOf (g : List Subscription) (x : String) : List String :=
  match findSub g x with
  | some t => t.refs
  | none => []

/-- The `indirect` counter of the node named `x` (zero when there is none). -/
def indirectOf (g : List Subscription) (x : String) : Int :=
  match findSub g x with
  | some t => t.indirect
  | none => 0

/-- Number of `refs` entries of node `k` that point to `x` and are followed by a
traversal, that is, with `x` a node that the traversals enter. -/
def followed (g : List Subscription) (k x : String) : Nat :=
  if elig g x then (refsOf g k).count x else 0

/-- Number of followed `refs` entries from the nodes named in `ks` to `x`. -/
def followedSum (g : List Subscription) (ks : List String) (x : String) : Nat :=
  (ks.map (fun k => followed g k x)).sum

/-- The counter the first traversal holds for `x`: the recorded residual once `x` has a
record, the node's own `indirect` before. -/
def cnt (g : List Subscription) (m : RefMap) (x : String) : Int :=
  match mapGet m x with
  | some r => r.indirect
  | none => indirectOf g x

/-- Number of distinct RIDs of `g` without a record in `m`. -/
def pending (g : List Subscription) (m : RefMap) : Nat :=
  (((g.map (fun n => n.rid)).dedup).filter (fun r => decide (r ∉ keys m))).length

/-- Well-formedness of the `refs` map during the first traversal: unique keys, every
record in state `gcStateNone` and stored under the RID of its node. -/
def CountInv (m : RefMap) : Prop :=
  (keys m).Nodup ∧ ∀ k r, mapGet m k = some r → r.state = gcStateNone ∧ r.sub.rid = k

/-- Number of entries of `rs` that point to `x` and are followed by a traversal. -/
def entered (g : List Subscription) (rs : List String) (x : String) : Nat :=
  if elig g x then rs.count x else 0

/-- What a stretch of the first traversal has done, from map `m` to map `m2`, when it was
started through the `refs` entries `rs`: it added records for the nodes `N`, in this order,
each of them a node the traversal enters and satisfying `Q`; every counter went down by the
number of followed entries of `rs` and of the `refs` of the nodes `N` that point to it;
every node of `N` has all the nodes it refers to recorded, and so has every entry of
`rs`. -/
structure CountPost (g : List Subscription) (Q : String → Prop) (m m2 : RefMap)
    (N rs : List String) : Prop where
  inv : CountInv m2
  keys_eq : keys m2 = keys m ++ N
  cnt_eq : ∀ x, cnt g m2 x = cnt g m x - (entered g rs x : Int) - (followedSum g N x : Int)
  closed : ∀ k ∈ N, ∀ y ∈ refsOf g k, elig g y = true → y ∈ keys m2
  fresh : ∀ k ∈ N, elig g k = true ∧ Q k
  entered_mem : ∀ r ∈ rs, elig g r = true → r ∈ keys m2

/-- `ReachVia g ok a b`: `b` is reachable from `a` through `refs`, every RID on the way
(both ends included) naming a node of `g` and satisfying `ok`. -/
inductive ReachVia (g : List Subscription) (ok : String → Prop) : String → String → Prop where
  | refl {a : String} : ok a → (∃ t, findSub g a = some t) → ReachVia g ok a a
  | step {a b z : String} :
      ReachVia g ok a b → z ∈ refsOf g b → ok z → (∃ u, findSub g z = some u) →
      ReachVia g ok a z

/-- The candidate deletion region of a root: the nodes reachable from it along `refs`
paths all of whose nodes have `direct ≤ 0`. -/
def Region (g : List Subscription) (a b : String) : Prop :=
  ReachVia g (fun x => elig g x = true) a b

/-- The outcome of the first traversal from a root `s` that is the node of `g` under its
RID: the recorded nodes are exactly closed under followed `refs`, all lie in the region of
`s`, and each recorded residual is the node's `indirect` minus the number of followed
`refs` entries of recorded nodes that point to it. -/
structure CountResult (g : List Subscription) (s : Subscription) (m : RefMap) : Prop where
  inv : CountInv m
  root_mem : s.rid ∈ keys m
  region : ∀ k ∈ keys m, Region g s.rid k
  closed : ∀ k ∈ keys m, ∀ y ∈ refsOf g k, elig g y = true → y ∈ keys m
  resid : ∀ x, cnt g m x = indirectOf g x - (followedSum g (keys m) x : Int)

/-- How the `refs` map may change during the second traversal: the keys, residuals and
nodes stay, and a state changes at most from `gcStateNone` to `gcStateDelete`, and only
where the residual is not positive. -/
def MarkLe (m m2 : RefMap) : Prop :=
  keys m2 = keys m ∧
  ∀ k r, mapGet m k = some r →
    ∃ r2, mapGet m2 k = some r2 ∧ r2.indirect = r.indirect ∧ r2.sub = r.sub ∧
      (r2.state = r.state ∨
        (r.state = gcStateNone ∧ r2.state = gcStateDelete ∧ r.indirect ≤ 0))

/-- The record under `k` is marked `gcStateDelete`. -/
def isDel (m : RefMap) (k : String) : Prop :=
  ∃ r, mapGet m k = some r ∧ r.state = gcStateDelete

/-- No record is in a state other than `gcStateNone` and `gcStateDelete`. -/
def NoKeep (m : RefMap) : Prop :=
  ∀ k r, mapGet m k = some r → r.state = gcStateNone ∨ r.state = gcStateDelete

/-- A node the traversals enter has a record, and that record is marked `gcStateDelete`
unless its residual is positive. -/
def VisitDone (g : List Subscription) (m : RefMap) (y : String) : Prop :=
  elig g y = true → ∃ r, mapGet m y = some r ∧ (r.indirect ≤ 0 → r.state = gcStateDelete)

/-- What a stretch of the second traversal has done, from map `m` to map `m2`: the map
changed as `MarkLe` allows, and every node it marked has had all its `refs` visited in
delete mode. -/
structure MarkPost (g : List Subscription) (m m2 : RefMap) : Prop where
  le : MarkLe m m2
  done : ∀ k, isDel m2 k → ¬ isDel m k → ∀ y ∈ refsOf g k, VisitDone g m2 y

/-- Whether the record under `k` is in state `gcStateNone`. -/
def isNoneAt (m : RefMap) (k : String) : Bool :=
  match mapGet m k with
  | some r => decide (r.state = gcStateNone)
  | none => false

/-- Number of records still in state `gcStateNone`. -/
def noneCount (m : RefMap) : Nat := ((keys m).filter (isNoneAt m)).length

/-- The situation in which the second traversal never answers `gcStateKeep`: no residual is
positive, and the recorded nodes are closed under followed `refs`. -/
structure MarkPre (g : List Subscription) (m : RefMap) : Prop where
  noKeep : NoKeep m
  nonpos : ∀ k r, mapGet m k = some r → r.indirect ≤ 0
  closed : ∀ k ∈ keys m, ∀ y ∈ refsOf g k, elig g y = true → y ∈ keys m

/-- The keys of the records marked `gcStateDelete`, in map order. -/
def delKeys (m : RefMap) : List String :=
  (m.filter (fun e => decide (e.2.state = gcStateDelete))).map Prod.fst

/-- The RIDs of the nodes of the records marked `gcStateDelete`, in map order. -/
def delSubs (m : RefMap) : List String :=
  (m.filter (fun e => decide (e.2.state = gcStateDelete))).map (fun e => e.2.sub.rid)

/-- What a stretch of the logged second traversal appends to the record of descents: each
node descended into in delete mode is marked in this stretch, and at most once. -/
structure MarkLog (m m2 : RefMap) (N : List (String × gcState)) : Prop where
  mono : ∀ k, isDel m k → isDel m2 k
  marked : ∀ k ∈ deleteDescents N, isDel m2 k ∧ ¬ isDel m k
  nodup : (deleteDescents N).Nodup

/-- The candidate deletion region as the spec words it: the nodes reachable from a root
along `refs` paths all of whose nodes have `direct = 0`. -/
def ZeroRegion (g : List Subscription) (a b : String) : Prop :=
  ReachVia g (fun x => ∃ t, findSub g x = some t ∧ t.direct = 0) a b

/-- A callback that fails instead of running `cb` when it is handed a node with
`direct > 0`. -/
def guarded {σ : Type} (cb : Subscription → gcState → σ → Except gcError (σ × gcState)) :
    Subscription → gcState → σ → Except gcError (σ × gcState) :=
  fun s state st => if s.direct > 0 then .error .nilDeref else cb s state st

/-! ## Theorems -/

/-! ### The resource cache -/

theorem lookupSub_storeSub_same (m : List (String × EventSubscription)) (x : String)
    (e : EventSubscription) : lookupSub (storeSub m x e) x = some e := by
  induction m with
  | nil => simp [storeSub, lookupSub]
  | cons p m ih =>
    obtain ⟨k, v⟩ := p
    by_cases h : k = x
    · simp [storeSub, lookupSub, h]
    · simp [storeSub, lookupSub, h, ih]

theorem lookupSub_storeSub_other (m : List (String × EventSubscription)) (x y : String)
    (e : EventSubscription) (hxy : y ≠ x) :
    lookupSub (storeSub m x e) y = lookupSub m y := by
  induction m with
  | nil => simp [storeSub, lookupSub, Ne.symm hxy]
  | cons p m ih =>
    obtain ⟨k, v⟩ := p
    by_cases h : k = x
    · subst h
      simp [storeSub, lookupSub, Ne.symm hxy]
    · by_cases h2 : k = y
      · subst h2
        simp [storeSub, lookupSub, h]
      · simp [storeSub, lookupSub, h, h2, ih]

/-- C7. `getSubscription(name, false)` returns without error the record that is registered
under `name` afterwards: a fresh record with `ResourceName = name`, `count = 1` and no
backend subscription when none existed, otherwise the existing record with its count
raised by exactly one; lookups under every other name are unchanged and no bus call is
made. -/
theorem getSubscription_find_or_create (mq : MQ) (c : Cache) (name : String) :
    ∃ e : EventSubscription,
      (getSubscription mq c name false).2 = .ok e ∧
      lookupSub (getSubscription mq c name false).1.eventSubs name = some e ∧
      (lookupSub c.eventSubs name = none →
        e = { ResourceName := name, count := 1, mqSub := none }) ∧
      (∀ e0, lookupSub c.eventSubs name = some e0 →
        e = { e0 with count := e0.count + 1 }) ∧
      (∀ other, other ≠ name →
        lookupSub (getSubscription mq c name false).1.eventSubs other
          = lookupSub c.eventSubs other) ∧
      (getSubscription mq c name false).1.bus = c.bus := by
  cases h : lookupSub c.eventSubs name with
  | none =>
    refine ⟨{ ResourceName := name, count := 1, mqSub := none }, ?_, ?_, ?_, ?_, ?_, ?_⟩
    · simp [getSubscription, h]
    · simp [getSubscription, h, lookupSub_storeSub_same]
    · intro _; rfl
    · intro e0 h0; cases h0
    · intro other ho
      simp [getSubscription, h, lookupSub_storeSub_other _ _ _ _ ho]
    · simp [getSubscription, h]
  | some e0 =>
    refine ⟨{ e0 with count := e0.count + 1 }, ?_, ?_, ?_, ?_, ?_, ?_⟩
    · simp [getSubscription, h, addCount]
    · simp [getSubscription, h, addCount, lookupSub_storeSub_same]
    · intro h0; cases h0
    · intro e1 h1; cases h1; rfl
    · intro other ho
      simp [getSubscription, h, lookupSub_storeSub_other _ _ _ _ ho]
    · simp [getSubscription, h]

theorem getSubscription_bus (mq : MQ) (c : Cache) (name : String) (subscribe : Bool) :
    (getSubscription mq c name subscribe).1.bus =
      c.bus ++ (if subscribe = true ∧ attachedSub c name = none
        then [BusCall.Subscribe ("event." ++ name)] else []) := by
  unfold getSubscription attachedSub
  cases h : lookupSub c.eventSubs name with
  | none =>
    cases subscribe
    · simp
    · cases hm : mq.Subscribe ("event." ++ name) <;> simp [hm]
  | some e0 =>
    cases subscribe
    · simp
    · cases he : e0.mqSub with
      | none => cases hm : mq.Subscribe ("event." ++ name) <;> simp [hm, addCount, he]
      | some u => simp [addCount, he]

theorem getSubscription_attached_other (mq : MQ) (c : Cache) (name other : String)
    (subscribe : Bool) (h : other ≠ name) :
    attachedSub (getSubscription mq c name subscribe).1 other = attachedSub c other := by
  unfold getSubscription attachedSub
  cases hl : lookupSub c.eventSubs name with
  | none =>
    cases subscribe
    · simp [lookupSub_storeSub_other _ _ _ _ h]
    · cases hm : mq.Subscribe ("event." ++ name) <;>
        simp [hm, lookupSub_storeSub_other _ _ _ _ h]
  | some e0 =>
    cases subscribe
    · simp [lookupSub_storeSub_other _ _ _ _ h]
    · cases he : e0.mqSub with
      | none =>
        cases hm : mq.Subscribe ("event." ++ name) <;>
          simp [hm, addCount, he, lookupSub_storeSub_other _ _ _ _ h]
      | some u => simp [addCount, he, lookupSub_storeSub_other _ _ _ _ h]

theorem getSubscription_attached_false (mq : MQ) (c : Cache) (name x : String) :
    attachedSub (getSubscription mq c name false).1 x = attachedSub c x := by
  by_cases h : x = name
  · subst h
    unfold getSubscription attachedSub
    cases hl : lookupSub c.eventSubs x with
    | none => simp [lookupSub_storeSub_same]
    | some e0 => simp [lookupSub_storeSub_same, addCount]
  · exact getSubscription_attached_other mq c name x false h

theorem getSubscription_attached_true (mq : MQ) (c : Cache) (name : String) (u : Unsubscriber)
    (h : attachedSub c name = some u) :
    attachedSub (getSubscription mq c name true).1 name = some u := by
  unfold getSubscription
  unfold attachedSub at h ⊢
  cases hl : lookupSub c.eventSubs name with
  | none => simp [hl] at h
  | some e0 =>
    simp [hl] at h
    simp [addCount, h, lookupSub_storeSub_same]

theorem getSubscription_attach (mq : MQ) (c : Cache) (name : String) (u : Unsubscriber)
    (h : attachedSub c name = none) (hm : mq.Subscribe ("event." ++ name) = .ok u) :
    attachedSub (getSubscription mq c name true).1 name = some u := by
  unfold getSubscription
  unfold attachedSub at h ⊢
  cases hl : lookupSub c.eventSubs name with
  | none => simp [hm, lookupSub_storeSub_same]
  | some e0 =>
    simp [hl] at h
    simp [addCount, h, hm, lookupSub_storeSub_same]

theorem Subscribe_cache (mq : MQ) (c : Cache) (sub : Subscriber) :
    (Cache.Subscribe mq c sub).1 = (getSubscription mq c sub.ResourceName true).1 := by
  unfold Cache.Subscribe
  rcases hg : getSubscription mq c sub.ResourceName true with ⟨c1, r⟩
  cases r <;> rfl

theorem subscribeAll_attached (mq : MQ) (name : String) (u : Unsubscriber)
    (subs : List Subscriber) (hs : ∀ sub ∈ subs, sub.ResourceName = name) :
    ∀ c : Cache, attachedSub c name = some u →
      subscribeCalls (subscribeAll mq c subs).bus ("event." ++ name)
        = subscribeCalls c.bus ("event." ++ name) := by
  induction subs with
  | nil => intro c _; rfl
  | cons sub rest ih =>
    intro c hc
    have hn : sub.ResourceName = name := hs sub (List.mem_cons_self _ _)
    have hrest : ∀ s ∈ rest, s.ResourceName = name :=
      fun s hmem => hs s (List.mem_cons_of_mem _ hmem)
    simp only [subscribeAll]
    rw [Subscribe_cache, hn, ih hrest _ (getSubscription_attached_true mq c name u hc),
      getSubscription_bus]
    simp [hc]

/-- C8. A backend subscription is attached only on the subscribe path and at most once per
RID: `getSubscription(name, subscribe)` makes the bus call `Subscribe("event." + name)`
exactly when `subscribe` is true and the record under `name` has no backend subscription,
and makes no other bus call; the one-shot request operations `Access`, `Call`, `CallNew`
and `Auth` leave every record's backend subscription as it was and add no bus subscribe;
and a non-empty sequence of `Subscribe` calls for `name`, starting without a backend
subscription and with the bus accepting the subscribe, performs exactly one bus subscribe
(none when a backend subscription is already attached). -/
theorem backend_subscribe_only_on_subscribe_path (mq : MQ) (codec : Codec) (c : Cache)
    (name : String) :
    (∀ subscribe : Bool,
      (getSubscription mq c name subscribe).1.bus =
        c.bus ++ (if subscribe = true ∧ attachedSub c name = none
          then [BusCall.Subscribe ("event." ++ name)] else [])) ∧
    (∀ (sub : Subscriber) (req : Requester) (areq : AuthRequester) (query action : String)
        (token params : Any) (x subject : String),
      (attachedSub (Cache.Access mq codec c sub token).1 x = attachedSub c x ∧
        subscribeCalls (Cache.Access mq codec c sub token).1.bus subject
          = subscribeCalls c.bus subject) ∧
      (attachedSub (Cache.Call mq codec c req name query action token params).1 x
          = attachedSub c x ∧
        subscribeCalls (Cache.Call mq codec c req name query action token params).1.bus subject
          = subscribeCalls c.bus subject) ∧
      (attachedSub (Cache.CallNew mq codec c req name query token params).1 x
          = attachedSub c x ∧
        subscribeCalls (Cache.CallNew mq codec c req name query token params).1.bus subject
          = subscribeCalls c.bus subject) ∧
      (attachedSub (Cache.Auth mq codec c areq name query action token params).1 x
          = attachedSub c x ∧
        subscribeCalls (Cache.Auth mq codec c areq name query action token params).1.bus subject
          = subscribeCalls c.bus subject)) ∧
    (∀ (sub : Subscriber) (rest : List Subscriber) (u : Unsubscriber),
      (∀ s ∈ sub :: rest, s.ResourceName = name) →
      (attachedSub c name = none → mq.Subscribe ("event." ++ name) = .ok u →
        subscribeCalls (subscribeAll mq c (sub :: rest)).bus ("event." ++ name)
          = subscribeCalls c.bus ("event." ++ name) + 1) ∧
      (attachedSub c name = some u →
        subscribeCalls (subscribeAll mq c (sub :: rest)).bus ("event." ++ name)
          = subscribeCalls c.bus ("event." ++ name))) := by
  refine ⟨fun subscribe => getSubscription_bus mq c name subscribe, ?_, ?_⟩
  · intro sub req areq query action token params x subject
    refine ⟨⟨?_, ?_⟩, ⟨?_, ?_⟩, ⟨?_, ?_⟩, ⟨?_, ?_⟩⟩
    · exact getSubscription_attached_false mq c _ x
    · simp [Cache.Access, sendRequest, subscribeCalls, getSubscription_bus, List.count_append]
    · exact getSubscription_attached_false mq c _ x
    · simp [Cache.Call, sendRequest, subscribeCalls, getSubscription_bus, List.count_append]
    · exact getSubscription_attached_false mq c _ x
    · simp [Cache.CallNew, sendRequest, subscribeCalls, getSubscription_bus, List.count_append]
    · exact getSubscription_attached_false mq c _ x
    · simp [Cache.Auth, sendRequest, subscribeCalls, getSubscription_bus, List.count_append]
  · intro sub rest u hs
    have hn : sub.ResourceName = name := hs sub (List.mem_cons_self _ _)
    have hrest : ∀ s ∈ rest, s.ResourceName = name :=
      fun s hmem => hs s (List.mem_cons_of_mem _ hmem)
    refine ⟨fun hc hm => ?_, fun hc => subscribeAll_attached mq name u _ hs c hc⟩
    simp only [subscribeAll]
    rw [Subscribe_cache, hn,
      subscribeAll_attached mq name u rest hrest _ (getSubscription_attach mq c name u hc hm),
      getSubscription_bus]
    simp [hc, subscribeCalls, List.count_append]

theorem sendRequest_bus {ρ : Type} (mq : MQ) (c : Cache) (rname subj : String) (payload : Bytes)
    (cb : ReplyHandler ρ) :
    (sendRequest mq c rname subj payload cb).1.bus
      = c.bus ++ [BusCall.SendRequest subj payload] := by
  simp [sendRequest, getSubscription_bus]

/-- C9. Each cache request operation appends exactly one call to the record of bus calls,
a request, and its subject is `"access." + rname` for `Access`,
`"call." + rname + "." + action` for `Call`, `"call." + rname + ".new"` for `CallNew` (the
`Call` subject for action `new`) and `"auth." + rname + "." + action` for `Auth`.  On
`test.model` with action `method`, `Call` uses `call.test.model.method`; on
`test.collection`, `CallNew` uses `call.test.collection.new`. -/
theorem request_subjects (mq : MQ) (codec : Codec) (c : Cache) (sub : Subscriber)
    (req : Requester) (areq : AuthRequester)
    (rname query action : String) (token params : Any) :
    (Cache.Access mq codec c sub token).1.bus
      = c.bus ++ [BusCall.SendRequest ("access." ++ sub.ResourceName)
          (codec.CreateRequest none sub.toRequester sub.ResourceQuery token)] ∧
    (Cache.Call mq codec c req rname query action token params).1.bus
      = c.bus ++ [BusCall.SendRequest ("call." ++ rname ++ "." ++ action)
          (codec.CreateRequest params req query token)] ∧
    (Cache.CallNew mq codec c req rname query token params).1.bus
      = c.bus ++ [BusCall.SendRequest ("call." ++ rname ++ ".new")
          (codec.CreateRequest params req query token)] ∧
    (Cache.CallNew mq codec c req rname query token params).1.bus
      = (Cache.Call mq codec c req rname query "new" token params).1.bus ∧
    (Cache.Auth mq codec c areq rname query action token params).1.bus
      = c.bus ++ [BusCall.SendRequest ("auth." ++ rname ++ "." ++ action)
          (codec.CreateAuthRequest params areq query token)] ∧
    (Cache.Call mq codec c req "test.model" query "method" token params).1.bus
      = c.bus ++ [BusCall.SendRequest "call.test.model.method"
          (codec.CreateRequest params req query token)] ∧
    (Cache.CallNew mq codec c req "test.collection" query token params).1.bus
      = c.bus ++ [BusCall.SendRequest "call.test.collection.new"
          (codec.CreateRequest params req query token)] := by
  have hnew : "call." ++ rname ++ ".new" = "call." ++ rname ++ "." ++ "new" := by
    rw [String.append_assoc ("call." ++ rname) "." "new"]
    rfl
  refine ⟨?_, ?_, ?_, ?_, ?_, ?_, ?_⟩
  · simp only [Cache.Access, sendRequest_bus]
  · simp only [Cache.Call, sendRequest_bus]
  · simp only [Cache.CallNew, sendRequest_bus]
  · simp only [Cache.CallNew, Cache.Call, sendRequest_bus, hnew]
  · simp only [Cache.Auth, sendRequest_bus]
  · simp only [Cache.Call, sendRequest_bus]
    rfl
  · simp only [Cache.CallNew, sendRequest_bus]
    rfl

/-- C10. For each of `Access`, `Call`, `CallNew` and `Auth`, the task run on a reply with
error `err` invokes the caller's callback exactly once, with that `err` and an empty result
(`Access` with no `AccessResult`, a nil result for `Call` and `Auth`, the empty RID for
`CallNew`), and calls no decoder; on a reply without error it calls the operation's decoder
on the payload once and invokes the callback once with exactly the decoder's output.  In
both cases the task ends with `removeCount(1)` on the record. -/
theorem reply_reaches_callback (mq : MQ) (codec : Codec) (c : Cache) (sub : Subscriber)
    (req : Requester) (areq : AuthRequester)
    (rname query action : String) (token params : Any) (data : Bytes) (err : GoError) :
    ((Cache.Access mq codec c sub token).2 data (some err)
        = [TaskStep.callback { AccessResult := none, Error := some err },
            TaskStep.removeCount sub.ResourceName 1] ∧
      (Cache.Access mq codec c sub token).2 data none
        = [TaskStep.decode Decoder.DecodeAccessResponse data,
            TaskStep.callback { AccessResult := (codec.DecodeAccessResponse data).1,
                                Error := (codec.DecodeAccessResponse data).2 },
            TaskStep.removeCount sub.ResourceName 1]) ∧
    ((Cache.Call mq codec c req rname query action token params).2 data (some err)
        = [TaskStep.callback (none, some err), TaskStep.removeCount rname 1] ∧
      (Cache.Call mq codec c req rname query action token params).2 data none
        = [TaskStep.decode Decoder.DecodeCallResponse data,
            TaskStep.callback (codec.DecodeCallResponse data),
            TaskStep.removeCount rname 1]) ∧
    ((Cache.CallNew mq codec c req rname query token params).2 data (some err)
        = [TaskStep.callback ("", some err), TaskStep.removeCount rname 1] ∧
      (Cache.CallNew mq codec c req rname query token params).2 data none
        = [TaskStep.decode Decoder.DecodeNewResponse data,
            TaskStep.callback (codec.DecodeNewResponse data),
            TaskStep.removeCount rname 1]) ∧
    ((Cache.Auth mq codec c areq rname query action token params).2 data (some err)
        = [TaskStep.callback (none, some err), TaskStep.removeCount rname 1] ∧
      (Cache.Auth mq codec c areq rname query action token params).2 data none
        = [TaskStep.decode Decoder.DecodeCallResponse data,
            TaskStep.callback (codec.DecodeCallResponse data),
            TaskStep.removeCount rname 1]) := by
  refine ⟨⟨rfl, rfl⟩, ⟨rfl, rfl⟩, ⟨rfl, rfl⟩, ⟨rfl, rfl⟩⟩

/-! ### The collector on the example graphs -/

/-- C1 (the code at the failing input).  On `sharedChild`, `tryDelete(A)` returns after
disposing A and B and removing them from `subs`, although B is referenced by C, which has
residual `indirect` 1 after the first traversal and stays in `subs`: the remaining node C
holds a ref to the disposed node B. -/
theorem sharedChild_disposes_kept_child :
    traverse sharedChild countDown 5 sharedChildRoot gcStateRoot (rootRefs sharedChildRoot)
      = .ok [("A", { sub := sharedChildRoot, indirect := 0, state := gcStateNone }),
             ("B", { sub := { rid := "B", direct := 0, indirect := 2, refs := [] },
                     indirect := 0, state := gcStateNone }),
             ("C", { sub := { rid := "C", direct := 0, indirect := 2, refs := ["B"] },
                     indirect := 1, state := gcStateNone })] ∧
    tryDelete false 5 { subs := sharedChild, disposed := [] } sharedChildRoot
      = .ok { subs := [{ rid := "C", direct := 0, indirect := 2, refs := ["B"] },
                       { rid := "D", direct := 1, indirect := 0, refs := ["C"] }],
              disposed := ["A", "B"] } ∧
    tryDelete true 5 { subs := sharedChild, disposed := [] } sharedChildRoot
      = tryDelete false 5 { subs := sharedChild, disposed := [] } sharedChildRoot := by
  refine ⟨rfl, rfl, rfl⟩

theorem anchoredCycle_keep_loop (m : RefMap)
    (hB : ∃ r, mapGet m "B" = some r ∧ r.state ≠ gcStateKeep)
    (hC : ∃ r, mapGet m "C" = some r ∧ r.state ≠ gcStateKeep) :
    ∀ fuel : Nat,
      traverse anchoredCycle markDelete fuel
          { rid := "B", direct := 0, indirect := 2, refs := ["C"] } gcStateKeep m
        = .error .outOfFuel ∧
      traverse anchoredCycle markDelete fuel
          { rid := "C", direct := 0, indirect := 2, refs := ["B"] } gcStateKeep m
        = .error .outOfFuel := by
  obtain ⟨rB, hB1, hB2⟩ := hB
  obtain ⟨rC, hC1, hC2⟩ := hC
  intro fuel
  induction fuel with
  | zero => exact ⟨rfl, rfl⟩
  | succ n ih =>
    constructor
    · have h2 := ih.2
      simp only [anchoredCycle] at h2
      simp [traverse, markDelete, hB1, hB2, forRefs, findSub, anchoredCycle, List.find?, h2]
    · have h1 := ih.1
      simp only [anchoredCycle] at h1
      simp [traverse, markDelete, hC1, hC2, forRefs, findSub, anchoredCycle, List.find?, h1]


theorem anchoredCycle_countDown (n : Nat) :
    traverse anchoredCycle countDown (n + 4) anchoredCycleRoot gcStateRoot
        (rootRefs anchoredCycleRoot)
      = .ok [("A", { sub := anchoredCycleRoot, indirect := 0, state := gcStateNone }),
             ("B", { sub := { rid := "B", direct := 0, indirect := 2, refs := ["C"] },
                     indirect := 0, state := gcStateNone }),
             ("C", { sub := { rid := "C", direct := 0, indirect := 2, refs := ["B"] },
                     indirect := 1, state := gcStateNone })] := by
  simp [traverse, countDown, forRefs, findSub, anchoredCycle, anchoredCycleRoot, rootRefs,
    mapGet, mapAdd, mapModify, List.find?]

theorem anchoredCycle_mark (fuel : Nat) :
    traverse anchoredCycle markDelete fuel anchoredCycleRoot gcStateDelete
        [("A", { sub := anchoredCycleRoot, indirect := 0, state := gcStateNone }),
         ("B", { sub := { rid := "B", direct := 0, indirect := 2, refs := ["C"] },
                 indirect := 0, state := gcStateNone }),
         ("C", { sub := { rid := "C", direct := 0, indirect := 2, refs := ["B"] },
                 indirect := 1, state := gcStateNone })]
      = .error .outOfFuel := by
  match fuel with
  | 0 => rfl
  | 1 => rfl
  | 2 => rfl
  | n + 3 =>
    have hloop := (anchoredCycle_keep_loop
      [("A", { sub := anchoredCycleRoot, indirect := 0, state := gcStateDelete }),
       ("B", { sub := { rid := "B", direct := 0, indirect := 2, refs := ["C"] },
               indirect := 0, state := gcStateDelete }),
       ("C", { sub := { rid := "C", direct := 0, indirect := 2, refs := ["B"] },
               indirect := 1, state := gcStateNone })]
      ⟨_, rfl, by decide⟩ ⟨_, rfl, by decide⟩ n).1
    simp only [anchoredCycle, anchoredCycleRoot] at hloop
    simp [traverse, markDelete, forRefs, findSub, anchoredCycle, anchoredCycleRoot,
      mapGet, mapModify, List.find?, hloop]

theorem anchoredCycle_never_returns (debug : Bool) (fuel : Nat) :
    tryDelete debug fuel { subs := anchoredCycle, disposed := [] } anchoredCycleRoot
      = .error .outOfFuel := by
  match fuel with
  | 0 => rfl
  | 1 => rfl
  | 2 => rfl
  | 3 => rfl
  | n + 4 =>
    unfold tryDelete
    rw [anchoredCycle_countDown n]
    have hm := anchoredCycle_mark (n + 4)
    simp only [anchoredCycleRoot] at hm
    simp [anchoredCycleRoot, mapGet, hm]

/-! ### Maps, lookups and counters -/

theorem mapGet_eq_none_iff (m : RefMap) (x : String) : mapGet m x = none ↔ x ∉ keys m := by
  induction m with
  | nil => simp [mapGet, keys]
  | cons p m ih =>
    obtain ⟨k, v⟩ := p
    by_cases h : k = x
    · simp [mapGet, keys, h]
    · have h2 : ¬ x = k := fun e => h e.symm
      simp only [keys] at ih
      simp [mapGet, keys, h, h2, ih]

theorem mapGet_some_mem (m : RefMap) (x : String) (r : subRef) (h : mapGet m x = some r) :
    x ∈ keys m := by
  by_contra hn
  rw [← mapGet_eq_none_iff] at hn
  rw [hn] at h
  cases h

theorem mem_keys_mapGet (m : RefMap) (x : String) (h : x ∈ keys m) :
    ∃ r, mapGet m x = some r := by
  cases hg : mapGet m x with
  | none => exact absurd h ((mapGet_eq_none_iff m x).1 hg)
  | some r => exact ⟨r, rfl⟩

theorem keys_mapAdd (m : RefMap) (k : String) (v : subRef) :
    keys (mapAdd m k v) = keys m ++ [k] := by
  simp [keys, mapAdd]

theorem keys_mapModify (f : subRef → subRef) (m : RefMap) (k : String) :
    keys (mapModify f m k) = keys m := by
  induction m with
  | nil => rfl
  | cons p m ih =>
    obtain ⟨k1, v⟩ := p
    by_cases h : k1 = k
    · simp [mapModify, keys, h]
    · simp only [keys] at ih
      simp [mapModify, keys, h, ih]

theorem mapGet_mapAdd (m : RefMap) (k x : String) (v : subRef) (hk : k ∉ keys m) :
    mapGet (mapAdd m k v) x = if x = k then some v else mapGet m x := by
  induction m with
  | nil =>
    by_cases h : k = x
    · simp [mapAdd, mapGet, h]
    · have h2 : ¬ x = k := fun e => h e.symm
      simp [mapAdd, mapGet, h, h2]
  | cons p m ih =>
    obtain ⟨k1, v1⟩ := p
    have hk1 : k ≠ k1 := by
      intro e
      apply hk
      simp [keys, e]
    have hk2 : k ∉ keys m := by
      intro e
      apply hk
      simp only [keys] at e
      simp [keys, e]
    have ih2 := ih hk2
    simp only [mapAdd] at ih2
    by_cases h : k1 = x
    · have h3 : ¬ x = k := by
        intro e
        exact hk1 (e.symm.trans h.symm)
      simp [mapAdd, mapGet, h, h3]
    · simp [mapAdd, mapGet, h, ih2]

theorem mapGet_mapModify (f : subRef → subRef) (m : RefMap) (k x : String) :
    mapGet (mapModify f m k) x = if x = k then (mapGet m k).map f else mapGet m x := by
  induction m with
  | nil => simp [mapModify, mapGet]
  | cons p m ih =>
    obtain ⟨k1, v1⟩ := p
    by_cases h : k1 = k
    · subst h
      by_cases h2 : k1 = x
      · subst h2
        simp [mapModify, mapGet]
      · have h3 : ¬ x = k1 := fun e => h2 e.symm
        simp [mapModify, mapGet, h2, h3]
    · by_cases h2 : k1 = x
      · subst h2
        simp [mapModify, mapGet, h]
      · simp [mapModify, mapGet, h, h2, ih]

theorem findSub_rid (g : List Subscription) (r : String) (t : Subscription)
    (h : findSub g r = some t) : t.rid = r := by
  unfold findSub at h
  have := List.find?_some h
  simpa using this

theorem findSub_mem (g : List Subscription) (r : String) (t : Subscription)
    (h : findSub g r = some t) : t ∈ g := by
  unfold findSub at h
  exact List.mem_of_find?_eq_some h

theorem findSub_self (g : List Subscription) (r : String) (t : Subscription)
    (h : findSub g r = some t) : findSub g t.rid = some t := by
  rw [findSub_rid g r t h]
  exact h

theorem findSub_of_mem_nodup (g : List Subscription) (t : Subscription)
    (hnd : (g.map (fun n => n.rid)).Nodup) (h : t ∈ g) : findSub g t.rid = some t := by
  induction g with
  | nil => cases h
  | cons a g ih =>
    simp only [List.map_cons, List.nodup_cons] at hnd
    by_cases ha : a.rid = t.rid
    · rcases List.mem_cons.1 h with h1 | h1
      · subst h1
        simp [findSub]
      · exfalso
        apply hnd.1
        rw [ha]
        exact List.mem_map_of_mem _ h1
    · rcases List.mem_cons.1 h with h1 | h1
      · subst h1
        exact absurd rfl ha
      · have := ih hnd.2 h1
        simp only [findSub] at this ⊢
        simp [List.find?, ha, this]

theorem followedSum_nil (g : List Subscription) (x : String) : followedSum g [] x = 0 := rfl

theorem followedSum_cons (g : List Subscription) (k : String) (ks : List String) (x : String) :
    followedSum g (k :: ks) x = followed g k x + followedSum g ks x := by
  simp [followedSum]

theorem followedSum_append (g : List Subscription) (ks1 ks2 : List String) (x : String) :
    followedSum g (ks1 ++ ks2) x = followedSum g ks1 x + followedSum g ks2 x := by
  simp [followedSum]

theorem pending_le_length (g : List Subscription) (m : RefMap) : pending g m ≤ g.length := by
  unfold pending
  calc ((g.map (fun n => n.rid)).dedup.filter _).length
      ≤ ((g.map (fun n => n.rid)).dedup).length := List.length_filter_le _ _
    _ ≤ (g.map (fun n => n.rid)).length := (List.dedup_sublist _).length_le
    _ = g.length := by simp

theorem pending_mono (g : List Subscription) (m m2 : RefMap)
    (h : ∀ x, x ∈ keys m → x ∈ keys m2) : pending g m2 ≤ pending g m := by
  unfold pending
  apply List.Sublist.length_le
  apply List.monotone_filter_right
  intro r hr
  simp only [decide_eq_true_eq] at hr ⊢
  exact fun hm => hr (h r hm)

theorem pending_mapAdd_lt (g : List Subscription) (m : RefMap) (k : String) (v : subRef)
    (hk : k ∉ keys m) (hg : k ∈ g.map (fun n => n.rid)) :
    pending g (mapAdd m k v) < pending g m := by
  unfold pending
  have hsub : ((g.map (fun n => n.rid)).dedup.filter
      (fun r => decide (r ∉ keys (mapAdd m k v)))) =
      (((g.map (fun n => n.rid)).dedup.filter (fun r => decide (r ∉ keys m))).filter
        (fun r => decide (r ≠ k))) := by
    rw [List.filter_filter]
    apply List.filter_congr
    intro r _
    simp [keys_mapAdd]
    exact Bool.and_comm _ _
  rw [hsub]
  apply List.length_filter_lt_length_iff_exists.2
  refine ⟨k, ?_, by simp⟩
  simp [List.mem_filter, hk]
  simpa using hg

/-! ### The first traversal -/

theorem cnt_mapAdd (g : List Subscription) (m : RefMap) (k x : String) (v : subRef)
    (hk : k ∉ keys m) :
    cnt g (mapAdd m k v) x = if x = k then v.indirect else cnt g m x := by
  unfold cnt
  rw [mapGet_mapAdd m k x v hk]
  by_cases h : x = k <;> simp [h]

theorem cnt_mapModify (g : List Subscription) (f : subRef → subRef) (m : RefMap) (k x : String)
    (r0 : subRef) (hk : mapGet m k = some r0) :
    cnt g (mapModify f m k) x = if x = k then (f r0).indirect else cnt g m x := by
  unfold cnt
  rw [mapGet_mapModify f m k x]
  by_cases h : x = k <;> simp [h, hk]

theorem entered_nil (g : List Subscription) (x : String) : entered g [] x = 0 := by
  simp [entered]

theorem entered_append (g : List Subscription) (rs1 rs2 : List String) (x : String) :
    entered g (rs1 ++ rs2) x = entered g rs1 x + entered g rs2 x := by
  unfold entered
  by_cases h : elig g x = true <;> simp [h, List.count_append]

theorem entered_singleton (g : List Subscription) (r x : String) :
    entered g [r] x = if x = r ∧ elig g r = true then 1 else 0 := by
  unfold entered
  by_cases hx : x = r
  · subst hx
    by_cases h : elig g x = true <;> simp [h]
  · have h2 : ¬ r = x := fun e => hx e.symm
    simp [hx, List.count_cons, h2]

theorem followed_eq_entered (g : List Subscription) (k x : String) :
    followed g k x = entered g (refsOf g k) x := rfl

theorem CountPost.count_refl (g : List Subscription) (Q : String → Prop) (m : RefMap)
    (h : CountInv m) : CountPost g Q m m [] [] where
  inv := h
  keys_eq := by simp
  cnt_eq := by intro x; simp [entered_nil, followedSum_nil]
  closed := by intro k hk; cases hk
  fresh := by intro k hk; cases hk
  entered_mem := by intro r hr; cases hr

theorem CountPost.count_trans (g : List Subscription) (Q : String → Prop) (m m1 m2 : RefMap)
    (N1 N2 rs1 rs2 : List String)
    (h1 : CountPost g Q m m1 N1 rs1) (h2 : CountPost g Q m1 m2 N2 rs2) :
    CountPost g Q m m2 (N1 ++ N2) (rs1 ++ rs2) where
  inv := h2.inv
  keys_eq := by rw [h2.keys_eq, h1.keys_eq, List.append_assoc]
  cnt_eq := by
    intro x
    rw [h2.cnt_eq x, h1.cnt_eq x, entered_append, followedSum_append]
    push_cast
    ring
  closed := by
    intro k hk y hy he
    rcases List.mem_append.1 hk with hk1 | hk2
    · have := h1.closed k hk1 y hy he
      rw [h2.keys_eq]
      exact List.mem_append_left _ this
    · exact h2.closed k hk2 y hy he
  fresh := by
    intro k hk
    rcases List.mem_append.1 hk with hk1 | hk2
    · exact h1.fresh k hk1
    · exact h2.fresh k hk2
  entered_mem := by
    intro r hr he
    rcases List.mem_append.1 hr with hr1 | hr2
    · have := h1.entered_mem r hr1 he
      rw [h2.keys_eq]
      exact List.mem_append_left _ this
    · exact h2.entered_mem r hr2 he

theorem elig_of_findSub (g : List Subscription) (r : String) (t : Subscription)
    (h : findSub g r = some t) : elig g r = decide (t.direct ≤ 0) := by
  simp [elig, h]

theorem elig_none (g : List Subscription) (r : String) (h : findSub g r = none) :
    elig g r = false := by
  simp [elig, h]

theorem refsOf_of_findSub (g : List Subscription) (r : String) (t : Subscription)
    (h : findSub g r = some t) : refsOf g r = t.refs := by
  simp [refsOf, h]

theorem CountPost.skip (g : List Subscription) (Q : String → Prop) (m m2 : RefMap)
    (N rs : List String) (r : String) (hr : elig g r = false)
    (h : CountPost g Q m m2 N rs) : CountPost g Q m m2 N (r :: rs) where
  inv := h.inv
  keys_eq := h.keys_eq
  cnt_eq := by
    intro x
    rw [h.cnt_eq x]
    have : entered g (r :: rs) x = entered g rs x := by
      unfold entered
      by_cases hx : elig g x = true
      · have hne : ¬ r = x := by
          intro e
          rw [e] at hr
          rw [hr] at hx
          cases hx
        simp [hx, List.count_cons, hne]
      · simp [hx]
    rw [this]
  closed := h.closed
  fresh := h.fresh
  entered_mem := by
    intro r1 hr1 he
    rcases List.mem_cons.1 hr1 with h1 | h1
    · rw [h1, hr] at he
      cases he
    · exact h.entered_mem r1 h1 he

theorem countDown_forRefs (g : List Subscription) (Q : String → Prop) (fuel : Nat)
    (IH : ∀ (t : Subscription) (m : RefMap), findSub g t.rid = some t → CountInv m →
      pending g m < fuel → (elig g t.rid = true → Q t.rid) →
      ∃ m2 N, traverse g countDown fuel t gcStateNone m = .ok m2 ∧
        CountPost g Q m m2 N [t.rid]) :
    ∀ (rs : List String) (m : RefMap), CountInv m → pending g m < fuel →
      (∀ r ∈ rs, elig g r = true → Q r) →
      ∃ m2 N, forRefs g (fun t acc => traverse g countDown fuel t gcStateNone acc) rs m
          = .ok m2 ∧ CountPost g Q m m2 N rs := by
  intro rs
  induction rs with
  | nil =>
    intro m hm _ _
    exact ⟨m, [], rfl, CountPost.count_refl g Q m hm⟩
  | cons r rs ih =>
    intro m hm hp hq
    have hq2 : ∀ r1 ∈ rs, elig g r1 = true → Q r1 :=
      fun r1 h1 => hq r1 (List.mem_cons_of_mem _ h1)
    cases hf : findSub g r with
    | none =>
      obtain ⟨m2, N, hrun, hpost⟩ := ih m hm hp hq2
      refine ⟨m2, N, ?_, CountPost.skip g Q m m2 N rs r (elig_none g r hf) hpost⟩
      simp only [forRefs, hf]
      exact hrun
    | some t =>
      have hrid : t.rid = r := findSub_rid g r t hf
      have hself : findSub g t.rid = some t := findSub_self g r t hf
      obtain ⟨m1, N1, hrun1, hpost1⟩ := IH t m hself hm hp
        (by rw [hrid]; exact hq r (List.mem_cons_self _ _))
      have hp1 : pending g m1 < fuel := by
        refine lt_of_le_of_lt (pending_mono g m m1 ?_) hp
        intro x hx
        rw [hpost1.keys_eq]
        exact List.mem_append_left _ hx
      obtain ⟨m2, N2, hrun2, hpost2⟩ := ih m1 hpost1.inv hp1 hq2
      refine ⟨m2, N1 ++ N2, ?_, ?_⟩
      · simp only [forRefs, hf, hrun1]
        exact hrun2
      · have := CountPost.count_trans g Q m m1 m2 N1 N2 [t.rid] rs hpost1 hpost2
        rw [hrid] at this
        exact this

theorem CountInv_mapModify (m : RefMap) (k : String) (f : subRef → subRef)
    (hf : ∀ r, (f r).state = r.state ∧ (f r).sub = r.sub) (h : CountInv m) :
    CountInv (mapModify f m k) := by
  refine ⟨by rw [keys_mapModify]; exact h.1, ?_⟩
  intro k1 r hr
  rw [mapGet_mapModify] at hr
  by_cases hk : k1 = k
  · simp only [hk, if_true] at hr
    cases hg : mapGet m k with
    | none => simp [hg] at hr
    | some r0 =>
      simp only [hg, Option.map_some', Option.some.injEq] at hr
      subst hr
      have := h.2 k r0 hg
      rw [(hf r0).1, (hf r0).2, hk]
      exact this
  · simp only [hk, if_false] at hr
    exact h.2 k1 r hr

theorem CountInv_mapAdd (m : RefMap) (t : Subscription) (i : Int) (hk : t.rid ∉ keys m)
    (h : CountInv m) :
    CountInv (mapAdd m t.rid { sub := t, indirect := i, state := gcStateNone }) := by
  refine ⟨?_, ?_⟩
  · rw [keys_mapAdd]
    exact List.Nodup.append h.1 (List.nodup_singleton _) (by simpa using hk)
  · intro k1 r hr
    rw [mapGet_mapAdd m t.rid k1 _ hk] at hr
    by_cases hk1 : k1 = t.rid
    · simp only [hk1, if_true, Option.some.injEq] at hr
      subst hr
      exact ⟨rfl, hk1.symm⟩
    · simp only [hk1, if_false] at hr
      exact h.2 k1 r hr

theorem countDown_traverse (g : List Subscription) (Q : String → Prop)
    (hQ : ∀ a b, Q a → elig g a = true → b ∈ refsOf g a → elig g b = true → Q b) :
    ∀ (fuel : Nat) (t : Subscription) (m : RefMap), findSub g t.rid = some t → CountInv m →
      pending g m < fuel → (elig g t.rid = true → Q t.rid) →
      ∃ m2 N, traverse g countDown fuel t gcStateNone m = .ok m2 ∧
        CountPost g Q m m2 N [t.rid] := by
  intro fuel
  induction fuel with
  | zero => intro t m _ _ hp; exact absurd hp (Nat.not_lt_zero _)
  | succ fuel ih =>
    intro t m ht hm hp hq
    have helig : elig g t.rid = decide (t.direct ≤ 0) := elig_of_findSub g t.rid t ht
    by_cases hd : t.direct > 0
    · -- a directly subscribed node is not entered
      have hne : elig g t.rid = false := by
        rw [helig]
        simp
        omega
      refine ⟨m, [], by simp [traverse, hd], ?_⟩
      exact CountPost.skip g Q m m [] [] t.rid hne (CountPost.count_refl g Q m hm)
    · have hel : elig g t.rid = true := by
        rw [helig]
        simp
        omega
      cases hg : mapGet m t.rid with
      | some r0 =>
        refine ⟨mapModify (fun r => { r with indirect := r.indirect - 1 }) m t.rid, [], ?_, ?_⟩
        · simp [traverse, hd, countDown, hg]
        · refine ⟨CountInv_mapModify m t.rid _ (fun r => ⟨rfl, rfl⟩) hm, ?_, ?_, ?_, ?_, ?_⟩
          · rw [keys_mapModify]; simp
          · intro x
            rw [cnt_mapModify g _ m t.rid x r0 hg, entered_singleton, followedSum_nil]
            by_cases hx : x = t.rid
            · subst hx
              simp [hel, cnt, hg]
            · simp [hx]
          · intro k hk; cases hk
          · intro k hk; cases hk
          · intro r hr _
            rw [List.mem_singleton] at hr
            rw [keys_mapModify, hr]
            exact mapGet_some_mem m t.rid r0 hg
      | none =>
        have hk : t.rid ∉ keys m := (mapGet_eq_none_iff m t.rid).1 hg
        have hinv1 := CountInv_mapAdd m t (t.indirect - 1) hk hm
        have hp1 : pending g (mapAdd m t.rid
            { sub := t, indirect := t.indirect - 1, state := gcStateNone }) < fuel := by
          have := pending_mapAdd_lt g m t.rid
            { sub := t, indirect := t.indirect - 1, state := gcStateNone } hk
            (List.mem_map_of_mem _ (findSub_mem g t.rid t ht))
          omega
        have hrefs : refsOf g t.rid = t.refs := refsOf_of_findSub g t.rid t ht
        obtain ⟨m2, N, hrun, hpost⟩ := countDown_forRefs g Q fuel ih t.refs _ hinv1 hp1
          (fun r hr he => hQ t.rid r (hq hel) hel (by rw [hrefs]; exact hr) he)
        refine ⟨m2, t.rid :: N, ?_, ?_⟩
        · simp [traverse, hd, countDown, hg]
          exact hrun
        · have hkeys : keys m2 = keys m ++ t.rid :: N := by
            rw [hpost.keys_eq, keys_mapAdd]
            simp
          refine ⟨hpost.inv, hkeys, ?_, ?_, ?_, ?_⟩
          · intro x
            rw [hpost.cnt_eq x, cnt_mapAdd g m t.rid x _ hk, entered_singleton,
              followedSum_cons, followed_eq_entered, hrefs]
            by_cases hx : x = t.rid
            · subst hx
              simp [hel, cnt, hg, indirectOf, ht]
              ring
            · simp [hx]
              ring
          · intro k hk1 y hy he
            rcases List.mem_cons.1 hk1 with h1 | h1
            · rw [h1, hrefs] at hy
              exact hpost.entered_mem y hy he
            · exact hpost.closed k h1 y hy he
          · intro k hk1
            rcases List.mem_cons.1 hk1 with h1 | h1
            · rw [h1]
              exact ⟨hel, hq hel⟩
            · exact hpost.fresh k h1
          · intro r hr _
            rw [List.mem_singleton] at hr
            rw [hkeys, hr]
            simp

theorem CountInv_rootRefs (s : Subscription) : CountInv (rootRefs s) := by
  refine ⟨by simp [rootRefs, keys], ?_⟩
  intro k r hr
  simp only [rootRefs, mapGet] at hr
  by_cases h : s.rid = k
  · simp only [h, if_true, Option.some.injEq] at hr
    subst hr
    exact ⟨rfl, h⟩
  · simp [h] at hr

/-- The first traversal from any root returns once the fuel exceeds the number of nodes by
two, and what it returns is described by `CountPost`. -/
theorem countDown_root (g : List Subscription) (Q : String → Prop)
    (hQ : ∀ a b, Q a → elig g a = true → b ∈ refsOf g a → elig g b = true → Q b)
    (s : Subscription) (hd : ¬ s.direct > 0) (hq : ∀ r ∈ s.refs, elig g r = true → Q r)
    (fuel : Nat) (hfuel : g.length + 2 ≤ fuel) :
    ∃ m2 N, traverse g countDown fuel s gcStateRoot (rootRefs s) = .ok m2 ∧
      CountPost g Q (rootRefs s) m2 N s.refs := by
  obtain ⟨f, rfl⟩ : ∃ f, fuel = f + 1 := ⟨fuel - 1, by omega⟩
  have hp : pending g (rootRefs s) < f := by
    have := pending_le_length g (rootRefs s)
    omega
  obtain ⟨m2, N, hrun, hpost⟩ := countDown_forRefs g Q f
    (fun t m ht hm hpm hqt => countDown_traverse g Q hQ f t m ht hm hpm hqt)
    s.refs (rootRefs s) (CountInv_rootRefs s) hp hq
  refine ⟨m2, N, ?_, hpost⟩
  simp [traverse, hd, countDown]
  exact hrun

theorem Region_step (g : List Subscription) (a b z : String) (h : Region g a b)
    (hz : z ∈ refsOf g b) (he : elig g z = true) : Region g a z := by
  refine ReachVia.step h hz he ?_
  unfold elig at he
  cases hf : findSub g z with
  | none => simp [hf] at he
  | some u => exact ⟨u, rfl⟩

theorem countDown_result (g : List Subscription) (s : Subscription)
    (hs : findSub g s.rid = some s) (hd : ¬ s.direct > 0)
    (fuel : Nat) (hfuel : g.length + 2 ≤ fuel) :
    ∃ m2, traverse g countDown fuel s gcStateRoot (rootRefs s) = .ok m2 ∧
      CountResult g s m2 := by
  have hel : elig g s.rid = true := by
    rw [elig_of_findSub g s.rid s hs]
    simp
    omega
  have hrefs : refsOf g s.rid = s.refs := refsOf_of_findSub g s.rid s hs
  have hroot : Region g s.rid s.rid := ReachVia.refl hel ⟨s, hs⟩
  obtain ⟨m2, N, hrun, hpost⟩ := countDown_root g (Region g s.rid)
    (fun a b ha _ hb heb => Region_step g s.rid a b ha hb heb) s hd
    (fun r hr he => Region_step g s.rid s.rid r hroot (by rw [hrefs]; exact hr) he)
    fuel hfuel
  have hkeys : keys m2 = s.rid :: N := by
    rw [hpost.keys_eq]
    simp [rootRefs, keys]
  refine ⟨m2, hrun, hpost.inv, by rw [hkeys]; simp, ?_, ?_, ?_⟩
  · intro k hk
    rw [hkeys] at hk
    rcases List.mem_cons.1 hk with h1 | h1
    · rw [h1]; exact hroot
    · exact (hpost.fresh k h1).2
  · intro k hk y hy he
    rw [hkeys] at hk
    rcases List.mem_cons.1 hk with h1 | h1
    · rw [h1, hrefs] at hy
      exact hpost.entered_mem y hy he
    · exact hpost.closed k h1 y hy he
  · intro x
    rw [hpost.cnt_eq x, hkeys, followedSum_cons, followed_eq_entered, hrefs]
    have : cnt g (rootRefs s) x = indirectOf g x := by
      unfold cnt
      by_cases hx : s.rid = x
      · subst hx
        simp [rootRefs, mapGet, indirectOf, hs]
      · simp [rootRefs, mapGet, hx]
    rw [this]
    push_cast
    ring

/-! ### The second traversal -/

theorem MarkLe.le_refl (m : RefMap) : MarkLe m m :=
  ⟨rfl, fun _ r hr => ⟨r, hr, rfl, rfl, Or.inl rfl⟩⟩

theorem MarkLe.le_trans {m m1 m2 : RefMap} (h1 : MarkLe m m1) (h2 : MarkLe m1 m2) :
    MarkLe m m2 := by
  refine ⟨h2.1.trans h1.1, ?_⟩
  intro k r hr
  obtain ⟨r1, hr1, hi1, hs1, hst1⟩ := h1.2 k r hr
  obtain ⟨r2, hr2, hi2, hs2, hst2⟩ := h2.2 k r1 hr1
  refine ⟨r2, hr2, hi2.trans hi1, hs2.trans hs1, ?_⟩
  rcases hst1 with e1 | ⟨a1, b1, c1⟩
  · rcases hst2 with e2 | ⟨a2, b2, c2⟩
    · exact Or.inl (e2.trans e1)
    · exact Or.inr ⟨e1 ▸ a2, b2, hi1 ▸ c2⟩
  · rcases hst2 with e2 | ⟨a2, _, _⟩
    · exact Or.inr ⟨a1, e2.trans b1, c1⟩
    · rw [b1] at a2
      cases a2

theorem MarkLe.le_mark (m : RefMap) (k : String) (r : subRef) (hr : mapGet m k = some r)
    (hs : r.state = gcStateNone) (hi : r.indirect ≤ 0) :
    MarkLe m (mapModify (fun r => { r with state := gcStateDelete }) m k) := by
  refine ⟨keys_mapModify _ m k, ?_⟩
  intro k1 r1 hr1
  rw [mapGet_mapModify]
  by_cases hk : k1 = k
  · subst hk
    rw [hr] at hr1
    cases hr1
    exact ⟨{ r with state := gcStateDelete }, by simp [hr], rfl, rfl, Or.inr ⟨hs, rfl, hi⟩⟩
  · exact ⟨r1, by simp [hk, hr1], rfl, rfl, Or.inl rfl⟩

theorem MarkLe.le_noKeep {m m2 : RefMap} (h : MarkLe m m2) (hn : NoKeep m) : NoKeep m2 := by
  intro k r2 hr2
  have hk : k ∈ keys m := by
    rw [← h.1]
    exact mapGet_some_mem m2 k r2 hr2
  obtain ⟨r, hr⟩ := mem_keys_mapGet m k hk
  obtain ⟨r3, hr3, _, _, hst⟩ := h.2 k r hr
  rw [hr2] at hr3
  cases hr3
  rcases hst with e | ⟨_, b, _⟩
  · rw [e]; exact hn k r hr
  · exact Or.inr b

theorem MarkLe.isDel {m m2 : RefMap} (h : MarkLe m m2) (k : String) (hd : isDel m k) :
    isDel m2 k := by
  obtain ⟨r, hr, hs⟩ := hd
  obtain ⟨r2, hr2, _, _, hst⟩ := h.2 k r hr
  refine ⟨r2, hr2, ?_⟩
  rcases hst with e | ⟨a, _, _⟩
  · rw [e]; exact hs
  · rw [hs] at a
    cases a

theorem MarkLe.visitDone {m m2 : RefMap} (h : MarkLe m m2) (g : List Subscription) (y : String)
    (hd : VisitDone g m y) : VisitDone g m2 y := by
  intro he
  obtain ⟨r, hr, himp⟩ := hd he
  obtain ⟨r2, hr2, hi, _, hst⟩ := h.2 y r hr
  refine ⟨r2, hr2, ?_⟩
  intro hle
  rcases hst with e | ⟨_, b, _⟩
  · rw [e]; exact himp (hi ▸ hle)
  · exact b

theorem MarkPost.post_refl (g : List Subscription) (m : RefMap) : MarkPost g m m :=
  ⟨MarkLe.le_refl m, fun _ h1 h2 => absurd h1 h2⟩

theorem MarkPost.post_trans {g : List Subscription} {m m1 m2 : RefMap} (h1 : MarkPost g m m1)
    (h2 : MarkPost g m1 m2) : MarkPost g m m2 := by
  refine ⟨h1.le.le_trans h2.le, ?_⟩
  intro k hk2 hk y hy
  by_cases hk1 : isDel m1 k
  · exact h2.le.visitDone g y (h1.done k hk1 hk y hy)
  · exact h2.done k hk2 hk1 y hy

theorem markDelete_keep (t : Subscription) (state : gcState) (m : RefMap) (r : subRef)
    (hr : mapGet m t.rid = some r) (hn : r.state ≠ gcStateKeep)
    (hk : r.indirect > 0 ∨ state = gcStateKeep) :
    markDelete t state m = .ok (m, gcStateKeep) := by
  simp [markDelete, hr, hn, hk]

theorem markDelete_stop (t : Subscription) (state : gcState) (m : RefMap) (r : subRef)
    (hr : mapGet m t.rid = some r) (hn : r.state ≠ gcStateKeep)
    (hk : ¬ (r.indirect > 0 ∨ state = gcStateKeep)) (hs : r.state ≠ gcStateNone) :
    markDelete t state m = .ok (m, gcStateStop) := by
  simp [markDelete, hr, hn, hk, hs]

theorem markDelete_mark (t : Subscription) (state : gcState) (m : RefMap) (r : subRef)
    (hr : mapGet m t.rid = some r)
    (hk : ¬ (r.indirect > 0 ∨ state = gcStateKeep)) (hs : r.state = gcStateNone) :
    markDelete t state m
      = .ok (mapModify (fun r => { r with state := gcStateDelete }) m t.rid, gcStateDelete) := by
  simp [markDelete, hr, hk, hs]

theorem mark_forRefs (g : List Subscription) (fuel : Nat) (st : gcState)
    (IH : ∀ (t : Subscription) (m m2 : RefMap), findSub g t.rid = some t → NoKeep m →
      traverse g markDelete fuel t st m = .ok m2 →
      MarkPost g m m2 ∧ (st = gcStateDelete → VisitDone g m2 t.rid)) :
    ∀ (rs : List String) (m m2 : RefMap), NoKeep m →
      forRefs g (fun t acc => traverse g markDelete fuel t st acc) rs m = .ok m2 →
      MarkPost g m m2 ∧ (st = gcStateDelete → ∀ y ∈ rs, VisitDone g m2 y) := by
  intro rs
  induction rs with
  | nil =>
    intro m m2 _ h
    simp only [forRefs, Except.ok.injEq] at h
    subst h
    exact ⟨MarkPost.post_refl g m, fun _ y hy => by cases hy⟩
  | cons r rs ih =>
    intro m m2 hn h
    cases hf : findSub g r with
    | none =>
      simp only [forRefs, hf] at h
      obtain ⟨hp, hv⟩ := ih m m2 hn h
      refine ⟨hp, fun hst y hy => ?_⟩
      rcases List.mem_cons.1 hy with h1 | h1
      · intro he
        rw [h1, elig_none g r hf] at he
        cases he
      · exact hv hst y h1
    | some t =>
      simp only [forRefs, hf] at h
      cases hrun : traverse g markDelete fuel t st m with
      | error e => simp [hrun] at h
      | ok m1 =>
        simp only [hrun] at h
        obtain ⟨hp1, hv1⟩ := IH t m m1 (findSub_self g r t hf) hn hrun
        obtain ⟨hp2, hv2⟩ := ih m1 m2 (hp1.le.le_noKeep hn) h
        refine ⟨hp1.post_trans hp2, fun hst y hy => ?_⟩
        rcases List.mem_cons.1 hy with h1 | h1
        · have := hv1 hst
          rw [findSub_rid g r t hf] at this
          rw [h1]
          exact hp2.le.visitDone g r this
        · exact hv2 hst y h1

theorem mark_traverse (g : List Subscription) :
    ∀ (fuel : Nat) (state : gcState) (t : Subscription) (m m2 : RefMap),
      (state = gcStateDelete ∨ state = gcStateKeep) → findSub g t.rid = some t → NoKeep m →
      traverse g markDelete fuel t state m = .ok m2 →
      MarkPost g m m2 ∧ (state = gcStateDelete → VisitDone g m2 t.rid) := by
  intro fuel
  induction fuel with
  | zero =>
    intro state t m m2 _ _ _ h
    simp [traverse] at h
  | succ fuel ih =>
    intro state t m m2 hstate ht hn h
    have hrefs : refsOf g t.rid = t.refs := refsOf_of_findSub g t.rid t ht
    by_cases hd : t.direct > 0
    · simp only [traverse, hd, if_true, Except.ok.injEq] at h
      subst h
      refine ⟨MarkPost.post_refl g m, fun _ he => ?_⟩
      rw [elig_of_findSub g t.rid t ht] at he
      simp at he
      omega
    · simp only [traverse, hd, if_false] at h
      cases hg : mapGet m t.rid with
      | none => simp [markDelete, hg] at h
      | some r =>
        have hnk : r.state ≠ gcStateKeep := by
          rcases hn t.rid r hg with e | e <;> rw [e] <;> decide
        by_cases hk : r.indirect > 0 ∨ state = gcStateKeep
        · -- answered Keep: descend in keep mode
          rw [markDelete_keep t state m r hg hnk hk] at h
          simp only [show ¬ (gcStateKeep = gcStateStop) by decide, if_false] at h
          obtain ⟨hp, _⟩ := mark_forRefs g fuel gcStateKeep
            (fun t1 m1 m3 h1 h2 h3 => ih gcStateKeep t1 m1 m3 (Or.inr rfl) h1 h2 h3)
            t.refs m m2 hn h
          refine ⟨hp, fun hst _ => ?_⟩
          obtain ⟨r2, hr2, hi, _, _⟩ := hp.le.2 t.rid r hg
          refine ⟨r2, hr2, fun hle => ?_⟩
          rcases hk with hpos | hkeep
          · omega
          · rw [hst] at hkeep
            cases hkeep
        · by_cases hs : r.state = gcStateNone
          · -- marked now: descend in delete mode
            rw [markDelete_mark t state m r hg hk hs] at h
            simp only [show ¬ (gcStateDelete = gcStateStop) by decide, if_false] at h
            have hle1 : MarkLe m (mapModify (fun r => { r with state := gcStateDelete }) m t.rid) :=
              MarkLe.le_mark m t.rid r hg hs (by
                have : ¬ r.indirect > 0 := fun e => hk (Or.inl e)
                omega)
            obtain ⟨hp, hv⟩ := mark_forRefs g fuel gcStateDelete
              (fun t1 m1 m3 h1 h2 h3 => ih gcStateDelete t1 m1 m3 (Or.inl rfl) h1 h2 h3)
              t.refs _ m2 (hle1.le_noKeep hn) h
            have hdel1 : isDel (mapModify (fun r => { r with state := gcStateDelete }) m t.rid)
                t.rid := ⟨{ r with state := gcStateDelete }, by simp [mapGet_mapModify, hg], rfl⟩
            have hdel2 : isDel m2 t.rid := hp.le.isDel t.rid hdel1
            refine ⟨⟨hle1.le_trans hp.le, ?_⟩, fun _ _ => ?_⟩
            · intro k hk2 hk0 y hy
              by_cases hkt : k = t.rid
              · rw [hkt, hrefs] at hy
                exact hv rfl y hy
              · refine hp.done k hk2 ?_ y hy
                rintro ⟨r1, hr1, hs1⟩
                rw [mapGet_mapModify] at hr1
                simp only [hkt, if_false] at hr1
                exact hk0 ⟨r1, hr1, hs1⟩
            · obtain ⟨r2, hr2, hs2⟩ := hdel2
              exact ⟨r2, hr2, fun _ => hs2⟩
          · -- already marked: stop
            rw [markDelete_stop t state m r hg hnk hk hs] at h
            simp only [if_true, Except.ok.injEq] at h
            subst h
            refine ⟨MarkPost.post_refl g m, fun _ _ => ⟨r, hg, fun _ => ?_⟩⟩
            rcases hn t.rid r hg with e | e
            · exact absurd e hs
            · exact e

theorem MarkLe.back {m m2 : RefMap} (h : MarkLe m m2) (k : String) (r2 : subRef)
    (hr2 : mapGet m2 k = some r2) :
    ∃ r, mapGet m k = some r ∧ r2.indirect = r.indirect ∧ r2.sub = r.sub ∧
      (r2.state = r.state ∨
        (r.state = gcStateNone ∧ r2.state = gcStateDelete ∧ r.indirect ≤ 0)) := by
  have hk : k ∈ keys m := by
    rw [← h.1]
    exact mapGet_some_mem m2 k r2 hr2
  obtain ⟨r, hr⟩ := mem_keys_mapGet m k hk
  obtain ⟨r3, hr3, hi, hs, hst⟩ := h.2 k r hr
  rw [hr2] at hr3
  cases hr3
  exact ⟨r, hr, hi, hs, hst⟩

theorem MarkPre.of_le {g : List Subscription} {m m2 : RefMap} (h : MarkLe m m2)
    (hp : MarkPre g m) : MarkPre g m2 := by
  refine ⟨h.le_noKeep hp.noKeep, ?_, ?_⟩
  · intro k r2 hr2
    obtain ⟨r, hr, hi, _, _⟩ := h.back k r2 hr2
    rw [hi]
    exact hp.nonpos k r hr
  · intro k hk y hy he
    rw [h.1] at hk ⊢
    exact hp.closed k hk y hy he

theorem noneCount_mono {m m2 : RefMap} (h : MarkLe m m2) : noneCount m2 ≤ noneCount m := by
  unfold noneCount
  rw [h.1]
  apply List.Sublist.length_le
  apply List.monotone_filter_right
  intro k hk
  unfold isNoneAt at hk ⊢
  cases hg2 : mapGet m2 k with
  | none => simp [hg2] at hk
  | some r2 =>
    simp only [hg2, decide_eq_true_eq] at hk
    obtain ⟨r, hr, _, _, hst⟩ := h.back k r2 hg2
    simp only [hr, decide_eq_true_eq]
    rcases hst with e | ⟨a, _, _⟩
    · rw [← e]; exact hk
    · exact a

theorem noneCount_mark_lt (m : RefMap) (k : String) (r : subRef) (hr : mapGet m k = some r)
    (hs : r.state = gcStateNone) :
    noneCount (mapModify (fun r => { r with state := gcStateDelete }) m k) < noneCount m := by
  unfold noneCount
  rw [keys_mapModify]
  have hsub : (keys m).filter
      (isNoneAt (mapModify (fun r => { r with state := gcStateDelete }) m k)) =
      ((keys m).filter (isNoneAt m)).filter (fun x => decide (x ≠ k)) := by
    rw [List.filter_filter]
    apply List.filter_congr
    intro x _
    unfold isNoneAt
    rw [mapGet_mapModify]
    by_cases hx : x = k
    · subst hx
      simp [hr]
    · simp [hx]
  rw [hsub]
  apply List.length_filter_lt_length_iff_exists.2
  refine ⟨k, ?_, by simp⟩
  rw [List.mem_filter]
  refine ⟨mapGet_some_mem m k r hr, ?_⟩
  simp [isNoneAt, hr, hs]

theorem mark_forRefs_total (g : List Subscription) (fuel : Nat)
    (IH : ∀ (t : Subscription) (m : RefMap), findSub g t.rid = some t → MarkPre g m →
      (elig g t.rid = true → t.rid ∈ keys m) → noneCount m < fuel →
      ∃ m2, traverse g markDelete fuel t gcStateDelete m = .ok m2 ∧ MarkLe m m2) :
    ∀ (rs : List String) (m : RefMap), MarkPre g m →
      (∀ y ∈ rs, elig g y = true → y ∈ keys m) → noneCount m < fuel →
      ∃ m2, forRefs g (fun t acc => traverse g markDelete fuel t gcStateDelete acc) rs m
          = .ok m2 ∧ MarkLe m m2 := by
  intro rs
  induction rs with
  | nil => intro m _ _ _; exact ⟨m, rfl, MarkLe.le_refl m⟩
  | cons r rs ih =>
    intro m hp hmem hc
    have hmem2 : ∀ y ∈ rs, elig g y = true → y ∈ keys m :=
      fun y hy => hmem y (List.mem_cons_of_mem _ hy)
    cases hf : findSub g r with
    | none =>
      obtain ⟨m2, hrun, hle⟩ := ih m hp hmem2 hc
      exact ⟨m2, by simp only [forRefs, hf]; exact hrun, hle⟩
    | some t =>
      have hrid : t.rid = r := findSub_rid g r t hf
      obtain ⟨m1, hrun1, hle1⟩ := IH t m (findSub_self g r t hf) hp
        (by rw [hrid]; exact hmem r (List.mem_cons_self _ _)) hc
      obtain ⟨m2, hrun2, hle2⟩ := ih m1 (MarkPre.of_le hle1 hp)
        (fun y hy he => by rw [hle1.1]; exact hmem2 y hy he)
        (lt_of_le_of_lt (noneCount_mono hle1) hc)
      exact ⟨m2, by simp only [forRefs, hf, hrun1]; exact hrun2, hle1.le_trans hle2⟩

theorem mark_total (g : List Subscription) :
    ∀ (fuel : Nat) (t : Subscription) (m : RefMap), findSub g t.rid = some t → MarkPre g m →
      (elig g t.rid = true → t.rid ∈ keys m) → noneCount m < fuel →
      ∃ m2, traverse g markDelete fuel t gcStateDelete m = .ok m2 ∧ MarkLe m m2 := by
  intro fuel
  induction fuel with
  | zero => intro t m _ _ _ hc; exact absurd hc (Nat.not_lt_zero _)
  | succ fuel ih =>
    intro t m ht hp hmem hc
    have hrefs : refsOf g t.rid = t.refs := refsOf_of_findSub g t.rid t ht
    by_cases hd : t.direct > 0
    · exact ⟨m, by simp [traverse, hd], MarkLe.le_refl m⟩
    · have hel : elig g t.rid = true := by
        rw [elig_of_findSub g t.rid t ht]
        simp
        omega
      obtain ⟨r, hg⟩ := mem_keys_mapGet m t.rid (hmem hel)
      have hnk : r.state ≠ gcStateKeep := by
        rcases hp.noKeep t.rid r hg with e | e <;> rw [e] <;> decide
      have hk : ¬ (r.indirect > 0 ∨ gcStateDelete = gcStateKeep) := by
        have := hp.nonpos t.rid r hg
        rintro (h1 | h1)
        · omega
        · cases h1
      by_cases hs : r.state = gcStateNone
      · have hle1 := MarkLe.le_mark m t.rid r hg hs (hp.nonpos t.rid r hg)
        have hc1 := noneCount_mark_lt m t.rid r hg hs
        obtain ⟨m2, hrun, hle2⟩ := mark_forRefs_total g fuel ih t.refs _
          (MarkPre.of_le hle1 hp)
          (fun y hy he => by
            rw [hle1.1]
            exact hp.closed t.rid (hmem hel) y (by rw [hrefs]; exact hy) he)
          (by omega)
        refine ⟨m2, ?_, hle1.le_trans hle2⟩
        simp only [traverse, hd, if_false, markDelete_mark t gcStateDelete m r hg hk hs,
          show ¬ (gcStateDelete = gcStateStop) by decide]
        exact hrun
      · refine ⟨m, ?_, MarkLe.le_refl m⟩
        simp [traverse, hd, markDelete_stop t gcStateDelete m r hg hnk hk hs]

/-! ### The sweep -/

theorem delKeys_cons_del (m : RefMap) (k : String) (r : subRef)
    (h : r.state = gcStateDelete) : delKeys ((k, r) :: m) = k :: delKeys m := by
  simp [delKeys, List.filter_cons, h]

theorem delKeys_cons_keep (m : RefMap) (k : String) (r : subRef)
    (h : ¬ r.state = gcStateDelete) : delKeys ((k, r) :: m) = delKeys m := by
  simp [delKeys, List.filter_cons, h]

theorem delSubs_cons_del (m : RefMap) (k : String) (r : subRef)
    (h : r.state = gcStateDelete) : delSubs ((k, r) :: m) = r.sub.rid :: delSubs m := by
  simp [delSubs, List.filter_cons, h]

theorem delSubs_cons_keep (m : RefMap) (k : String) (r : subRef)
    (h : ¬ r.state = gcStateDelete) : delSubs ((k, r) :: m) = delSubs m := by
  simp [delSubs, List.filter_cons, h]

theorem sweep_subs (m : RefMap) : ∀ c : wsConn,
    (sweep m c).subs = c.subs.filter (fun n => decide (n.rid ∉ delKeys m)) := by
  induction m with
  | nil => intro c; simp [sweep, delKeys]
  | cons p m ih =>
    intro c
    obtain ⟨k, r⟩ := p
    by_cases h : r.state = gcStateDelete
    · simp only [sweep, h, if_true]
      rw [ih]
      simp only [deleteSub, Dispose, List.filter_filter]
      apply List.filter_congr
      intro n _
      rw [delKeys_cons_del m k r h]
      by_cases h1 : n.rid = k <;> by_cases h2 : n.rid ∈ delKeys m <;> simp [h1, h2]
    · simp only [sweep, h, if_false]
      rw [ih, delKeys_cons_keep m k r h]

theorem sweep_disposed (m : RefMap) : ∀ c : wsConn,
    (sweep m c).disposed = c.disposed ++ delSubs m := by
  induction m with
  | nil => intro c; simp [sweep, delSubs]
  | cons p m ih =>
    intro c
    obtain ⟨k, r⟩ := p
    by_cases h : r.state = gcStateDelete
    · simp only [sweep, h, if_true]
      rw [ih, delSubs_cons_del m k r h]
      simp [deleteSub, Dispose]
    · simp only [sweep, h, if_false]
      rw [ih, delSubs_cons_keep m k r h]

theorem mem_delKeys_iff (m : RefMap) (hnd : (keys m).Nodup) (k : String) :
    k ∈ delKeys m ↔ isDel m k := by
  induction m with
  | nil => simp [delKeys, isDel, mapGet]
  | cons p m ih =>
    obtain ⟨k1, r1⟩ := p
    simp only [keys, List.map_cons, List.nodup_cons] at hnd
    have ih2 := ih hnd.2
    by_cases hk : k1 = k
    · subst hk
      have hno : k1 ∉ delKeys m := by
        intro hmem
        apply hnd.1
        simp only [delKeys, List.mem_map, List.mem_filter] at hmem
        obtain ⟨e, ⟨he, _⟩, rfl⟩ := hmem
        exact List.mem_map_of_mem _ he
      by_cases hs : r1.state = gcStateDelete
      · rw [delKeys_cons_del m k1 r1 hs]
        simp [isDel, mapGet, hs]
      · have : ¬ isDel ((k1, r1) :: m) k1 := by
          rintro ⟨r, hr, hrs⟩
          simp only [mapGet, if_true, Option.some.injEq] at hr
          subst hr
          exact hs hrs
        simp only [this, iff_false]
        intro hmem
        apply hno
        rw [delKeys_cons_keep m k1 r1 hs] at hmem
        exact hmem
    · have h1 : isDel ((k1, r1) :: m) k ↔ isDel m k := by
        simp [isDel, mapGet, hk]
      rw [h1, ← ih2]
      have hk2 : ¬ k = k1 := fun e => hk e.symm
      by_cases hs : r1.state = gcStateDelete
      · rw [delKeys_cons_del m k1 r1 hs]
        simp [hk2]
      · rw [delKeys_cons_keep m k1 r1 hs]

theorem mem_delSubs_iff (m : RefMap) (hnd : (keys m).Nodup)
    (hsub : ∀ k r, mapGet m k = some r → r.sub.rid = k) (x : String) :
    x ∈ delSubs m ↔ isDel m x := by
  rw [← mem_delKeys_iff m hnd]
  have : delSubs m = delKeys m := by
    unfold delSubs delKeys
    apply List.map_congr_left
    intro e he
    obtain ⟨k, r⟩ := e
    have hmem : (k, r) ∈ m := List.mem_of_mem_filter he
    -- with unique keys the lookup under `k` finds this entry
    have hget : mapGet m k = some r := by
      clear he hsub
      induction m with
      | nil => cases hmem
      | cons p m ih =>
        obtain ⟨k1, r1⟩ := p
        simp only [keys, List.map_cons, List.nodup_cons] at hnd
        rcases List.mem_cons.1 hmem with h1 | h1
        · cases h1
          simp [mapGet]
        · have hne : k1 ≠ k := by
            intro e
            apply hnd.1
            rw [e]
            exact List.mem_map_of_mem Prod.fst h1
          simp only [mapGet, hne, if_false]
          exact ih hnd.2 h1
    exact hsub k r hget
  rw [this]

/-! ### Counting references -/

theorem inEdges_split (g : List Subscription) (P : Subscription → Bool) (x : String) :
    inEdges g x = inEdges (g.filter P) x + inEdges (g.filter (fun p => !P p)) x := by
  induction g with
  | nil => simp [inEdges]
  | cons a g ih =>
    unfold inEdges at ih ⊢
    by_cases h : P a = true
    · simp [List.filter_cons, h, ih]
      omega
    · simp [List.filter_cons, h, ih]
      omega

theorem inEdges_keys (g : List Subscription) (hnd : (g.map (fun n => n.rid)).Nodup)
    (K : List String) (hK : K.Nodup) (hKg : ∀ k ∈ K, ∃ t, findSub g k = some t) (x : String) :
    inEdges (g.filter (fun p => decide (p.rid ∈ K))) x
      = (K.map (fun k => (refsOf g k).count x)).sum := by
  have hperm : List.Perm ((g.filter (fun p => decide (p.rid ∈ K))).map (fun n => n.rid)) K := by
    apply (List.perm_ext_iff_of_nodup ?_ hK).2
    · intro a
      constructor
      · intro ha
        obtain ⟨p, hp, rfl⟩ := List.mem_map.1 ha
        simpa using (List.mem_filter.1 hp).2
      · intro ha
        obtain ⟨t, ht⟩ := hKg a ha
        refine List.mem_map.2 ⟨t, List.mem_filter.2 ⟨findSub_mem g a t ht, ?_⟩,
          findSub_rid g a t ht⟩
        rw [findSub_rid g a t ht]
        simpa using ha
    · exact List.Nodup.sublist ((List.filter_sublist g).map _) hnd
  have hsum := (hperm.map (fun k => (refsOf g k).count x)).sum_eq
  rw [← hsum, List.map_map]
  unfold inEdges
  congr 1
  apply List.map_congr_left
  intro p hp
  have hpg : p ∈ g := List.mem_of_mem_filter hp
  simp [refsOf, findSub_of_mem_nodup g p hnd hpg]

theorem followedSum_elig (g : List Subscription) (K : List String) (x : String)
    (hx : elig g x = true) :
    followedSum g K x = (K.map (fun k => (refsOf g k).count x)).sum := by
  unfold followedSum followed
  simp [hx]

theorem inEdges_eq_zero (l : List Subscription) (x : String)
    (h : ∀ p ∈ l, x ∉ p.refs) : inEdges l x = 0 := by
  unfold inEdges
  apply List.sum_eq_zero
  intro n hn
  obtain ⟨p, hp, rfl⟩ := List.mem_map.1 hn
  exact List.count_eq_zero.2 (h p hp)

theorem inEdges_pos (l : List Subscription) (x : String) (h : 0 < inEdges l x) :
    ∃ p ∈ l, x ∈ p.refs := by
  by_contra hc
  push_neg at hc
  rw [inEdges_eq_zero l x hc] at h
  exact absurd h (lt_irrefl 0)

/-- The residual of a recorded node is its `indirect` minus the number of `refs` entries of
recorded nodes that point to it; with `indirect` equal to the number of all `refs` entries
pointing to it, the residual is the number of entries from nodes that are not recorded. -/
theorem resid_eq_outside (g : List Subscription) (hnd : (g.map (fun n => n.rid)).Nodup)
    (s : Subscription) (m : RefMap) (hres : CountResult g s m) (x : String)
    (hel : ∀ k ∈ keys m, elig g k = true)
    (hx : x ∈ keys m) (hcons : indirectOf g x = inEdges g x) :
    cnt g m x = inEdges (g.filter (fun p => !decide (p.rid ∈ keys m))) x := by
  have hK : ∀ k ∈ keys m, ∃ t, findSub g k = some t := by
    intro k hk
    have := hel k hk
    unfold elig at this
    cases hf : findSub g k with
    | none => simp [hf] at this
    | some t => exact ⟨t, rfl⟩
  rw [hres.resid x, hcons, followedSum_elig g (keys m) x (hel x hx),
    ← inEdges_keys g hnd (keys m) hres.inv.1 hK x,
    inEdges_split g (fun p => decide (p.rid ∈ keys m)) x]
  push_cast
  ring

/-! ### Reachability -/

theorem ReachVia_ok {g : List Subscription} {ok : String → Prop} {a b : String}
    (h : ReachVia g ok a b) : ok b := by
  cases h with
  | refl h1 _ => exact h1
  | step _ _ h3 _ => exact h3

theorem ReachVia_node {g : List Subscription} {ok : String → Prop} {a b : String}
    (h : ReachVia g ok a b) : ∃ t, findSub g b = some t := by
  cases h with
  | refl _ h2 => exact h2
  | step _ _ _ h4 => exact h4

theorem ReachVia_reach {g : List Subscription} {ok : String → Prop} {a b : String}
    (h : ReachVia g ok a b) : Reach g a b := by
  induction h with
  | refl _ h2 =>
    obtain ⟨t, ht⟩ := h2
    exact Reach.refl ht
  | @step b z hab hz _ h4 ih =>
    obtain ⟨u, hu⟩ := h4
    obtain ⟨t, ht⟩ := ReachVia_node hab
    have : z ∈ t.refs := by
      rw [refsOf_of_findSub g b t ht] at hz
      exact hz
    exact Reach.step ih ht this hu

theorem Reach_via {g : List Subscription} {ok : String → Prop} {a b : String}
    (hok : ∀ x, Reach g a x → ok x) (h : Reach g a b) : ReachVia g ok a b := by
  induction h with
  | @refl t ht => exact ReachVia.refl (hok a (Reach.refl ht)) ⟨t, ht⟩
  | @step b z t u hab ht hz hu ih =>
    refine ReachVia.step ih ?_ (hok z (Reach.step hab ht hz hu)) ⟨u, hu⟩
    rw [refsOf_of_findSub g b t ht]
    exact hz

theorem ReachVia_trans {g : List Subscription} {ok : String → Prop} {a b c : String}
    (h1 : ReachVia g ok a b) (h2 : ReachVia g ok b c) : ReachVia g ok a c := by
  induction h2 with
  | refl _ _ => exact h1
  | step _ hz hokz hnode ih => exact ReachVia.step ih hz hokz hnode

theorem Reach_trans {g : List Subscription} {a b c : String}
    (h1 : Reach g a b) (h2 : Reach g b c) : Reach g a c := by
  induction h2 with
  | refl _ => exact h1
  | step _ ht hz hu ih => exact Reach.step ih ht hz hu

theorem Reach_node {g : List Subscription} {a b : String} (h : Reach g a b) :
    ∃ t, findSub g b = some t := by
  cases h with
  | refl h1 => exact ⟨_, h1⟩
  | step _ _ _ h4 => exact ⟨_, h4⟩

theorem CountResult.elig_keys {g : List Subscription} {s : Subscription} {m : RefMap}
    (h : CountResult g s m) : ∀ k ∈ keys m, elig g k = true :=
  fun k hk => ReachVia_ok (h.region k hk)

/-- Every node of the region of the root has a record after the first traversal. -/
theorem CountResult.region_mem {g : List Subscription} {s : Subscription} {m : RefMap}
    (h : CountResult g s m) {x : String} (hx : Region g s.rid x) : x ∈ keys m := by
  induction hx with
  | refl _ _ => exact h.root_mem
  | step _ hz hokz _ ih => exact h.closed _ ih _ hz hokz

theorem keys_length_le (g : List Subscription) (m : RefMap) (hnd : (keys m).Nodup)
    (hk : ∀ k ∈ keys m, ∃ t, findSub g k = some t) : (keys m).length ≤ g.length := by
  have hsub : keys m ⊆ g.map (fun n => n.rid) := by
    intro k hkm
    obtain ⟨t, ht⟩ := hk k hkm
    exact List.mem_map.2 ⟨t, findSub_mem g k t ht, findSub_rid g k t ht⟩
  have := (List.subperm_of_subset hnd hsub).length_le
  simpa using this

theorem noneCount_le (m : RefMap) : noneCount m ≤ (keys m).length :=
  List.length_filter_le _ _

theorem CountInv.inv_noKeep {m : RefMap} (h : CountInv m) : NoKeep m :=
  fun k r hr => Or.inl (h.2 k r hr).1

theorem CountInv.not_isDel {m : RefMap} (h : CountInv m) (k : String) : ¬ isDel m k := by
  rintro ⟨r, hr, hs⟩
  rw [(h.2 k r hr).1] at hs
  cases hs

/-! ### Closed regions -/

theorem MarkLe.keys_nodup {m m2 : RefMap} (h : MarkLe m m2) (hn : (keys m).Nodup) :
    (keys m2).Nodup := by
  rw [h.1]; exact hn

theorem MarkLe.sub_rid {m m2 : RefMap} (h : MarkLe m m2) (hm : CountInv m) :
    ∀ k r, mapGet m2 k = some r → r.sub.rid = k := by
  intro k r2 hr2
  obtain ⟨r, hr, _, hs, _⟩ := h.back k r2 hr2
  rw [hs]
  exact (hm.2 k r hr).2

theorem cnt_of_mapGet (g : List Subscription) (m : RefMap) (k : String) (r : subRef)
    (h : mapGet m k = some r) : cnt g m k = r.indirect := by
  simp [cnt, h]

/-- C4. Cycles entirely internal to the deletion set collapse.  Let the graph have
distinct RIDs and let every `refs` entry in it name a node of `subs` (`hreg`: no ref points
to an object outside the connection's map, so that following a ref is the lookup of its
RID).  Let `s` be a node of the graph such that every node reachable from `s` through
`refs` (so `s` itself) has `direct = 0`, and every `refs` entry pointing to such a node
belongs to a node that is itself reachable from `s`, the `indirect` counter of each of
these nodes being the number of `refs` entries pointing to it.  Then `tryDelete(s)` returns
(with any fuel above the number of nodes plus one), the nodes that remain in `subs` are
exactly those not reachable from `s`, and the RIDs newly recorded as disposed are exactly
the RIDs reachable from `s`.  With the debug block on, the call returns the same state
unless the debug assertion fails in it. -/
theorem closed_region_collapses (c : wsConn) (s : Subscription)
    (hnd : (c.subs.map (fun n => n.rid)).Nodup) (hs : s ∈ c.subs)
    (hreg : ∀ n ∈ c.subs, ∀ r ∈ n.refs, r ∈ c.subs.map (fun t => t.rid))
    (hdir : ∀ n ∈ c.subs, Reach c.subs s.rid n.rid → n.direct = 0)
    (hcount : ∀ n ∈ c.subs, Reach c.subs s.rid n.rid → n.indirect = inEdges c.subs n.rid)
    (hint : ∀ p ∈ c.subs, ∀ x ∈ p.refs, Reach c.subs s.rid x → Reach c.subs s.rid p.rid)
    (fuel : Nat) (hfuel : c.subs.length + 2 ≤ fuel) :
    ∃ c1, tryDelete false fuel c s = .ok c1 ∧
      (∀ n, n ∈ c1.subs ↔ n ∈ c.subs ∧ ¬ Reach c.subs s.rid n.rid) ∧
      (∀ x, x ∈ c1.disposed ↔ x ∈ c.disposed ∨ Reach c.subs s.rid x) ∧
      tryDelete true fuel c s = (if hasDirect c1 = true then .ok c1 else .error .noDirect) := by
  have _ := hreg
  have hself : findSub c.subs s.rid = some s := findSub_of_mem_nodup c.subs s hnd hs
  have hs0 : s.direct = 0 := hdir s hs (Reach.refl hself)
  have hd : ¬ s.direct > 0 := by omega
  obtain ⟨m1, hrun1, hres⟩ := countDown_result c.subs s hself hd fuel hfuel
  have helig : ∀ x, Reach c.subs s.rid x → elig c.subs x = true := by
    intro x hx
    obtain ⟨t, ht⟩ := Reach_node hx
    have htx := findSub_rid c.subs x t ht
    have := hdir t (findSub_mem c.subs x t ht) (by rw [htx]; exact hx)
    rw [elig_of_findSub c.subs x t ht]
    simp [this]
  have hkeys : ∀ x, x ∈ keys m1 ↔ Reach c.subs s.rid x := by
    intro x
    constructor
    · intro hx
      exact ReachVia_reach (hres.region x hx)
    · intro hx
      exact hres.region_mem (Reach_via helig hx)
  have hnode : ∀ k ∈ keys m1, ∃ t, findSub c.subs k = some t :=
    fun k hk => ReachVia_node (hres.region k hk)
  have hzero : ∀ k r, mapGet m1 k = some r → r.indirect = 0 := by
    intro k r hr
    have hk : k ∈ keys m1 := mapGet_some_mem m1 k r hr
    obtain ⟨t, ht⟩ := hnode k hk
    have htk := findSub_rid c.subs k t ht
    have hcons : indirectOf c.subs k = inEdges c.subs k := by
      have := hcount t (findSub_mem c.subs k t ht) (by rw [htk]; exact (hkeys k).1 hk)
      simp only [indirectOf, ht]
      rw [this, htk]
    have h1 := resid_eq_outside c.subs hnd s m1 hres k hres.elig_keys hk hcons
    rw [cnt_of_mapGet c.subs m1 k r hr] at h1
    rw [h1, inEdges_eq_zero]
    · rfl
    · intro p hp hkp
      have hpg : p ∈ c.subs := List.mem_of_mem_filter hp
      have hpk : p.rid ∉ keys m1 := by
        have := (List.mem_filter.1 hp).2
        simpa using this
      exact hpk ((hkeys p.rid).2 (hint p hpg k hkp ((hkeys k).1 hk)))
  obtain ⟨rr, hrr⟩ := mem_keys_mapGet m1 s.rid hres.root_mem
  have hrr0 : ¬ rr.indirect > 0 := by
    rw [hzero s.rid rr hrr]
    decide
  have hpre : MarkPre c.subs m1 :=
    ⟨hres.inv.inv_noKeep, fun k r hr => le_of_eq (hzero k r hr), hres.closed⟩
  have hnc : noneCount m1 < fuel := by
    have h1 := noneCount_le m1
    have h2 := keys_length_le c.subs m1 hres.inv.1 hnode
    omega
  obtain ⟨m2, hrun2, hle⟩ := mark_total c.subs fuel s m1 hself hpre (fun _ => hres.root_mem) hnc
  obtain ⟨hpost, hvd⟩ := mark_traverse c.subs fuel gcStateDelete s m1 m2 (Or.inl rfl) hself
    hres.inv.inv_noKeep hrun2
  have hdone : ∀ x, VisitDone c.subs m2 x → elig c.subs x = true → isDel m2 x := by
    intro x hv he
    obtain ⟨r2, hr2, himp⟩ := hv he
    obtain ⟨r, hr, hi, _, _⟩ := hle.back x r2 hr2
    exact ⟨r2, hr2, himp (by rw [hi, hzero x r hr])⟩
  have hdel : ∀ x, Reach c.subs s.rid x → isDel m2 x := by
    intro x hx
    induction hx with
    | refl ht => exact hdone s.rid (hvd rfl) (helig s.rid (Reach.refl ht))
    | @step b z t u hab ht hz hu ih =>
      have hz2 : z ∈ refsOf c.subs b := by
        rw [refsOf_of_findSub c.subs b t ht]
        exact hz
      exact hdone z (hpost.done b ih (hres.inv.not_isDel b) z hz2)
        (helig z (Reach.step hab ht hz hu))
  have hiff : ∀ x, isDel m2 x ↔ Reach c.subs s.rid x := by
    intro x
    refine ⟨?_, hdel x⟩
    rintro ⟨r, hr, _⟩
    have := mapGet_some_mem m2 x r hr
    rw [hle.1] at this
    exact (hkeys x).1 this
  refine ⟨sweep m2 c, ?_, ?_, ?_, ?_⟩
  · simp [tryDelete, hd, hrun1, hrr, hrr0, hrun2]
  · intro n
    rw [sweep_subs, List.mem_filter]
    simp only [decide_eq_true_eq, mem_delKeys_iff m2 (hle.keys_nodup hres.inv.1), hiff]
  · intro x
    rw [sweep_disposed, List.mem_append,
      mem_delSubs_iff m2 (hle.keys_nodup hres.inv.1) (hle.sub_rid hres.inv), hiff]
  · cases hh : hasDirect (sweep m2 c) <;>
      simp [tryDelete, hd, hrun1, hrr, hrr0, hrun2, hh]

theorem closedCycle_reach : ∀ p ∈ closedCycle, Reach closedCycle "A" p.rid := by
  have hA : Reach closedCycle "A" "A" :=
    Reach.refl (t := { rid := "A", direct := 0, indirect := 0, refs := ["B"] }) rfl
  have hB : Reach closedCycle "A" "B" :=
    Reach.step (t := { rid := "A", direct := 0, indirect := 0, refs := ["B"] })
      (u := { rid := "B", direct := 0, indirect := 2, refs := ["C"] }) hA rfl (by decide) rfl
  have hC : Reach closedCycle "A" "C" :=
    Reach.step (t := { rid := "B", direct := 0, indirect := 2, refs := ["C"] })
      (u := { rid := "C", direct := 0, indirect := 1, refs := ["B"] }) hB rfl (by decide) rfl
  intro p hp
  simp only [closedCycle, List.mem_cons, List.mem_singleton, List.not_mem_nil, or_false] at hp
  rcases hp with rfl | rfl | rfl
  · exact hA
  · exact hB
  · exact hC

/-- C4 at the spec's example: in A → B → C → B with `A.direct = 0` the hypotheses hold, and
`tryDelete(A)` leaves none of A, B, C in `subs` and records all three as disposed. -/
theorem closed_region_collapses_witness :
    ((closedCycle.map (fun n => n.rid)).Nodup ∧ closedCycleRoot ∈ closedCycle ∧
      (∀ n ∈ closedCycle, ∀ r ∈ n.refs, r ∈ closedCycle.map (fun t => t.rid)) ∧
      (∀ n ∈ closedCycle, Reach closedCycle "A" n.rid → n.direct = 0) ∧
      (∀ n ∈ closedCycle, Reach closedCycle "A" n.rid →
        n.indirect = inEdges closedCycle n.rid) ∧
      (∀ p ∈ closedCycle, ∀ x ∈ p.refs, Reach closedCycle "A" x →
        Reach closedCycle "A" p.rid)) ∧
    (∃ c1, tryDelete false 5 { subs := closedCycle, disposed := [] } closedCycleRoot = .ok c1 ∧
      (∀ n, n ∈ c1.subs ↔ n ∈ closedCycle ∧ ¬ Reach closedCycle "A" n.rid) ∧
      (∀ x, x ∈ c1.disposed ↔ x ∈ ([] : List String) ∨ Reach closedCycle "A" x) ∧
      tryDelete true 5 { subs := closedCycle, disposed := [] } closedCycleRoot
        = (if hasDirect c1 = true then .ok c1 else .error .noDirect)) ∧
    tryDelete false 5 { subs := closedCycle, disposed := [] } closedCycleRoot
      = .ok { subs := [], disposed := ["A", "B", "C"] } :=
  ⟨⟨by decide, by decide, by decide,
      fun n hn _ => (by decide : ∀ n ∈ closedCycle, n.direct = 0) n hn,
      fun n hn _ => (by decide : ∀ n ∈ closedCycle, n.indirect = inEdges closedCycle n.rid) n hn,
      fun p hp _ _ _ => closedCycle_reach p hp⟩,
    closed_region_collapses { subs := closedCycle, disposed := [] } closedCycleRoot
      (by decide) (by decide) (by decide)
      (fun n hn _ => (by decide : ∀ n ∈ closedCycle, n.direct = 0) n hn)
      (fun n hn _ => (by decide : ∀ n ∈ closedCycle, n.indirect = inEdges closedCycle n.rid) n hn)
      (fun p hp _ _ _ => closedCycle_reach p hp) 5 (by decide),
    rfl⟩

/-! ### The record of descents -/

theorem logged_countDown_forRefs (g : List Subscription) (fuel : Nat)
    (IH : ∀ (t : Subscription) (m : RefMap) (log : List (String × gcState)) (m2 : RefMap),
      traverse g countDown fuel t gcStateNone m = .ok m2 →
      ∃ N : List String, keys m2 = keys m ++ N ∧
        traverse g (logged countDown) fuel t gcStateNone (m, log)
          = .ok (m2, log ++ N.map (fun k => (k, gcStateNone)))) :
    ∀ (rs : List String) (m : RefMap) (log : List (String × gcState)) (m2 : RefMap),
      forRefs g (fun t acc => traverse g countDown fuel t gcStateNone acc) rs m = .ok m2 →
      ∃ N : List String, keys m2 = keys m ++ N ∧
        forRefs g (fun t acc => traverse g (logged countDown) fuel t gcStateNone acc) rs (m, log)
          = .ok (m2, log ++ N.map (fun k => (k, gcStateNone))) := by
  intro rs
  induction rs with
  | nil =>
    intro m log m2 h
    simp only [forRefs, Except.ok.injEq] at h
    subst h
    exact ⟨[], by simp, by simp [forRefs]⟩
  | cons r rs ih =>
    intro m log m2 h
    cases hf : findSub g r with
    | none =>
      simp only [forRefs, hf] at h ⊢
      exact ih m log m2 h
    | some t =>
      simp only [forRefs, hf] at h ⊢
      cases hrun : traverse g countDown fuel t gcStateNone m with
      | error e => simp [hrun] at h
      | ok m1 =>
        simp only [hrun] at h
        obtain ⟨N1, hk1, hl1⟩ := IH t m log m1 hrun
        obtain ⟨N2, hk2, hl2⟩ := ih m1 (log ++ N1.map (fun k => (k, gcStateNone))) m2 h
        refine ⟨N1 ++ N2, by rw [hk2, hk1, List.append_assoc], ?_⟩
        simp only [hl1, hl2, List.map_append, List.append_assoc]

theorem logged_countDown_traverse (g : List Subscription) :
    ∀ (fuel : Nat) (t : Subscription) (m : RefMap) (log : List (String × gcState))
      (m2 : RefMap),
      traverse g countDown fuel t gcStateNone m = .ok m2 →
      ∃ N : List String, keys m2 = keys m ++ N ∧
        traverse g (logged countDown) fuel t gcStateNone (m, log)
          = .ok (m2, log ++ N.map (fun k => (k, gcStateNone))) := by
  intro fuel
  induction fuel with
  | zero => intro t m log m2 h; simp [traverse] at h
  | succ fuel ih =>
    intro t m log m2 h
    by_cases hd : t.direct > 0
    · simp only [traverse, hd, if_true, Except.ok.injEq] at h
      subst h
      exact ⟨[], by simp, by simp [traverse, hd]⟩
    · cases hg : mapGet m t.rid with
      | some r0 =>
        simp [traverse, hd, countDown, hg] at h
        subst h
        exact ⟨[], by simp [keys_mapModify], by simp [traverse, hd, countDown, hg, logged]⟩
      | none =>
        simp [traverse, hd, countDown, hg] at h
        obtain ⟨N, hk, hl⟩ := logged_countDown_forRefs g fuel ih t.refs _
          (log ++ [(t.rid, gcStateNone)]) m2 h
        refine ⟨t.rid :: N, by rw [hk, keys_mapAdd]; simp, ?_⟩
        simp [traverse, hd, countDown, hg, logged]
        rw [hl]
        simp

theorem logged_countDown_root (g : List Subscription) (s : Subscription) (fuel : Nat)
    (hfuel : g.length + 2 ≤ fuel) :
    ∃ m log, traverse g (logged countDown) fuel s gcStateRoot (rootRefs s, []) = .ok (m, log) ∧
      (log.map Prod.fst).Nodup ∧
      traverse g countDown fuel s gcStateRoot (rootRefs s) = .ok m ∧ CountInv m := by
  by_cases hd : s.direct > 0
  · obtain ⟨f, rfl⟩ : ∃ f, fuel = f + 1 := ⟨fuel - 1, by omega⟩
    exact ⟨rootRefs s, [], by simp [traverse, hd], by simp, by simp [traverse, hd],
      CountInv_rootRefs s⟩
  · obtain ⟨m2, N, hrun, hpost⟩ := countDown_root g (fun _ => True)
      (fun _ _ _ _ _ _ => trivial) s hd (fun _ _ _ => trivial) fuel hfuel
    obtain ⟨f, rfl⟩ : ∃ f, fuel = f + 1 := ⟨fuel - 1, by omega⟩
    have hrun2 := hrun
    simp [traverse, hd, countDown] at hrun2
    obtain ⟨N2, hk, hl⟩ := logged_countDown_forRefs g f
      (fun t m log m3 h => logged_countDown_traverse g f t m log m3 h)
      s.refs (rootRefs s) [(s.rid, gcStateNone)] m2 hrun2
    refine ⟨m2, [(s.rid, gcStateNone)] ++ N2.map (fun k => (k, gcStateNone)), ?_, ?_, hrun,
      hpost.inv⟩
    · simp [traverse, hd, countDown, logged]
      rw [hl]
      simp
    · have : ([(s.rid, gcStateNone)] ++ N2.map (fun k => (k, gcStateNone))).map Prod.fst
          = keys m2 := by
        rw [hk]
        simp [rootRefs, keys, Function.comp_def]
      rw [this]
      exact hpost.inv.1

theorem deleteDescents_append (l1 l2 : List (String × gcState)) :
    deleteDescents (l1 ++ l2) = deleteDescents l1 ++ deleteDescents l2 := by
  simp [deleteDescents]

theorem MarkLog.log_refl (m : RefMap) : MarkLog m m [] :=
  ⟨fun _ h => h, fun k hk => by simp [deleteDescents] at hk, by simp [deleteDescents]⟩

theorem MarkLog.log_trans {m m1 m2 : RefMap} {N1 N2 : List (String × gcState)}
    (h1 : MarkLog m m1 N1) (h2 : MarkLog m1 m2 N2) : MarkLog m m2 (N1 ++ N2) := by
  refine ⟨fun k hk => h2.mono k (h1.mono k hk), ?_, ?_⟩
  · intro k hk
    rw [deleteDescents_append, List.mem_append] at hk
    rcases hk with hk1 | hk2
    · exact ⟨h2.mono k (h1.marked k hk1).1, (h1.marked k hk1).2⟩
    · exact ⟨(h2.marked k hk2).1, fun h => (h2.marked k hk2).2 (h1.mono k h)⟩
  · rw [deleteDescents_append]
    refine List.Nodup.append h1.nodup h2.nodup ?_
    intro k hk1 hk2
    exact (h2.marked k hk2).2 (h1.marked k hk1).1

theorem logged_forRefs_fst {σ : Type} (g : List Subscription)
    (v1 : Subscription → σ × List (String × gcState) →
      Except gcError (σ × List (String × gcState)))
    (v2 : Subscription → σ → Except gcError σ)
    (IH : ∀ t st log, (v1 t (st, log)).map Prod.fst = v2 t st) :
    ∀ (rs : List String) (st : σ) (log : List (String × gcState)),
      (forRefs g v1 rs (st, log)).map Prod.fst = forRefs g v2 rs st := by
  intro rs
  induction rs with
  | nil => intro st log; rfl
  | cons r rs ih =>
    intro st log
    cases hf : findSub g r with
    | none =>
      simp only [forRefs, hf]
      exact ih st log
    | some t =>
      simp only [forRefs, hf]
      have := IH t st log
      cases h1 : v1 t (st, log) with
      | error e =>
        rw [h1] at this
        simp only [Except.map] at this
        rw [← this]
        rfl
      | ok p =>
        obtain ⟨st1, log1⟩ := p
        rw [h1] at this
        simp only [Except.map] at this
        rw [← this]
        exact ih st1 log1

/-- The instrumented traversal computes the same state as the plain one. -/
theorem logged_traverse_fst {σ : Type} (g : List Subscription)
    (cb : Subscription → gcState → σ → Except gcError (σ × gcState)) :
    ∀ (fuel : Nat) (t : Subscription) (state : gcState) (st : σ)
      (log : List (String × gcState)),
      (traverse g (logged cb) fuel t state (st, log)).map Prod.fst
        = traverse g cb fuel t state st := by
  intro fuel
  induction fuel with
  | zero => intro t state st log; rfl
  | succ fuel ih =>
    intro t state st log
    by_cases hd : t.direct > 0
    · simp [traverse, hd, Except.map]
    · simp only [traverse, hd, if_false, logged]
      cases hcb : cb t state st with
      | error e => rfl
      | ok p =>
        obtain ⟨st1, state1⟩ := p
        by_cases hstop : state1 = gcStateStop
        · simp [hstop, Except.map]
        · simp only [hstop, if_false]
          exact logged_forRefs_fst g _ _ (fun t1 s1 l1 => ih t1 state1 s1 l1) t.refs st1 _

theorem MarkLog.log_mark (m : RefMap) (k : String) (r : subRef) (hr : mapGet m k = some r)
    (hs : r.state = gcStateNone) :
    MarkLog m (mapModify (fun r => { r with state := gcStateDelete }) m k)
      [(k, gcStateDelete)] := by
  have hdel : isDel (mapModify (fun r => { r with state := gcStateDelete }) m k) k :=
    ⟨{ r with state := gcStateDelete }, by simp [mapGet_mapModify, hr], rfl⟩
  refine ⟨?_, ?_, by simp [deleteDescents]⟩
  · intro k1 hk1
    by_cases hk : k1 = k
    · rw [hk]; exact hdel
    · obtain ⟨r1, hr1, hs1⟩ := hk1
      exact ⟨r1, by simp [mapGet_mapModify, hk, hr1], hs1⟩
  · intro k1 hk1
    have : k1 = k := by simpa [deleteDescents] using hk1
    rw [this]
    refine ⟨hdel, ?_⟩
    rintro ⟨r1, hr1, hs1⟩
    rw [hr] at hr1
    cases hr1
    rw [hs] at hs1
    cases hs1

theorem MarkLog.cons_keep {m m2 : RefMap} {N : List (String × gcState)} (k : String)
    (h : MarkLog m m2 N) : MarkLog m m2 ((k, gcStateKeep) :: N) := by
  have : deleteDescents ((k, gcStateKeep) :: N) = deleteDescents N := by
    simp [deleteDescents, List.filter_cons]
  exact ⟨h.mono, by rw [this]; exact h.marked, by rw [this]; exact h.nodup⟩

theorem logged_mark_forRefs (g : List Subscription) (fuel : Nat) (st : gcState)
    (IH : ∀ (t : Subscription) (m : RefMap) (log : List (String × gcState)) (m2 : RefMap)
      (log2 : List (String × gcState)),
      traverse g (logged markDelete) fuel t st (m, log) = .ok (m2, log2) →
      ∃ N, log2 = log ++ N ∧ MarkLog m m2 N) :
    ∀ (rs : List String) (m : RefMap) (log : List (String × gcState)) (m2 : RefMap)
      (log2 : List (String × gcState)),
      forRefs g (fun t acc => traverse g (logged markDelete) fuel t st acc) rs (m, log)
        = .ok (m2, log2) →
      ∃ N, log2 = log ++ N ∧ MarkLog m m2 N := by
  intro rs
  induction rs with
  | nil =>
    intro m log m2 log2 h
    simp only [forRefs, Except.ok.injEq, Prod.mk.injEq] at h
    obtain ⟨rfl, rfl⟩ := h
    exact ⟨[], by simp, MarkLog.log_refl m⟩
  | cons r rs ih =>
    intro m log m2 log2 h
    cases hf : findSub g r with
    | none =>
      simp only [forRefs, hf] at h
      exact ih m log m2 log2 h
    | some t =>
      simp only [forRefs, hf] at h
      cases hrun : traverse g (logged markDelete) fuel t st (m, log) with
      | error e => simp [hrun] at h
      | ok p =>
        obtain ⟨m1, log1⟩ := p
        simp only [hrun] at h
        obtain ⟨N1, hl1, hm1⟩ := IH t m log m1 log1 hrun
        obtain ⟨N2, hl2, hm2⟩ := ih m1 log1 m2 log2 h
        exact ⟨N1 ++ N2, by rw [hl2, hl1, List.append_assoc], hm1.log_trans hm2⟩

theorem logged_mark_traverse (g : List Subscription) :
    ∀ (fuel : Nat) (st : gcState) (t : Subscription) (m : RefMap)
      (log : List (String × gcState)) (m2 : RefMap) (log2 : List (String × gcState)),
      traverse g (logged markDelete) fuel t st (m, log) = .ok (m2, log2) →
      ∃ N, log2 = log ++ N ∧ MarkLog m m2 N := by
  intro fuel
  induction fuel with
  | zero => intro st t m log m2 log2 h; simp [traverse] at h
  | succ fuel ih =>
    intro st t m log m2 log2 h
    by_cases hd : t.direct > 0
    · simp only [traverse, hd, if_true, Except.ok.injEq, Prod.mk.injEq] at h
      obtain ⟨rfl, rfl⟩ := h
      exact ⟨[], by simp, MarkLog.log_refl m⟩
    · simp only [traverse, hd, if_false, logged] at h
      cases hg : mapGet m t.rid with
      | none => simp [markDelete, hg] at h
      | some r =>
        by_cases hkeep : r.state = gcStateKeep
        · simp [markDelete, hg, hkeep] at h
          obtain ⟨rfl, rfl⟩ := h
          exact ⟨[], by simp, MarkLog.log_refl m⟩
        · by_cases hk : r.indirect > 0 ∨ st = gcStateKeep
          · rw [markDelete_keep t st m r hg hkeep hk] at h
            simp only [show ¬ (gcStateKeep = gcStateStop) by decide, if_false] at h
            obtain ⟨N, hl, hm⟩ := logged_mark_forRefs g fuel gcStateKeep
              (fun t1 m1 l1 m3 l3 h1 => ih gcStateKeep t1 m1 l1 m3 l3 h1) t.refs m _ m2 log2 h
            exact ⟨(t.rid, gcStateKeep) :: N, by rw [hl]; simp, hm.cons_keep t.rid⟩
          · by_cases hs : r.state = gcStateNone
            · rw [markDelete_mark t st m r hg hk hs] at h
              simp only [show ¬ (gcStateDelete = gcStateStop) by decide, if_false] at h
              obtain ⟨N, hl, hm⟩ := logged_mark_forRefs g fuel gcStateDelete
                (fun t1 m1 l1 m3 l3 h1 => ih gcStateDelete t1 m1 l1 m3 l3 h1) t.refs _ _ m2
                log2 h
              refine ⟨(t.rid, gcStateDelete) :: N, by rw [hl]; simp, ?_⟩
              exact (MarkLog.log_mark m t.rid r hg hs).log_trans hm
            · rw [markDelete_stop t st m r hg hkeep hk hs] at h
              simp only [if_true, Except.ok.injEq, Prod.mk.injEq] at h
              obtain ⟨rfl, rfl⟩ := h
              exact ⟨[], by simp, MarkLog.log_refl m⟩

/-- C2, the claim at a concrete input.  On `sharedChild` the second traversal of
`tryDelete(A)` returns after descending into the `refs` of B twice: once in delete mode,
when B is marked, and once more in keep mode, when B is reached from C. -/
theorem sharedChild_mark_descends_twice :
    ∃ m1 m2,
      traverse sharedChild countDown 5 sharedChildRoot gcStateRoot (rootRefs sharedChildRoot)
        = .ok m1 ∧
      traverse sharedChild (logged markDelete) 5 sharedChildRoot gcStateDelete (m1, [])
        = .ok (m2, [("A", gcStateDelete), ("B", gcStateDelete), ("C", gcStateKeep),
                    ("B", gcStateKeep)]) ∧
      ¬ (([("A", gcStateDelete), ("B", gcStateDelete), ("C", gcStateKeep),
            ("B", gcStateKeep)] : List (String × gcState)).map Prod.fst).Nodup :=
  ⟨_, _, rfl, rfl, by decide⟩

/-- C2 as amended.  For every graph and every node `s`: with any fuel above the number of
nodes plus one the first traversal of `tryDelete(s)` returns, and it descends into the
`refs` of each node at most once (the instrumented run returns the same map together with
a duplicate-free record of descents); and whenever the second traversal returns, it has
descended into the `refs` of each node at most once in delete mode (the instrumented run
computes the same map as the plain one). -/
theorem traversals_descend_once (g : List Subscription) (s : Subscription) (fuel : Nat) :
    (g.length + 2 ≤ fuel →
      ∃ m log,
        traverse g countDown fuel s gcStateRoot (rootRefs s) = .ok m ∧
        traverse g (logged countDown) fuel s gcStateRoot (rootRefs s, []) = .ok (m, log) ∧
        (log.map Prod.fst).Nodup) ∧
    (∀ m1 m2 log,
      traverse g (logged markDelete) fuel s gcStateDelete (m1, []) = .ok (m2, log) →
      (deleteDescents log).Nodup) ∧
    (∀ m1, (traverse g (logged markDelete) fuel s gcStateDelete (m1, [])).map Prod.fst
      = traverse g markDelete fuel s gcStateDelete m1) := by
  refine ⟨?_, ?_, fun m1 => logged_traverse_fst g markDelete fuel s gcStateDelete m1 []⟩
  · intro hfuel
    obtain ⟨m, log, h1, h2, h3, _⟩ := logged_countDown_root g s fuel hfuel
    exact ⟨m, log, h3, h1, h2⟩
  · intro m1 m2 log h
    obtain ⟨N, hl, hm⟩ := logged_mark_traverse g fuel gcStateDelete s m1 [] m2 log h
    rw [hl]
    simpa using hm.nodup

/-! ### Early returns and the anchored cycle -/

/-- C6. `tryDelete(s)` returns the connection unchanged (same `subs`, same nodes, nothing
disposed) when `s.direct > 0`, and also when the first traversal has returned and the
residual `indirect` it recorded for the root is positive; with any fuel above the number of
nodes plus one the first traversal does return and the root has a record. -/
theorem tryDelete_noop (debug : Bool) (fuel : Nat) (c : wsConn) (s : Subscription) :
    (s.direct > 0 → tryDelete debug fuel c s = .ok c) ∧
    (∀ refs1 rr, traverse c.subs countDown fuel s gcStateRoot (rootRefs s) = .ok refs1 →
      mapGet refs1 s.rid = some rr → rr.indirect > 0 → tryDelete debug fuel c s = .ok c) ∧
    (c.subs.length + 2 ≤ fuel →
      ∃ refs1 rr, traverse c.subs countDown fuel s gcStateRoot (rootRefs s) = .ok refs1 ∧
        mapGet refs1 s.rid = some rr) := by
  refine ⟨?_, ?_, ?_⟩
  · intro hd
    simp [tryDelete, hd]
  · intro refs1 rr hrun hrr hpos
    by_cases hd : s.direct > 0
    · simp [tryDelete, hd]
    · simp [tryDelete, hd, hrun, hrr, hpos]
  · intro hfuel
    by_cases hd : s.direct > 0
    · obtain ⟨f, rfl⟩ : ∃ f, fuel = f + 1 := ⟨fuel - 1, by omega⟩
      exact ⟨rootRefs s, { sub := s, indirect := s.indirect, state := gcStateNone },
        by simp [traverse, hd], by simp [rootRefs, mapGet]⟩
    · obtain ⟨m2, N, hrun, hpost⟩ := countDown_root c.subs (fun _ => True)
        (fun _ _ _ _ _ _ => trivial) s hd (fun _ _ _ => trivial) fuel hfuel
      have hmem : s.rid ∈ keys m2 := by
        rw [hpost.keys_eq]
        simp [rootRefs, keys]
      obtain ⟨rr, hrr⟩ := mem_keys_mapGet m2 s.rid hmem
      exact ⟨m2, rr, hrun, hrr⟩

/-- C6 at a concrete input: with D (direct = 1) → A, the root A keeps residual 1 after the
first traversal and `tryDelete(A)` changes nothing. -/
theorem tryDelete_noop_witness :
    (traverse anchoredRoot countDown 4 { rid := "A", direct := 0, indirect := 1, refs := [] }
        gcStateRoot (rootRefs { rid := "A", direct := 0, indirect := 1, refs := [] })
      = .ok [("A", { sub := { rid := "A", direct := 0, indirect := 1, refs := [] },
                     indirect := 1, state := gcStateNone })]) ∧
    tryDelete true 4 { subs := anchoredRoot, disposed := [] }
        { rid := "A", direct := 0, indirect := 1, refs := [] }
      = .ok { subs := anchoredRoot, disposed := [] } :=
  ⟨rfl, (tryDelete_noop true 4 { subs := anchoredRoot, disposed := [] }
      { rid := "A", direct := 0, indirect := 1, refs := [] }).2.1 _ _ rfl rfl (by decide)⟩

/-- C3 (the code at the failing input).  On the graph of the claim the first traversal
returns with the residuals A = 0, B = 0, C = 1, so `tryDelete(A)` takes neither early
return.  In the second traversal the callback answers keep at C, whose residual is
positive, and hands the `refs` map back unchanged: the keep mark is never stored.  The
keep-mode descent then goes round the cycle B, C without meeting a record marked keep, and
for every bound on the recursion depth and either value of `debug` the call does not
return: it never reaches the sweep. -/
theorem anchoredCycle_never_completes :
    anchoredCycleRoot.direct = 0 ∧
    traverse anchoredCycle countDown 4 anchoredCycleRoot gcStateRoot (rootRefs anchoredCycleRoot)
      = .ok [("A", { sub := anchoredCycleRoot, indirect := 0, state := gcStateNone }),
             ("B", { sub := { rid := "B", direct := 0, indirect := 2, refs := ["C"] },
                     indirect := 0, state := gcStateNone }),
             ("C", { sub := { rid := "C", direct := 0, indirect := 2, refs := ["B"] },
                     indirect := 1, state := gcStateNone })] ∧
    (∀ (m : RefMap) (state : gcState),
      mapGet m "C" = some { sub := { rid := "C", direct := 0, indirect := 2, refs := ["B"] },
                            indirect := 1, state := gcStateNone } →
      markDelete { rid := "C", direct := 0, indirect := 2, refs := ["B"] } state m
        = .ok (m, gcStateKeep)) ∧
    (∀ (debug : Bool) (fuel : Nat),
      tryDelete debug fuel { subs := anchoredCycle, disposed := [] } anchoredCycleRoot
        = .error .outOfFuel) ∧
    ¬ ∃ (debug : Bool) (fuel : Nat) (c1 : wsConn),
      tryDelete debug fuel { subs := anchoredCycle, disposed := [] } anchoredCycleRoot
        = .ok c1 := by
  refine ⟨rfl, rfl, ?_, anchoredCycle_never_returns, ?_⟩
  · intro m state hm
    simp [markDelete, hm]
  · rintro ⟨debug, fuel, c1, h⟩
    rw [anchoredCycle_never_returns debug fuel] at h
    cases h

/-! ### Fuel -/

theorem forRefs_mono {σ : Type} (g : List Subscription)
    (v1 v2 : Subscription → σ → Except gcError σ)
    (h : ∀ t st r, v1 t st = .ok r → v2 t st = .ok r) :
    ∀ (rs : List String) (st r : σ), forRefs g v1 rs st = .ok r → forRefs g v2 rs st = .ok r := by
  intro rs
  induction rs with
  | nil => intro st r hr; exact hr
  | cons x rs ih =>
    intro st r hr
    cases hf : findSub g x with
    | none =>
      simp only [forRefs, hf] at hr ⊢
      exact ih st r hr
    | some t =>
      simp only [forRefs, hf] at hr ⊢
      cases h1 : v1 t st with
      | error e => simp [h1] at hr
      | ok st1 =>
        simp only [h1] at hr
        rw [h t st st1 h1]
        exact ih st1 r hr

/-- More fuel does not change the result of a traversal that returns. -/
theorem traverse_fuel_succ {σ : Type} (g : List Subscription)
    (cb : Subscription → gcState → σ → Except gcError (σ × gcState)) :
    ∀ (fuel : Nat) (t : Subscription) (state : gcState) (st r : σ),
      traverse g cb fuel t state st = .ok r → traverse g cb (fuel + 1) t state st = .ok r := by
  intro fuel
  induction fuel with
  | zero => intro t state st r h; simp [traverse] at h
  | succ fuel ih =>
    intro t state st r h
    by_cases hd : t.direct > 0
    · simp only [traverse, hd, if_true] at h ⊢
      exact h
    · rw [traverse] at h ⊢
      simp only [hd, if_false] at h ⊢
      cases hcb : cb t state st with
      | error e => simp [hcb] at h
      | ok p =>
        obtain ⟨st1, state1⟩ := p
        simp only [hcb] at h ⊢
        by_cases hstop : state1 = gcStateStop
        · simp only [hstop, if_true] at h ⊢
          exact h
        · simp only [hstop, if_false] at h ⊢
          exact forRefs_mono g _ _ (fun t1 s1 r1 h1 => ih t1 state1 s1 r1 h1) t.refs st1 r h

theorem traverse_fuel_le {σ : Type} (g : List Subscription)
    (cb : Subscription → gcState → σ → Except gcError (σ × gcState))
    (fuel fuel2 : Nat) (hle : fuel ≤ fuel2) (t : Subscription) (state : gcState) (st r : σ)
    (h : traverse g cb fuel t state st = .ok r) : traverse g cb fuel2 t state st = .ok r := by
  induction fuel2 with
  | zero =>
    have : fuel = 0 := by omega
    subst this
    exact h
  | succ n ih =>
    by_cases hn : fuel ≤ n
    · exact traverse_fuel_succ g cb n t state st r (ih hn)
    · have : fuel = n + 1 := by omega
      subst this
      exact h

/-- Whenever the first traversal from a registered root returns, its result is described
by `CountResult`. -/
theorem countDown_result_of_run (g : List Subscription) (s : Subscription)
    (hs : findSub g s.rid = some s) (hd : ¬ s.direct > 0) (fuel : Nat) (m : RefMap)
    (h : traverse g countDown fuel s gcStateRoot (rootRefs s) = .ok m) : CountResult g s m := by
  obtain ⟨m2, hrun, hres⟩ := countDown_result g s hs hd (max fuel (g.length + 2))
    (le_max_right _ _)
  have := traverse_fuel_le g countDown fuel (max fuel (g.length + 2)) (le_max_left _ _) s
    gcStateRoot (rootRefs s) m h
  rw [this] at hrun
  cases hrun
  exact hres

/-! ### Survivors -/

theorem ReachVia_start {g : List Subscription} {ok : String → Prop} {a b : String}
    (h : ReachVia g ok a b) : ok a ∧ ∃ t, findSub g a = some t := by
  induction h with
  | refl h1 h2 => exact ⟨h1, h2⟩
  | step _ _ _ _ ih => exact ih

theorem ReachVia_mono {g : List Subscription} {ok ok2 : String → Prop} {a b : String}
    (himp : ∀ x, ok x → ok2 x) (h : ReachVia g ok a b) : ReachVia g ok2 a b := by
  induction h with
  | refl h1 h2 => exact ReachVia.refl (himp _ h1) h2
  | step _ hz hokz hnode ih => exact ReachVia.step ih hz (himp _ hokz) hnode

/-- A node outside a set `K` that is closed under followed `refs` is reached from outside
`K`: along any path to it, either some node with `direct > 0` starts a stretch that stays
outside `K`, or the whole path stays outside `K`. -/
theorem reach_outside (g : List Subscription) (K : List String)
    (hclosed : ∀ k ∈ K, ∀ y ∈ refsOf g k, elig g y = true → y ∈ K) {u p : String}
    (h : Reach g u p) (hp : p ∉ K) :
    (∃ d ∈ g, d.direct > 0 ∧ ReachVia g (fun x => x ∉ K) d.rid p) ∨
      ReachVia g (fun x => x ∉ K) u p := by
  induction h with
  | @refl t ht => exact Or.inr (ReachVia.refl hp ⟨t, ht⟩)
  | @step b z t v hab ht hz hv ih =>
    have hz2 : z ∈ refsOf g b := by
      rw [refsOf_of_findSub g b t ht]
      exact hz
    by_cases hd : v.direct > 0
    · left
      refine ⟨v, findSub_mem g z v hv, hd, ?_⟩
      rw [findSub_rid g z v hv]
      exact ReachVia.refl hp ⟨v, hv⟩
    · have hel : elig g z = true := by
        rw [elig_of_findSub g z v hv]
        simp
        omega
      have hb : b ∉ K := fun hbK => hp (hclosed b hbK z hz2 hel)
      rcases ih hb with ⟨d, hdg, hdd, hr⟩ | hr
      · exact Or.inl ⟨d, hdg, hdd, ReachVia.step hr hz2 hp ⟨v, hv⟩⟩
      · exact Or.inr (ReachVia.step hr hz2 hp ⟨v, hv⟩)

theorem findSub_filter (g : List Subscription) (P : String → Bool) (x : String) :
    findSub (g.filter (fun n => P n.rid)) x = if P x = true then findSub g x else none := by
  induction g with
  | nil => simp [findSub]
  | cons a g ih =>
    unfold findSub at ih ⊢
    by_cases ha : P a.rid = true
    · by_cases hx : a.rid = x
      · subst hx
        simp [List.filter_cons, ha]
      · simp only [List.filter_cons, ha, if_true, List.find?_cons, hx, decide_False]
        exact ih
    · by_cases hx : a.rid = x
      · subst hx
        simp only [List.filter_cons, ha, if_false, Bool.false_eq_true] at ih ⊢
        rw [ih]
      · simp only [List.filter_cons, ha, if_false, List.find?_cons, hx, decide_False,
          Bool.false_eq_true]
        exact ih

/-- A path through nodes satisfying `P` is a path of the graph restricted to those
nodes. -/
theorem ReachVia_filter (g : List Subscription) (P : String → Bool) {a b : String}
    (h : ReachVia g (fun x => P x = true) a b) :
    Reach (g.filter (fun n => P n.rid)) a b := by
  induction h with
  | refl h1 h2 =>
    obtain ⟨t, ht⟩ := h2
    exact Reach.refl (t := t) (by rw [findSub_filter, if_pos h1]; exact ht)
  | @step b z hab hz hokz hnode ih =>
    obtain ⟨u, hu⟩ := hnode
    obtain ⟨t, ht⟩ := ReachVia_node hab
    have hokb := ReachVia_ok hab
    rw [refsOf_of_findSub g b t ht] at hz
    exact Reach.step (t := t) (u := u) ih (by rw [findSub_filter, if_pos hokb]; exact ht) hz
      (by rw [findSub_filter, if_pos hokz]; exact hu)

theorem outside_anchored (g : List Subscription) (s : Subscription) (m : RefMap)
    (hres : CountResult g s m)
    (hpre : ∀ n ∈ g, Reach g s.rid n.rid ∨ ∃ d ∈ g, d.direct > 0 ∧ Reach g d.rid n.rid)
    (p : Subscription) (hp : p ∈ g) (hpk : p.rid ∉ keys m) :
    ∃ d ∈ g, d.direct > 0 ∧ ReachVia g (fun x => x ∉ keys m) d.rid p.rid := by
  rcases hpre p hp with h | ⟨d, hd, hdd, h⟩
  · rcases reach_outside g (keys m) hres.closed h hpk with hl | hr
    · exact hl
    · exact absurd hres.root_mem (ReachVia_start hr).1
  · rcases reach_outside g (keys m) hres.closed h hpk with hl | hr
    · exact hl
    · exact ⟨d, hd, hdd, hr⟩

theorem anchored_has_outside_parent (g : List Subscription)
    (hnd : (g.map (fun n => n.rid)).Nodup) (s : Subscription) (m : RefMap)
    (hres : CountResult g s m) (hcons : ∀ n ∈ g, n.indirect = inEdges g n.rid)
    (a : String) (r : subRef) (hr : mapGet m a = some r) (hpos : r.indirect > 0) :
    ∃ p ∈ g, a ∈ p.refs ∧ p.rid ∉ keys m := by
  have hk : a ∈ keys m := mapGet_some_mem m a r hr
  obtain ⟨t, ht⟩ := ReachVia_node (hres.region a hk)
  have hc : indirectOf g a = inEdges g a := by
    have := hcons t (findSub_mem g a t ht)
    rw [findSub_rid g a t ht] at this
    simp only [indirectOf, ht]
    rw [this]
  have h1 := resid_eq_outside g hnd s m hres a hres.elig_keys hk hc
  rw [cnt_of_mapGet g m a r hr] at h1
  have hpos2 : 0 < inEdges (g.filter (fun p => !decide (p.rid ∈ keys m))) a := by
    have : (0 : Int) < (inEdges (g.filter (fun p => !decide (p.rid ∈ keys m))) a : Int) := by
      rw [← h1]
      exact hpos
    exact_mod_cast this
  obtain ⟨p, hp, hap⟩ := inEdges_pos _ a hpos2
  refine ⟨p, List.mem_of_mem_filter hp, hap, ?_⟩
  have := (List.mem_filter.1 hp).2
  simpa using this

/-- When the root keeps a positive residual, some node with `direct > 0` reaches the
root, and with it every node the root reaches. -/
theorem quick_exit_anchored (g : List Subscription) (hnd : (g.map (fun n => n.rid)).Nodup)
    (s : Subscription) (hself : findSub g s.rid = some s) (m : RefMap)
    (hres : CountResult g s m) (hcons : ∀ n ∈ g, n.indirect = inEdges g n.rid)
    (hpre : ∀ n ∈ g, Reach g s.rid n.rid ∨ ∃ d ∈ g, d.direct > 0 ∧ Reach g d.rid n.rid)
    (rr : subRef) (hrr : mapGet m s.rid = some rr) (hpos : rr.indirect > 0) :
    ∀ n ∈ g, ∃ d ∈ g, d.direct > 0 ∧ Reach g d.rid n.rid := by
  obtain ⟨p, hpg, hsp, hpk⟩ := anchored_has_outside_parent g hnd s m hres hcons s.rid rr hrr hpos
  obtain ⟨d, hdg, hdd, hreach⟩ := outside_anchored g s m hres hpre p hpg hpk
  have hds : Reach g d.rid s.rid :=
    Reach.step (ReachVia_reach hreach) (findSub_of_mem_nodup g p hnd hpg) hsp hself
  intro n hn
  rcases hpre n hn with h | h
  · exact ⟨d, hdg, hdd, Reach_trans hds h⟩
  · exact h

/-- After a completed sweep every node left in `subs` is reached, through nodes left in
`subs`, from a node with `direct > 0`. -/
theorem sweep_survivors (c : wsConn) (hnd : (c.subs.map (fun n => n.rid)).Nodup)
    (s : Subscription) (hself : findSub c.subs s.rid = some s)
    (m1 : RefMap) (hres : CountResult c.subs s m1)
    (hcons : ∀ n ∈ c.subs, n.indirect = inEdges c.subs n.rid)
    (hpre : ∀ n ∈ c.subs, Reach c.subs s.rid n.rid ∨
      ∃ d ∈ c.subs, d.direct > 0 ∧ Reach c.subs d.rid n.rid)
    (rr : subRef) (hrr : mapGet m1 s.rid = some rr) (hrr0 : ¬ rr.indirect > 0)
    (fuel : Nat) (m2 : RefMap)
    (hrun2 : traverse c.subs markDelete fuel s gcStateDelete m1 = .ok m2) :
    ∀ n ∈ (sweep m2 c).subs,
      ∃ d ∈ (sweep m2 c).subs, d.direct > 0 ∧ Reach (sweep m2 c).subs d.rid n.rid := by
  obtain ⟨hpost, hvd⟩ := mark_traverse c.subs fuel gcStateDelete s m1 m2 (Or.inl rfl) hself
    hres.inv.inv_noKeep hrun2
  have hle := hpost.le
  have hnd2 : (keys m2).Nodup := hle.keys_nodup hres.inv.1
  have hel : elig c.subs s.rid = true := hres.elig_keys s.rid hres.root_mem
  have hSv : ∀ x, decide (x ∉ delKeys m2) = true ↔ ¬ isDel m2 x := by
    intro x
    simp [mem_delKeys_iff m2 hnd2]
  have hdelK : ∀ x, isDel m2 x → x ∈ keys m1 := by
    rintro x ⟨r, hr, _⟩
    rw [← hle.1]
    exact mapGet_some_mem m2 x r hr
  have hroot_del : isDel m2 s.rid := by
    obtain ⟨r2, hr2, himp⟩ := hvd rfl hel
    obtain ⟨r1, hr1, hi, _, _⟩ := hle.back s.rid r2 hr2
    rw [hrr] at hr1
    cases hr1
    exact ⟨r2, hr2, himp (by rw [hi]; omega)⟩
  have hQ : ∀ x, Region c.subs s.rid x →
      isDel m2 x ∨ ∃ a r, mapGet m1 a = some r ∧ r.indirect > 0 ∧
        ReachVia c.subs (fun x => decide (x ∉ delKeys m2) = true) a x := by
    intro x hx
    induction hx with
    | refl _ _ => exact Or.inl hroot_del
    | @step b z hab hz hokz hnode ih =>
      by_cases hzd : isDel m2 z
      · exact Or.inl hzd
      · right
        rcases ih with hbd | ⟨a, r, hr, hpos, hreach⟩
        · -- the parent was marked, so `z` was visited in delete mode and kept its residual
          obtain ⟨r2, hr2, himp⟩ :=
            hpost.done b hbd (hres.inv.not_isDel b) z hz hokz
          obtain ⟨r1, hr1, hi, _, _⟩ := hle.back z r2 hr2
          have hpos : r1.indirect > 0 := by
            by_contra hneg
            exact hzd ⟨r2, hr2, himp (by rw [hi]; omega)⟩
          exact ⟨z, r1, hr1, hpos, ReachVia.refl ((hSv z).2 hzd) hnode⟩
        · exact ⟨a, r, hr, hpos, ReachVia.step hreach hz ((hSv z).2 hzd) hnode⟩
  have hout : ∀ x, x ∉ keys m1 → decide (x ∉ delKeys m2) = true :=
    fun x hx => (hSv x).2 (fun h => hx (hdelK x h))
  have hsubs : (sweep m2 c).subs
      = c.subs.filter (fun n => (fun x => decide (x ∉ delKeys m2)) n.rid) := sweep_subs m2 c
  intro n hn
  rw [hsubs] at hn ⊢
  obtain ⟨hng, hnP⟩ := List.mem_filter.1 hn
  suffices hmain : ∃ d ∈ c.subs, d.direct > 0 ∧
      ReachVia c.subs (fun x => decide (x ∉ delKeys m2) = true) d.rid n.rid by
    obtain ⟨d, hdg, hdd, hreach⟩ := hmain
    exact ⟨d, List.mem_filter.2 ⟨hdg, (ReachVia_start hreach).1⟩, hdd,
      ReachVia_filter c.subs (fun x => decide (x ∉ delKeys m2)) hreach⟩
  by_cases hk : n.rid ∈ keys m1
  · rcases hQ n.rid (hres.region n.rid hk) with hdel | ⟨a, r, hr, hpos, hreach⟩
    · exact absurd hdel ((hSv n.rid).1 hnP)
    · obtain ⟨p, hpg, hap, hpk⟩ :=
        anchored_has_outside_parent c.subs hnd s m1 hres hcons a r hr hpos
      obtain ⟨d, hdg, hdd, hdp⟩ := outside_anchored c.subs s m1 hres hpre p hpg hpk
      have hdp2 : ReachVia c.subs (fun x => decide (x ∉ delKeys m2) = true) d.rid p.rid :=
        ReachVia_mono hout hdp
      have hap2 : a ∈ refsOf c.subs p.rid := by
        rw [refsOf_of_findSub c.subs p.rid p (findSub_of_mem_nodup c.subs p hnd hpg)]
        exact hap
      have hda : ReachVia c.subs (fun x => decide (x ∉ delKeys m2) = true) d.rid a :=
        ReachVia.step hdp2 hap2 (ReachVia_start hreach).1 (ReachVia_start hreach).2
      exact ⟨d, hdg, hdd, ReachVia_trans hda hreach⟩
  · obtain ⟨d, hdg, hdd, hdn⟩ := outside_anchored c.subs s m1 hres hpre n hng hk
    exact ⟨d, hdg, hdd, ReachVia_mono hout hdn⟩

theorem hasDirect_of_anchored (c : wsConn)
    (h : ∀ n ∈ c.subs, ∃ d ∈ c.subs, d.direct > 0 ∧ Reach c.subs d.rid n.rid) :
    hasDirect c = true := by
  unfold hasDirect
  cases hs : c.subs with
  | nil => simp
  | cons a l =>
    obtain ⟨d, hd, hdd, _⟩ := h a (by rw [hs]; exact List.mem_cons_self _ _)
    rw [hs] at hd
    simp only [List.isEmpty_cons, Bool.false_or, List.any_eq_true, decide_eq_true_eq]
    exact ⟨d, hd, hdd⟩

/-- C5. Let the graph be well-formed: the RIDs of `subs` are distinct, `s` is one of its
nodes, each node's `indirect` equals the number of `refs` entries pointing to it, and every
node is reachable through `refs` from `s` or from a node with `direct > 0`.  Then in the
state left by a completed `tryDelete(s)`, every node that remains in `subs` is reachable,
through `refs` between remaining nodes, from a remaining node with `direct > 0`; in
particular the debug assertion `hasDirect` holds in that state. -/
theorem survivors_anchored (debug : Bool) (fuel : Nat) (c c1 : wsConn) (s : Subscription)
    (hnd : (c.subs.map (fun n => n.rid)).Nodup) (hs : s ∈ c.subs)
    (hcons : ∀ n ∈ c.subs, n.indirect = inEdges c.subs n.rid)
    (hpre : ∀ n ∈ c.subs, Reach c.subs s.rid n.rid ∨
      ∃ d ∈ c.subs, d.direct > 0 ∧ Reach c.subs d.rid n.rid)
    (hrun : tryDelete debug fuel c s = .ok c1) :
    (∀ n ∈ c1.subs, ∃ d ∈ c1.subs, d.direct > 0 ∧ Reach c1.subs d.rid n.rid) ∧
      hasDirect c1 = true := by
  have hself : findSub c.subs s.rid = some s := findSub_of_mem_nodup c.subs s hnd hs
  suffices hmain : ∀ n ∈ c1.subs, ∃ d ∈ c1.subs, d.direct > 0 ∧ Reach c1.subs d.rid n.rid from
    ⟨hmain, hasDirect_of_anchored c1 hmain⟩
  by_cases hd : s.direct > 0
  · -- first guard: nothing changes, and `s` itself is directly subscribed
    simp only [tryDelete, hd, if_true, Except.ok.injEq] at hrun
    subst hrun
    intro n hn
    rcases hpre n hn with h | h
    · exact ⟨s, hs, hd, h⟩
    · exact h
  · simp only [tryDelete, hd, if_false] at hrun
    cases hrun1 : traverse c.subs countDown fuel s gcStateRoot (rootRefs s) with
    | error e => simp [hrun1] at hrun
    | ok m1 =>
      simp only [hrun1] at hrun
      have hres := countDown_result_of_run c.subs s hself hd fuel m1 hrun1
      cases hrr : mapGet m1 s.rid with
      | none => simp [hrr] at hrun
      | some rr =>
        simp only [hrr] at hrun
        by_cases hpos : rr.indirect > 0
        · -- quick exit: nothing changes, and the root is referenced from outside its region
          simp only [hpos, if_true, Except.ok.injEq] at hrun
          subst hrun
          exact quick_exit_anchored c.subs hnd s hself m1 hres hcons hpre rr hrr hpos
        · simp only [hpos, if_false] at hrun
          cases hrun2 : traverse c.subs markDelete fuel s gcStateDelete m1 with
          | error e => simp [hrun2] at hrun
          | ok m2 =>
            simp only [hrun2] at hrun
            have hsw := sweep_survivors c hnd s hself m1 hres hcons hpre rr hrr hpos fuel m2
              hrun2
            by_cases hdbg : (debug && !hasDirect (sweep m2 c)) = true
            · simp [hdbg] at hrun
            · simp only [hdbg] at hrun
              simp only [Bool.false_eq_true, if_false, Except.ok.injEq] at hrun
              subst hrun
              exact hsw

theorem sharedChild_reach : ∀ n ∈ sharedChild,
    Reach sharedChild sharedChildRoot.rid n.rid ∨
      ∃ d ∈ sharedChild, d.direct > 0 ∧ Reach sharedChild d.rid n.rid := by
  have hA : Reach sharedChild "A" "A" :=
    Reach.refl (t := { rid := "A", direct := 0, indirect := 0, refs := ["B", "C"] }) rfl
  have hB : Reach sharedChild "A" "B" :=
    Reach.step (t := { rid := "A", direct := 0, indirect := 0, refs := ["B", "C"] })
      (u := { rid := "B", direct := 0, indirect := 2, refs := [] }) hA rfl (by decide) rfl
  have hC : Reach sharedChild "A" "C" :=
    Reach.step (t := { rid := "A", direct := 0, indirect := 0, refs := ["B", "C"] })
      (u := { rid := "C", direct := 0, indirect := 2, refs := ["B"] }) hA rfl (by decide) rfl
  have hD : Reach sharedChild "D" "D" :=
    Reach.refl (t := { rid := "D", direct := 1, indirect := 0, refs := ["C"] }) rfl
  intro n hn
  simp only [sharedChild, List.mem_cons, List.mem_singleton, List.not_mem_nil, or_false] at hn
  rcases hn with rfl | rfl | rfl | rfl
  · exact Or.inl hA
  · exact Or.inl hB
  · exact Or.inl hC
  · exact Or.inr ⟨{ rid := "D", direct := 1, indirect := 0, refs := ["C"] }, by decide,
      by decide, hD⟩

/-- C5 at a concrete input: `sharedChild` is well-formed, `tryDelete(A)` returns with C and
D left in `subs`, and both are reachable from D, which has `direct = 1`. -/
theorem survivors_anchored_witness :
    ((sharedChild.map (fun n => n.rid)).Nodup ∧ sharedChildRoot ∈ sharedChild ∧
      (∀ n ∈ sharedChild, n.indirect = inEdges sharedChild n.rid) ∧
      (∀ n ∈ sharedChild, Reach sharedChild sharedChildRoot.rid n.rid ∨
        ∃ d ∈ sharedChild, d.direct > 0 ∧ Reach sharedChild d.rid n.rid) ∧
      tryDelete true 5 { subs := sharedChild, disposed := [] } sharedChildRoot
        = .ok { subs := [{ rid := "C", direct := 0, indirect := 2, refs := ["B"] },
                         { rid := "D", direct := 1, indirect := 0, refs := ["C"] }],
                disposed := ["A", "B"] }) ∧
    ((∀ n ∈ [({ rid := "C", direct := 0, indirect := 2, refs := ["B"] } : Subscription),
              { rid := "D", direct := 1, indirect := 0, refs := ["C"] }],
        ∃ d ∈ [({ rid := "C", direct := 0, indirect := 2, refs := ["B"] } : Subscription),
                { rid := "D", direct := 1, indirect := 0, refs := ["C"] }],
          d.direct > 0 ∧
          Reach [({ rid := "C", direct := 0, indirect := 2, refs := ["B"] } : Subscription),
                  { rid := "D", direct := 1, indirect := 0, refs := ["C"] }] d.rid n.rid) ∧
      hasDirect { subs := [{ rid := "C", direct := 0, indirect := 2, refs := ["B"] },
                           { rid := "D", direct := 1, indirect := 0, refs := ["C"] }],
                  disposed := ["A", "B"] } = true) :=
  ⟨⟨by decide, by decide, by decide, sharedChild_reach, rfl⟩,
    survivors_anchored true 5 { subs := sharedChild, disposed := [] }
      { subs := [{ rid := "C", direct := 0, indirect := 2, refs := ["B"] },
                 { rid := "D", direct := 1, indirect := 0, refs := ["C"] }],
        disposed := ["A", "B"] }
      sharedChildRoot (by decide) (by decide) (by decide) sharedChild_reach rfl⟩

/-! ### The region and the residuals -/

theorem zeroRegion_iff_region (g : List Subscription) (hnn : ∀ n ∈ g, 0 ≤ n.direct)
    (a b : String) : ZeroRegion g a b ↔ Region g a b := by
  have h1 : ∀ x, (∃ t, findSub g x = some t ∧ t.direct = 0) → elig g x = true := by
    rintro x ⟨t, ht, h0⟩
    rw [elig_of_findSub g x t ht]
    simp [h0]
  have h2 : ∀ x, elig g x = true → ∃ t, findSub g x = some t ∧ t.direct = 0 := by
    intro x hx
    cases hf : findSub g x with
    | none => rw [elig_none g x hf] at hx; cases hx
    | some t =>
      rw [elig_of_findSub g x t hf] at hx
      have hle : t.direct ≤ 0 := by simpa using hx
      have hge := hnn t (findSub_mem g x t hf)
      exact ⟨t, rfl, by omega⟩
  exact ⟨fun h => ReachVia_mono h1 h, fun h => ReachVia_mono h2 h⟩

theorem inEdges_filter_le (l : List Subscription) (q : Subscription → Bool) (x : String) :
    inEdges (l.filter q) x ≤ inEdges l x := by
  induction l with
  | nil => simp [inEdges]
  | cons a l ih =>
    unfold inEdges at ih ⊢
    by_cases ha : q a = true
    · simp only [List.filter_cons, ha, if_true, List.map_cons, List.sum_cons]
      omega
    · simp only [List.filter_cons, ha, List.map_cons, List.sum_cons]
      simp only [Bool.false_eq_true, if_false]
      omega

/-- C11. Let the graph have distinct RIDs, every `refs` entry in it name a node of `subs`
(`hreg`: following a ref is the lookup of its RID), and non-negative `direct` and
`indirect` counters (`hnn`, `hind`: they are counts), and let `s` be a node of it with
`s.direct = 0`.  With any fuel above the number of nodes plus one the traverse-decrement
pass of `tryDelete(s)` returns; and whenever it returns, the keys of the `refs` map are
exactly the nodes reachable from `s` along `refs` paths all of whose nodes have
`direct = 0`, and the residual recorded for each such node `n`, the root included, is
`n.indirect` minus the number of `refs` entries of recorded nodes that point to `n`.  That
residual lies between minus the number of `refs` entries of the whole graph that point to
`n` and `n.indirect`; the pass only ever decrements a record, so every value a record
takes lies in that interval and the counter of the source does not wrap. -/
theorem countDown_region_residual (c : wsConn) (s : Subscription)
    (hnd : (c.subs.map (fun n => n.rid)).Nodup) (hs : s ∈ c.subs) (hs0 : s.direct = 0)
    (hreg : ∀ n ∈ c.subs, ∀ r ∈ n.refs, r ∈ c.subs.map (fun t => t.rid))
    (hnn : ∀ n ∈ c.subs, 0 ≤ n.direct) (hind : ∀ n ∈ c.subs, 0 ≤ n.indirect) (fuel : Nat) :
    (c.subs.length + 2 ≤ fuel →
      ∃ m, traverse c.subs countDown fuel s gcStateRoot (rootRefs s) = .ok m) ∧
    (∀ m, traverse c.subs countDown fuel s gcStateRoot (rootRefs s) = .ok m →
      (∀ x, x ∈ keys m ↔ ZeroRegion c.subs s.rid x) ∧
      (∀ n ∈ c.subs, ZeroRegion c.subs s.rid n.rid →
        ∃ r, mapGet m n.rid = some r ∧
          r.indirect = n.indirect
            - (inEdges (c.subs.filter (fun p => decide (p.rid ∈ keys m))) n.rid : Int) ∧
          -(inEdges c.subs n.rid : Int) ≤ r.indirect ∧ r.indirect ≤ n.indirect)) := by
  have _ := hreg
  have hself : findSub c.subs s.rid = some s := findSub_of_mem_nodup c.subs s hnd hs
  have hd : ¬ s.direct > 0 := by omega
  refine ⟨fun hfuel => ?_, fun m hrun => ?_⟩
  · obtain ⟨m, hrun, _⟩ := countDown_result c.subs s hself hd fuel hfuel
    exact ⟨m, hrun⟩
  · have hres := countDown_result_of_run c.subs s hself hd fuel m hrun
    have hkeys : ∀ x, x ∈ keys m ↔ ZeroRegion c.subs s.rid x := by
      intro x
      rw [zeroRegion_iff_region c.subs hnn]
      exact ⟨fun hx => hres.region x hx, fun hx => hres.region_mem hx⟩
    refine ⟨hkeys, ?_⟩
    intro n hn hzero
    have hk : n.rid ∈ keys m := (hkeys n.rid).2 hzero
    obtain ⟨r, hr⟩ := mem_keys_mapGet m n.rid hk
    have hnode : ∀ k ∈ keys m, ∃ t, findSub c.subs k = some t :=
      fun k hkm => ReachVia_node (hres.region k hkm)
    have h1 := hres.resid n.rid
    rw [cnt_of_mapGet c.subs m n.rid r hr,
      followedSum_elig c.subs (keys m) n.rid (hres.elig_keys n.rid hk),
      ← inEdges_keys c.subs hnd (keys m) hres.inv.1 hnode n.rid] at h1
    have h2 : r.indirect = n.indirect
        - (inEdges (c.subs.filter (fun p => decide (p.rid ∈ keys m))) n.rid : Int) := by
      rw [h1]
      simp [indirectOf, findSub_of_mem_nodup c.subs n hnd hn]
    have h3 := inEdges_filter_le c.subs (fun p => decide (p.rid ∈ keys m)) n.rid
    have h4 := hind n hn
    refine ⟨r, hr, h2, ?_, ?_⟩
    · omega
    · omega

/-- C11 at the anchored cycle of scenario 6: the region of A is A, B, C (D has
`direct = 1`), and the residuals are A = 0 - 0, B = 2 - 2 and C = 2 - 1. -/
theorem countDown_region_residual_witness :
    ((anchoredCycle.map (fun n => n.rid)).Nodup ∧ anchoredCycleRoot ∈ anchoredCycle ∧
      anchoredCycleRoot.direct = 0 ∧
      (∀ n ∈ anchoredCycle, ∀ r ∈ n.refs, r ∈ anchoredCycle.map (fun t => t.rid)) ∧
      (∀ n ∈ anchoredCycle, 0 ≤ n.direct) ∧ (∀ n ∈ anchoredCycle, 0 ≤ n.indirect)) ∧
    ((anchoredCycle.length + 2 ≤ 6 →
      ∃ m, traverse anchoredCycle countDown 6 anchoredCycleRoot gcStateRoot
        (rootRefs anchoredCycleRoot) = .ok m) ∧
    (∀ m, traverse anchoredCycle countDown 6 anchoredCycleRoot gcStateRoot
        (rootRefs anchoredCycleRoot) = .ok m →
      (∀ x, x ∈ keys m ↔ ZeroRegion anchoredCycle anchoredCycleRoot.rid x) ∧
      (∀ n ∈ anchoredCycle, ZeroRegion anchoredCycle anchoredCycleRoot.rid n.rid →
        ∃ r, mapGet m n.rid = some r ∧
          r.indirect = n.indirect
            - (inEdges (anchoredCycle.filter (fun p => decide (p.rid ∈ keys m))) n.rid
                : Int) ∧
          -(inEdges anchoredCycle n.rid : Int) ≤ r.indirect ∧ r.indirect ≤ n.indirect))) ∧
    traverse anchoredCycle countDown 6 anchoredCycleRoot gcStateRoot (rootRefs anchoredCycleRoot)
      = .ok [("A", { sub := anchoredCycleRoot, indirect := 0, state := gcStateNone }),
             ("B", { sub := { rid := "B", direct := 0, indirect := 2, refs := ["C"] },
                     indirect := 0, state := gcStateNone }),
             ("C", { sub := { rid := "C", direct := 0, indirect := 2, refs := ["B"] },
                     indirect := 1, state := gcStateNone })] :=
  ⟨⟨by decide, by decide, rfl, by decide, by decide, by decide⟩,
    countDown_region_residual { subs := anchoredCycle, disposed := [] } anchoredCycleRoot
      (by decide) (by decide) rfl (by decide) (by decide) (by decide) 6,
    rfl⟩

/-! ### Directly subscribed nodes -/

theorem forRefs_congr {σ : Type} (g : List Subscription)
    (v1 v2 : Subscription → σ → Except gcError σ) (h : ∀ t st, v1 t st = v2 t st) :
    ∀ (rs : List String) (st : σ), forRefs g v1 rs st = forRefs g v2 rs st := by
  intro rs
  induction rs with
  | nil => intro st; rfl
  | cons r rs ih =>
    intro st
    cases hf : findSub g r with
    | none =>
      simp only [forRefs, hf]
      exact ih st
    | some t =>
      simp only [forRefs, hf, h t st]
      cases v2 t st with
      | error e => rfl
      | ok st1 => exact ih st1

/-- The traversal never hands a node with `direct > 0` to its callback: replacing the
callback by one that fails on such nodes changes no run, returning or not. -/
theorem traverse_guarded {σ : Type} (g : List Subscription)
    (cb : Subscription → gcState → σ → Except gcError (σ × gcState)) :
    ∀ (fuel : Nat) (t : Subscription) (state : gcState) (st : σ),
      traverse g (guarded cb) fuel t state st = traverse g cb fuel t state st := by
  intro fuel
  induction fuel with
  | zero => intro t state st; rfl
  | succ fuel ih =>
    intro t state st
    by_cases hd : t.direct > 0
    · simp [traverse, hd]
    · simp only [traverse, hd, if_false, guarded]
      cases cb t state st with
      | error e => rfl
      | ok p =>
        obtain ⟨st1, state1⟩ := p
        by_cases hstop : state1 = gcStateStop
        · simp [hstop]
        · simp only [hstop, if_false]
          exact forRefs_congr g _ _ (fun t1 s1 => ih t1 state1 s1) t.refs st1

theorem delKeys_subset_keys (m : RefMap) (k : String) (h : k ∈ delKeys m) : k ∈ keys m := by
  simp only [delKeys, List.mem_map, List.mem_filter] at h
  obtain ⟨e, ⟨he, _⟩, rfl⟩ := h
  exact List.mem_map_of_mem Prod.fst he

theorem direct_not_recorded (g : List Subscription) (hnd : (g.map (fun n => n.rid)).Nodup)
    (s n : Subscription) (m : RefMap) (hres : CountResult g s m) (hn : n ∈ g)
    (hdir : n.direct > 0) : n.rid ∉ keys m := by
  intro hk
  have he := hres.elig_keys n.rid hk
  rw [elig_of_findSub g n.rid n (findSub_of_mem_nodup g n hnd hn)] at he
  simp at he
  omega

/-- C13. In a graph with distinct RIDs, let `s` be a node and `n` a node with
`direct > 0`.  Neither traversal ever hands a node with `direct > 0` to its callback (a
callback that fails on such nodes gives the same run, whatever the fuel); `n` has no record
in the `refs` map after the first traversal nor after the second; and when `tryDelete(s)`
returns, `n` is still in `subs` and is not among the RIDs the call disposed. -/
theorem direct_never_collected (debug : Bool) (fuel : Nat) (c : wsConn) (s n : Subscription)
    (hnd : (c.subs.map (fun n => n.rid)).Nodup) (hs : s ∈ c.subs) (hn : n ∈ c.subs)
    (hdir : n.direct > 0) :
    (∀ (t : Subscription) (state : gcState) (m : RefMap),
      traverse c.subs (guarded countDown) fuel t state m
          = traverse c.subs countDown fuel t state m ∧
      traverse c.subs (guarded markDelete) fuel t state m
          = traverse c.subs markDelete fuel t state m) ∧
    (∀ m1, ¬ s.direct > 0 →
      traverse c.subs countDown fuel s gcStateRoot (rootRefs s) = .ok m1 →
      n.rid ∉ keys m1 ∧
      ∀ m2, traverse c.subs markDelete fuel s gcStateDelete m1 = .ok m2 → n.rid ∉ keys m2) ∧
    (∀ c1, tryDelete debug fuel c s = .ok c1 →
      n ∈ c1.subs ∧ ∃ D, c1.disposed = c.disposed ++ D ∧ n.rid ∉ D) := by
  have hself : findSub c.subs s.rid = some s := findSub_of_mem_nodup c.subs s hnd hs
  have hpass : ∀ m1, ¬ s.direct > 0 →
      traverse c.subs countDown fuel s gcStateRoot (rootRefs s) = .ok m1 →
      CountResult c.subs s m1 ∧ n.rid ∉ keys m1 ∧
      ∀ m2, traverse c.subs markDelete fuel s gcStateDelete m1 = .ok m2 →
        MarkLe m1 m2 ∧ n.rid ∉ keys m2 := by
    intro m1 hd hrun1
    have hres := countDown_result_of_run c.subs s hself hd fuel m1 hrun1
    have hnk := direct_not_recorded c.subs hnd s n m1 hres hn hdir
    refine ⟨hres, hnk, fun m2 hrun2 => ?_⟩
    obtain ⟨hpost, _⟩ := mark_traverse c.subs fuel gcStateDelete s m1 m2 (Or.inl rfl) hself
      hres.inv.inv_noKeep hrun2
    exact ⟨hpost.le, by rw [hpost.le.1]; exact hnk⟩
  refine ⟨fun t state m => ⟨traverse_guarded c.subs countDown fuel t state m,
    traverse_guarded c.subs markDelete fuel t state m⟩, ?_, ?_⟩
  · intro m1 hd hrun1
    obtain ⟨_, hnk, h2⟩ := hpass m1 hd hrun1
    exact ⟨hnk, fun m2 hrun2 => (h2 m2 hrun2).2⟩
  · intro c1 hrun
    by_cases hd : s.direct > 0
    · simp only [tryDelete, hd, if_true, Except.ok.injEq] at hrun
      subst hrun
      exact ⟨hn, [], by simp, by simp⟩
    · simp only [tryDelete, hd, if_false] at hrun
      cases hrun1 : traverse c.subs countDown fuel s gcStateRoot (rootRefs s) with
      | error e => simp [hrun1] at hrun
      | ok m1 =>
        simp only [hrun1] at hrun
        obtain ⟨hres, _, h2⟩ := hpass m1 hd hrun1
        cases hrr : mapGet m1 s.rid with
        | none => simp [hrr] at hrun
        | some rr =>
          simp only [hrr] at hrun
          by_cases hpos : rr.indirect > 0
          · simp only [hpos, if_true, Except.ok.injEq] at hrun
            subst hrun
            exact ⟨hn, [], by simp, by simp⟩
          · simp only [hpos, if_false] at hrun
            cases hrun2 : traverse c.subs markDelete fuel s gcStateDelete m1 with
            | error e => simp [hrun2] at hrun
            | ok m2 =>
              simp only [hrun2] at hrun
              obtain ⟨hle, hnk2⟩ := h2 m2 hrun2
              have hc1 : c1 = sweep m2 c := by
                by_cases hdbg : (debug && !hasDirect (sweep m2 c)) = true
                · simp [hdbg] at hrun
                · simp only [hdbg] at hrun
                  simp only [Bool.false_eq_true, if_false, Except.ok.injEq] at hrun
                  exact hrun.symm
              subst hc1
              refine ⟨?_, delSubs m2, sweep_disposed m2 c, ?_⟩
              · rw [sweep_subs, List.mem_filter]
                refine ⟨hn, ?_⟩
                simp only [decide_eq_true_eq]
                exact fun h => hnk2 (delKeys_subset_keys m2 n.rid h)
              · intro h
                rw [mem_delSubs_iff m2 (hle.keys_nodup hres.inv.1) (hle.sub_rid hres.inv)] at h
                obtain ⟨r, hr, _⟩ := h
                exact hnk2 (mapGet_some_mem m2 n.rid r hr)

/-- C13 at a concrete input: in `sharedChild`, where `tryDelete(A)` returns after disposing
A and B, the directly subscribed D stays in `subs` and is not disposed, although the
region of A borders on it. -/
theorem direct_never_collected_witness :
    ((sharedChild.map (fun n => n.rid)).Nodup ∧ sharedChildRoot ∈ sharedChild ∧
      ({ rid := "D", direct := 1, indirect := 0, refs := ["C"] } : Subscription) ∈ sharedChild ∧
      ({ rid := "D", direct := 1, indirect := 0, refs := ["C"] } : Subscription).direct > 0) ∧
    (∀ c1, tryDelete false 5 { subs := sharedChild, disposed := [] } sharedChildRoot = .ok c1 →
      ({ rid := "D", direct := 1, indirect := 0, refs := ["C"] } : Subscription) ∈ c1.subs ∧
      ∃ D, c1.disposed = ([] : List String) ++ D ∧ "D" ∉ D) ∧
    tryDelete false 5 { subs := sharedChild, disposed := [] } sharedChildRoot
      = .ok { subs := [{ rid := "C", direct := 0, indirect := 2, refs := ["B"] },
                       { rid := "D", direct := 1, indirect := 0, refs := ["C"] }],
              disposed := ["A", "B"] } :=
  ⟨⟨by decide, by decide, by decide, by decide⟩,
    (direct_never_collected false 5 { subs := sharedChild, disposed := [] } sharedChildRoot
      { rid := "D", direct := 1, indirect := 0, refs := ["C"] }
      (by decide) (by decide) (by decide) (by decide)).2.2,
    rfl⟩

/-! ### A failed bus subscribe -/

/-- C14 (the code on the failure path).  When the record under `name` has no backend
subscription and the bus `Subscribe` fails with `err`, `getSubscription(name, true)`
returns `err`, but the registry has already been written: afterwards it holds a record
under `name`, new with count 1 when there was none, otherwise the old record with its count
raised by one; and `Cache.Subscribe` only reports `err` through `sub.Loaded(nil, err)`,
leaving that cache state. -/
theorem failed_subscribe_keeps_reference (mq : MQ) (c : Cache) (name : String) (err : GoError)
    (hnone : attachedSub c name = none)
    (hfail : mq.Subscribe ("event." ++ name) = .error err) :
    (getSubscription mq c name true).2 = .error err ∧
    (getSubscription mq c name true).1.bus = c.bus ++ [BusCall.Subscribe ("event." ++ name)] ∧
    lookupSub (getSubscription mq c name true).1.eventSubs name
      = some (match lookupSub c.eventSubs name with
          | none => { ResourceName := name, count := 1, mqSub := none }
          | some e0 => { e0 with count := e0.count + 1 }) ∧
    (∀ sub : Subscriber, sub.ResourceName = name →
      Cache.Subscribe mq c sub
        = ((getSubscription mq c name true).1, SubscribeOutcome.Loaded err)) := by
  have hres : (getSubscription mq c name true).2 = .error err := by
    unfold getSubscription
    unfold attachedSub at hnone
    cases hl : lookupSub c.eventSubs name with
    | none => simp [hfail]
    | some e0 =>
      simp [hl] at hnone
      simp [addCount, hnone, hfail]
  refine ⟨hres, ?_, ?_, ?_⟩
  · rw [getSubscription_bus]
    simp [hnone]
  · unfold getSubscription
    unfold attachedSub at hnone
    cases hl : lookupSub c.eventSubs name with
    | none => simp [hfail, lookupSub_storeSub_same]
    | some e0 =>
      simp [hl] at hnone
      simp [addCount, hnone, hfail, lookupSub_storeSub_same]
  · intro sub hsub
    unfold Cache.Subscribe
    rw [hsub]
    rcases hg : getSubscription mq c name true with ⟨c1, r⟩
    rw [hg] at hres
    simp only at hres
    subst hres
    rfl

/-- C14 at concrete inputs: with a failing bus, `getSubscription("test.model", true)` on an
empty registry returns the error and leaves a record with count 1; on a registry where the
record exists with count 1 it leaves count 2. -/
theorem failed_subscribe_keeps_reference_witness :
    (attachedSub { eventSubs := [], bus := [] } "test.model" = none ∧
      failingBus.Subscribe ("event." ++ "test.model") = .error "system.connectionError") ∧
    ((getSubscription failingBus { eventSubs := [], bus := [] } "test.model" true).2
        = .error "system.connectionError" ∧
      (getSubscription failingBus { eventSubs := [], bus := [] } "test.model" true).1.bus
        = [] ++ [BusCall.Subscribe ("event." ++ "test.model")] ∧
      lookupSub
          (getSubscription failingBus { eventSubs := [], bus := [] } "test.model" true).1.eventSubs
          "test.model"
        = some (match lookupSub ([] : List (String × EventSubscription)) "test.model" with
            | none => { ResourceName := "test.model", count := 1, mqSub := none }
            | some e0 => { e0 with count := e0.count + 1 }) ∧
      (∀ sub : Subscriber, sub.ResourceName = "test.model" →
        Cache.Subscribe failingBus { eventSubs := [], bus := [] } sub
          = ((getSubscription failingBus { eventSubs := [], bus := [] } "test.model" true).1,
              SubscribeOutcome.Loaded "system.connectionError"))) ∧
    getSubscription failingBus { eventSubs := [], bus := [] } "test.model" true
      = ({ eventSubs := [("test.model",
              { ResourceName := "test.model", count := 1, mqSub := none })],
           bus := [BusCall.Subscribe "event.test.model"] },
         .error "system.connectionError") ∧
    getSubscription failingBus
        { eventSubs := [("test.model",
            { ResourceName := "test.model", count := 1, mqSub := none })], bus := [] }
        "test.model" true
      = ({ eventSubs := [("test.model",
              { ResourceName := "test.model", count := 2, mqSub := none })],
           bus := [BusCall.Subscribe "event.test.model"] },
         .error "system.connectionError") :=
  ⟨⟨rfl, rfl⟩,
    failed_subscribe_keeps_reference failingBus { eventSubs := [], bus := [] } "test.model"
      "system.connectionError" rfl rfl,
    rfl, rfl⟩

/-! ### System reset -/

theorem mem_matchCalls {P : Type} (lib : ResourcePatterns P) (k : String)
    (e : EventSubscription) (ps : List P) (x : String × EventSubscription) :
    x ∈ matchCalls lib k e ps ↔ x = (k, e) ∧ ∃ pat ∈ ps, lib.Match pat k = true := by
  induction ps with
  | nil => simp [matchCalls]
  | cons pat ps ih =>
    by_cases hm : lib.Match pat k = true
    · simp only [matchCalls, hm, if_true, List.mem_cons, ih]
      constructor
      · rintro (h | ⟨h, _⟩)
        · exact ⟨h, pat, Or.inl rfl, hm⟩
        · exact ⟨h, pat, Or.inl rfl, hm⟩
      · rintro ⟨h, _⟩
        exact Or.inl h
    · simp only [matchCalls, hm, if_false, ih, Bool.false_eq_true]
      constructor
      · rintro ⟨h, q, hq, hqm⟩
        exact ⟨h, q, List.mem_cons_of_mem _ hq, hqm⟩
      · rintro ⟨h, q, hq, hqm⟩
        rcases List.mem_cons.1 hq with h1 | h1
        · rw [h1] at hqm
          exact absurd hqm hm
        · exact ⟨h, q, h1, hqm⟩

theorem count_matchCalls {P : Type} (lib : ResourcePatterns P) (k : String)
    (e : EventSubscription) (ps : List P) :
    (matchCalls lib k e ps).count (k, e) = (ps.filter (fun pat => lib.Match pat k)).length := by
  induction ps with
  | nil => simp [matchCalls]
  | cons pat ps ih =>
    by_cases hm : lib.Match pat k = true
    · simp [matchCalls, hm, List.filter_cons, ih]
    · simp [matchCalls, hm, List.filter_cons, ih]

theorem mem_eachSub {P : Type} (lib : ResourcePatterns P) (ps : List P)
    (m : List (String × EventSubscription)) (x : String × EventSubscription) :
    x ∈ eachSub lib ps m ↔ x ∈ m ∧ ∃ pat ∈ ps, lib.Match pat x.1 = true := by
  induction m with
  | nil => simp [eachSub]
  | cons a m ih =>
    obtain ⟨k, e⟩ := a
    simp only [eachSub, List.mem_append, mem_matchCalls, ih, List.mem_cons]
    constructor
    · rintro (⟨h, hp⟩ | ⟨h, hp⟩)
      · exact ⟨Or.inl h, by rw [h]; exact hp⟩
      · exact ⟨Or.inr h, hp⟩
    · rintro ⟨h | h, hp⟩
      · exact Or.inl ⟨h, by rw [h] at hp; exact hp⟩
      · exact Or.inr ⟨h, hp⟩

theorem count_eachSub {P : Type} (lib : ResourcePatterns P) (ps : List P)
    (m : List (String × EventSubscription)) (hnd : (m.map Prod.fst).Nodup)
    (k : String) (e : EventSubscription) (hmem : (k, e) ∈ m) :
    (eachSub lib ps m).count (k, e) = (ps.filter (fun pat => lib.Match pat k)).length := by
  induction m with
  | nil => cases hmem
  | cons a m ih =>
    obtain ⟨k1, e1⟩ := a
    simp only [List.map_cons, List.nodup_cons] at hnd
    simp only [eachSub, List.count_append]
    rcases List.mem_cons.1 hmem with h | h
    · cases h
      have hno : (eachSub lib ps m).count (k, e) = 0 := by
        apply List.count_eq_zero.2
        intro hin
        exact hnd.1 (List.mem_map_of_mem Prod.fst ((mem_eachSub lib ps m (k, e)).1 hin).1)
      rw [count_matchCalls, hno]
      rfl
    · have hne : k1 ≠ k := by
        intro heq
        apply hnd.1
        rw [heq]
        exact List.mem_map_of_mem Prod.fst h
      have hno : (matchCalls lib k1 e1 ps).count (k, e) = 0 := by
        apply List.count_eq_zero.2
        intro hin
        have := ((mem_matchCalls lib k1 e1 ps (k, e)).1 hin).1
        exact hne (congrArg Prod.fst this).symm
      rw [hno, ih hnd.2 h]
      simp

theorem mem_validPatterns {P : Type} (lib : ResourcePatterns P) (p : List String) (pat : P) :
    pat ∈ validPatterns lib p ↔
      ∃ r ∈ p, lib.ParseResourcePattern r = pat ∧ lib.IsValid pat = true := by
  induction p with
  | nil => simp [validPatterns]
  | cons r p ih =>
    by_cases hv : lib.IsValid (lib.ParseResourcePattern r) = true
    · simp only [validPatterns, hv, if_true, List.mem_cons, ih]
      constructor
      · rintro (h | ⟨q, hq, hqp, hqv⟩)
        · exact ⟨r, Or.inl rfl, h.symm, by rw [h]; exact hv⟩
        · exact ⟨q, Or.inr hq, hqp, hqv⟩
      · rintro ⟨q, hq | hq, hqp, hqv⟩
        · exact Or.inl (by rw [← hqp, hq])
        · exact Or.inr ⟨q, hq, hqp, hqv⟩
    · simp only [validPatterns, hv, if_false, ih, Bool.false_eq_true, List.mem_cons]
      constructor
      · rintro ⟨q, hq, hqp, hqv⟩
        exact ⟨q, Or.inr hq, hqp, hqv⟩
      · rintro ⟨q, hq | hq, hqp, hqv⟩
        · rw [hq] at hqp
          rw [← hqp] at hqv
          exact absurd hqv hv
        · exact ⟨q, hq, hqp, hqv⟩

theorem validPatterns_matches {P : Type} (lib : ResourcePatterns P) (p : List String)
    (name : String) :
    ((validPatterns lib p).filter (fun pat => lib.Match pat name)).length
      = validMatches lib p name := by
  unfold validMatches
  induction p with
  | nil => rfl
  | cons r p ih =>
    by_cases hv : lib.IsValid (lib.ParseResourcePattern r) = true
    · by_cases hm : lib.Match (lib.ParseResourcePattern r) name = true
      · simp [validPatterns, hv, hm, List.filter_cons, ih]
      · simp [validPatterns, hv, hm, List.filter_cons, ih]
    · simp [validPatterns, hv, List.filter_cons, ih]

theorem validPatterns_filter {P : Type} (lib : ResourcePatterns P) (p : List String) :
    validPatterns lib (p.filter (fun r => lib.IsValid (lib.ParseResourcePattern r)))
      = validPatterns lib p := by
  induction p with
  | nil => rfl
  | cons r p ih =>
    by_cases hv : lib.IsValid (lib.ParseResourcePattern r) = true
    · simp [validPatterns, hv, List.filter_cons, ih]
    · simp [validPatterns, hv, List.filter_cons, ih]

theorem eachSub_nil {P : Type} (lib : ResourcePatterns P)
    (m : List (String × EventSubscription)) : eachSub lib [] m = [] := by
  induction m with
  | nil => rfl
  | cons a m ih =>
    obtain ⟨k, e⟩ := a
    simp [eachSub, matchCalls, ih]

theorem forEachMatch_eq {P : Type} (lib : ResourcePatterns P) (c : Cache) (p : List String) :
    forEachMatch lib c p = eachSub lib (validPatterns lib p) c.eventSubs := by
  unfold forEachMatch
  cases p with
  | nil => simp [validPatterns, eachSub_nil]
  | cons r p => simp

/-- C12. For every pattern library, registry with distinct keys and list of pattern strings
`p`: `forEachMatch` invokes `cb` on a resident record exactly as many times as there are
strings of `p` that parse as a valid pattern matching the record's name, and it invokes `cb`
on a record at least once exactly when the record is resident and some string of `p` parses
as a valid pattern matching its name.  Invalid patterns contribute nothing (dropping them
from `p` gives the same invocations), and an empty `p` gives no invocation.
`handleSystemReset` makes the `handleResetResource` calls of the resources patterns first
and then the `handleResetAccess` calls of the access patterns, and makes no call when the
payload does not decode. -/
theorem forEachMatch_counts {P : Type} (lib : ResourcePatterns P) (c : Cache)
    (p : List String) (hnd : (c.eventSubs.map Prod.fst).Nodup) :
    (∀ name e, (name, e) ∈ c.eventSubs →
        (forEachMatch lib c p).count (name, e) = validMatches lib p name) ∧
    (∀ name e, (name, e) ∈ forEachMatch lib c p ↔
        (name, e) ∈ c.eventSubs ∧
          ∃ r ∈ p, lib.IsValid (lib.ParseResourcePattern r) = true ∧
            lib.Match (lib.ParseResourcePattern r) name = true) ∧
    forEachMatch lib c (p.filter (fun r => lib.IsValid (lib.ParseResourcePattern r)))
      = forEachMatch lib c p ∧
    forEachMatch lib c [] = [] ∧
    (∀ (DecodeSystemReset : Bytes → Except GoError SystemReset) (payload : Bytes),
      (∀ r, DecodeSystemReset payload = .ok r →
        handleSystemReset lib DecodeSystemReset c payload
          = (forEachMatch lib c r.Resources).map
                (fun x => ResetCall.handleResetResource x.1 x.2) ++
              (forEachMatch lib c r.Access).map
                (fun x => ResetCall.handleResetAccess x.1 x.2)) ∧
      (∀ err, DecodeSystemReset payload = .error err →
        handleSystemReset lib DecodeSystemReset c payload = [])) := by
  refine ⟨?_, ?_, ?_, rfl, ?_⟩
  · intro name e hmem
    rw [forEachMatch_eq, count_eachSub lib _ _ hnd name e hmem, validPatterns_matches]
  · intro name e
    rw [forEachMatch_eq, mem_eachSub]
    constructor
    · rintro ⟨hm, pat, hpat, hmatch⟩
      obtain ⟨r, hr, hrp, hv⟩ := (mem_validPatterns lib p pat).1 hpat
      subst hrp
      exact ⟨hm, r, hr, hv, hmatch⟩
    · rintro ⟨hm, r, hr, hv, hmatch⟩
      exact ⟨hm, _, (mem_validPatterns lib p _).2 ⟨r, hr, rfl, hv⟩, hmatch⟩
  · rw [forEachMatch_eq, forEachMatch_eq, validPatterns_filter]
  · intro dec payload
    constructor
    · intro r hr
      simp [handleSystemReset, hr]
    · intro err herr
      simp [handleSystemReset, herr]

/-- Witness for `forEachMatch_counts`: the registry `twoRecords` with the literal pattern
library and the patterns `test.model`, the invalid empty string, `test.model` again and
`other`; the record `test.model` is visited twice and `test.collection` never. -/
theorem forEachMatch_counts_witness :
    (twoRecords.eventSubs.map Prod.fst).Nodup ∧
    forEachMatch literalPatterns twoRecords ["test.model", "", "test.model", "other"]
      = [("test.model", { ResourceName := "test.model", count := 1, mqSub := none }),
         ("test.model", { ResourceName := "test.model", count := 1, mqSub := none })] ∧
    validMatches literalPatterns ["test.model", "", "test.model", "other"] "test.model" = 2 ∧
    (∀ name e, (name, e) ∈ twoRecords.eventSubs →
      (forEachMatch literalPatterns twoRecords
          ["test.model", "", "test.model", "other"]).count (name, e)
        = validMatches literalPatterns ["test.model", "", "test.model", "other"] name) :=
  ⟨by decide, by decide, by decide,
    (forEachMatch_counts literalPatterns twoRecords
      ["test.model", "", "test.model", "other"] (by decide)).1⟩

end Resgate
